import Mathlib

/-!
# LRU cache (`src/problems/146.cpp`)

A shallow embedding of `class LRUCache` and a verification of its contract.

Modelling choices.

* `int` keys and values are `Int`; the code never does arithmetic on them, so no
  wrap-around can occur and every theorem covers the 32-bit range in particular.
* `std::size_t capacity_` and `cache_.size()` are `Nat`.  The only arithmetic is
  `cache_.size() + 1`, on a size that is bounded by `max_size()`, far below `SIZE_MAX`.
* `std::unordered_map<int, Entry>` is node based: element addresses are stable until the
  element is erased.  The map is a list of nodes, each with its address; `try_emplace`
  allocates a fresh address (the allocation counter `brk_` is ghost state).  An `Entry*`
  is `Option Nat` (`none` is `nullptr`); a pointer whose address is not the address of a
  node in the map is dangling.
* Reading or writing through a dangling pointer and a failing `assert` make the operation
  return `none`.
* `cache_.reserve(capacity_)` in the constructor changes no observable state and is left out.
-/

namespace LRU

/-- The `struct Entry` of the source: the two links, the key and the value. -/
structure Entry where
  prev_ : Option Nat
  next_ : Option Nat
  key_ : Int
  value_ : Int
deriving DecidableEq

/-- A node of `std::unordered_map<int, Entry>`: the address of the element, the map key
(`first`) and the mapped entry (`second`). -/
structure Node where
  addr : Nat
  first : Int
  second : Entry
deriving DecidableEq

/-- The data members of `class LRUCache`, and the allocation counter `brk_`. -/
structure LRUCache where
  capacity_ : Nat
  cache_ : List Node
  oldest_ : Option Nat
  newest_ : Option Nat
  brk_ : Nat
deriving DecidableEq

/-- Read through an `Entry*`: the entry stored at address `a`, `none` when `a` is dangling. -/
def deref (h : List Node) (a : Nat) : Option Entry :=
  (h.find? (fun n => decide (n.addr = a))).map (fun n => n.second)

/-- The node function of a write through a pointer to address `a`. -/
def upd (a : Nat) (g : Entry → Entry) (n : Node) : Node :=
  if n.addr = a then { n with second := g n.second } else n

/-- Write through an `Entry*`: apply `g` to the entry at address `a`; `none` when `a` is
dangling. -/
def modify (h : List Node) (a : Nat) (g : Entry → Entry) : Option (List Node) :=
  if (deref h a).isSome then some (h.map (upd a g)) else none

/-- The call `cache_.find(key)`: the address of the element with that key, `none` for
`cache_.end()`. -/
def find (h : List Node) (key : Int) : Option Nat :=
  (h.find? (fun n => decide (n.first = key))).map (fun n => n.addr)

/-- The call `cache_.erase(key)`. -/
def erase (h : List Node) (key : Int) : List Node :=
  h.filter (fun n => decide (n.first ≠ key))

/-- The node function of a write through a pointer that is guarded by a null test. -/
def optUpd (o : Option Nat) (g : Entry → Entry) (n : Node) : Node :=
  match o with
  | some a => upd a g n
  | none => n

/-- The statement `if (p) { p->field = x; }`: a write through `p` guarded by a null test. -/
def writeIf (h : List Node) (p : Option Nat) (g : Entry → Entry) : Option (List Node) :=
  match p with
  | some a => modify h a g
  | none => some h

/-- The method `Entry::unlink` on the entry at address `self`:
`if (prev_) { prev_->next_ = next_; }  if (next_) { next_->prev_ = prev_; }`.
The members of `*this` are read again for the second statement. -/
def Entry.unlink (h : List Node) (self : Nat) : Option (List Node) := do
  let e ← deref h self
  let h1 ← writeIf h e.prev_ (fun x => { x with next_ := e.next_ })
  let e1 ← deref h1 self
  writeIf h1 e1.next_ (fun x => { x with prev_ := e1.prev_ })

/-- The method `Entry::link` on the entry at address `self`:
`if (prev_) { prev_->next_ = this; }  if (next_) { next_->prev_ = this; }`. -/
def Entry.link (h : List Node) (self : Nat) : Option (List Node) := do
  let e ← deref h self
  let h1 ← writeIf h e.prev_ (fun x => { x with next_ := some self })
  let e1 ← deref h1 self
  writeIf h1 e1.next_ (fun x => { x with prev_ := some self })

/-- The constructor `LRUCache(capacity)`. -/
def LRUCache.new (capacity : Nat) : LRUCache :=
  { capacity_ := capacity, cache_ := [], oldest_ := none, newest_ := none, brk_ := 0 }

/-- The method `LRUCache::update(entry, value)`; `entry` is the address of the entry. -/
def LRUCache.update (s : LRUCache) (entry : Nat) (value : Option Int) : Option LRUCache :=
  -- if (&entry == newest_) { if (value) { entry.value_ = *value; } return; }
  if s.newest_ = some entry then
    match value with
    | some v => do
      let h ← modify s.cache_ entry (fun x => { x with value_ := v })
      some { s with cache_ := h }
    | none => some s
  else do
    -- if (&entry == oldest_) { oldest_ = entry.next_; }
    let e ← deref s.cache_ entry
    let oldest := if s.oldest_ = some entry then e.next_ else s.oldest_
    -- entry.unlink();
    let h1 ← Entry.unlink s.cache_ entry
    -- entry.prev_ = newest_;  entry.next_ = nullptr;
    let h2 ← modify h1 entry (fun x => { x with prev_ := s.newest_ })
    let h3 ← modify h2 entry (fun x => { x with next_ := none })
    -- if (value) { entry.value_ = *value; }
    let h4 ← (match value with
      | some v => modify h3 entry (fun x => { x with value_ := v })
      | none => some h3)
    -- entry.link();  newest_ = &entry;
    let h5 ← Entry.link h4 entry
    some { s with cache_ := h5, oldest_ := oldest, newest_ := some entry }

/-- The method `LRUCache::insert_newest(key, value)`.  When the key is already in the map
`try_emplace` does not insert and `assert(inserted)` fails. -/
def LRUCache.insert_newest (s : LRUCache) (key value : Int) : Option LRUCache :=
  -- auto [it, inserted] = cache_.try_emplace(key, Entry{nullptr, nullptr, key, value});
  -- assert(inserted);
  match find s.cache_ key with
  | some _ => none
  | none => do
    let it := s.brk_
    let h0 := { addr := it, first := key,
                second := { prev_ := none, next_ := none, key_ := key, value_ := value } }
                :: s.cache_
    -- if (capacity_ != 1) { it->second.prev_ = newest_; }
    let h1 ← (if s.capacity_ ≠ 1 then modify h0 it (fun x => { x with prev_ := s.newest_ })
      else some h0)
    -- newest_ = &it->second;  newest_->link();
    let h2 ← Entry.link h1 it
    -- if (!oldest_) { oldest_ = newest_; }
    let oldest := (match s.oldest_ with
      | some o => some o
      | none => some it)
    some { s with cache_ := h2, oldest_ := oldest, newest_ := some it, brk_ := it + 1 }

/-- The method `LRUCache::evict_oldest()`.  With a null `oldest_` the `assert(oldest_)`
fails. -/
def LRUCache.evict_oldest (s : LRUCache) : Option LRUCache :=
  match s.oldest_ with
  | none => none
  | some o => do
    -- auto new_oldest = oldest_->next_;
    let e ← deref s.cache_ o
    let new_oldest := e.next_
    -- oldest_->unlink();
    let h1 ← Entry.unlink s.cache_ o
    -- cache_.erase(oldest_->key_);  oldest_ = new_oldest;
    let e1 ← deref h1 o
    some { s with cache_ := erase h1 e1.key_, oldest_ := new_oldest }

/-- The method `LRUCache::get(key)`: the returned value and the state afterwards. -/
def LRUCache.get (s : LRUCache) (key : Int) : Option (Int × LRUCache) :=
  match find s.cache_ key with
  | some it => do
    -- update(it->second);  return it->second.value_;
    let s1 ← s.update it none
    let e ← deref s1.cache_ it
    some (e.value_, s1)
  | none => some (-1, s)

/-- The method `LRUCache::put(key, value)`. -/
def LRUCache.put (s : LRUCache) (key value : Int) : Option LRUCache :=
  if s.capacity_ = 0 then some s
  else
    match find s.cache_ key with
    | some it => s.update it (some value)
    | none => do
      -- if (cache_.size() + 1 > capacity_) { evict_oldest(); }
      let s1 ← (if s.cache_.length + 1 > s.capacity_ then s.evict_oldest else some s)
      s1.insert_newest key value

/-- A call of one of the two public methods. -/
inductive Op where
  | get (key : Int)
  | put (key value : Int)
deriving DecidableEq

/-- Run a sequence of calls; the results of the `get` calls in order, and the final state. -/
def LRUCache.run (s : LRUCache) : List Op → Option (List Int × LRUCache)
  | [] => some ([], s)
  | Op.get k :: ops =>
    match s.get k with
    | some (r, s1) =>
      match s1.run ops with
      | some (rs, s2) => some (r :: rs, s2)
      | none => none
    | none => none
  | Op.put k v :: ops =>
    match s.put k v with
    | some s1 => s1.run ops
    | none => none

/-- The resident keys: the keys of the index `cache_`. -/
def LRUCache.keys (s : LRUCache) : List Int :=
  s.cache_.map (fun n => n.first)


/-! ## The recency chain -/

/-- One link of the recency chain: the address, key and value of a resident entry. -/
structure Cell where
  addr : Nat
  key : Int
  val : Int
deriving DecidableEq

/-- The address of the first cell of a chain, `d` for the empty chain. -/
def hd (ns : List Cell) (d : Option Nat) : Option Nat :=
  match ns with
  | [] => d
  | c :: _ => some c.addr

/-- The address of the last cell of a chain, `d` for the empty chain. -/
def lastA (ns : List Cell) (d : Option Nat) : Option Nat :=
  match ns with
  | [] => d
  | c :: rest => lastA rest (some c.addr)

/-- The map node of a cell whose entry has the links `pv` (as `prev_`) and `nx` (as `next_`). -/
def Cell.node (c : Cell) (pv nx : Option Nat) : Node :=
  { addr := c.addr, first := c.key,
    second := { prev_ := pv, next_ := nx, key_ := c.key, value_ := c.val } }

/-- The map nodes of a stretch `ns` of the chain, listed from the most recently used cell
to the least recently used one: `nx` is what the first cell has as `next_`, `pv` what the
last cell has as `prev_`; in between `next_` is the neighbour before and `prev_` the
neighbour after. -/
def seg (nx : Option Nat) (ns : List Cell) (pv : Option Nat) : List Node :=
  match ns with
  | [] => []
  | c :: rest => c.node (hd rest pv) nx :: seg (some c.addr) rest pv

/-- The state `s` holds exactly the chain `ns` (most recently used first), except that
nothing is said of `newest_`. -/
structure RepOld (s : LRUCache) (ns : List Cell) : Prop where
  heap : s.cache_.Perm (seg none ns none)
  addrs : (ns.map (fun c => c.addr)).Nodup
  keys : (ns.map (fun c => c.key)).Nodup
  brk : ∀ c ∈ ns, c.addr < s.brk_
  oldest : s.oldest_ = lastA ns none
  size : ns.length ≤ s.capacity_

/-- The state `s` holds exactly the chain `ns` (most recently used first). -/
structure Rep (s : LRUCache) (ns : List Cell) extends RepOld s ns : Prop where
  newest : s.newest_ = hd ns none

/-! ## The reference list model -/

/-- The `get` of the list model: `-1` when `k` is absent, otherwise the value of `k`, whose
pair moves to the front. -/
def Model.get (l : List (Int × Int)) (k : Int) : Int × List (Int × Int) :=
  match l.find? (fun p => decide (p.1 = k)) with
  | none => (-1, l)
  | some p => (p.2, p :: l.erase p)

/-- The `put` of the list model with capacity `c`: nothing when `c = 0`; when `k` is present
its pair gets the new value and moves to the front; otherwise the last pair is dropped if
the list already holds `c` pairs, and `(k, v)` is prepended. -/
def Model.put (c : Nat) (l : List (Int × Int)) (k v : Int) : List (Int × Int) :=
  if c = 0 then l
  else
    match l.find? (fun p => decide (p.1 = k)) with
    | some p => (k, v) :: l.erase p
    | none => (k, v) :: (if l.length = c then l.dropLast else l)

/-- The results of the `get` calls of a sequence of calls on the list model. -/
def Model.run (c : Nat) (l : List (Int × Int)) : List Op → List Int
  | [] => []
  | Op.get k :: ops => (Model.get l k).1 :: Model.run c (Model.get l k).2 ops
  | Op.put k v :: ops => Model.run c (Model.put c l k v) ops

/-- The list of (key, value) pairs of a chain. -/
def pairs (ns : List Cell) : List (Int × Int) :=
  ns.map (fun c => (c.key, c.val))

/-- The chain after `get(k)`: the cell of `k`, if there is one, moves to the front. -/
def chainGet (ns : List Cell) (k : Int) : List Cell :=
  match ns.find? (fun c => decide (c.key = k)) with
  | some c => c :: ns.erase c
  | none => ns

/-- The chain after `put(k, v)` on a cache of capacity `cap` whose next allocation is at
address `brk`. -/
def chainPut (cap brk : Nat) (ns : List Cell) (k v : Int) : List Cell :=
  if cap = 0 then ns
  else
    match ns.find? (fun c => decide (c.key = k)) with
    | some c => { c with val := v } :: ns.erase c
    | none => { addr := brk, key := k, val := v } :: (if ns.length = cap then ns.dropLast else ns)

/-! ## Notions used in the statements -/

/-- A state is reachable when some sequence of `get` and `put` calls on a freshly
constructed cache ends in it. -/
def Reachable (s : LRUCache) : Prop :=
  ∃ c ops rs, (LRUCache.new c).run ops = some (rs, s)

/-- The value stored in the index for `key`, `none` when `key` is not resident. -/
def LRUCache.lookup (s : LRUCache) (key : Int) : Option Int :=
  (s.cache_.find? (fun n => decide (n.first = key))).map (fun n => n.second.value_)

/-- Follow `next_` links from the pointer `p` for at most `fuel` steps and list the keys of
the entries met. -/
def walk (h : List Node) : Nat → Option Nat → List Int
  | 0, _ => []
  | _ + 1, none => []
  | fuel + 1, some a =>
    match deref h a with
    | some e => e.key_ :: walk h fuel e.next_
    | none => []

/-- The eviction order: the keys met from `oldest_` along the `next_` links, the next
entry to be evicted first. -/
def LRUCache.order (s : LRUCache) : List Int :=
  walk s.cache_ s.cache_.length s.oldest_

/-- The key that a call touches in state `s`: a `get` touches its key when it finds it, a
`put` touches its key. -/
def touched (s : LRUCache) : Op → Option Int
  | Op.get k => if k ∈ s.keys then some k else none
  | Op.put k _ => some k

/-- The keys touched by the calls of a sequence started in state `s`, one item per call. -/
def touchLog (s : LRUCache) : List Op → List (Option Int)
  | [] => []
  | Op.get k :: ops =>
    touched s (Op.get k) ::
      (match s.get k with
      | some (_, s1) => touchLog s1 ops
      | none => [])
  | Op.put k v :: ops =>
    touched s (Op.put k v) ::
      (match s.put k v with
      | some s1 => touchLog s1 ops
      | none => [])

/-- The position, counted from 1, of the last item of the log that touches `k`; `0` when
none does. -/
def lastTouch : List (Option Int) → Int → Nat
  | [], _ => 0
  | t :: log, k =>
    if lastTouch log k ≠ 0 then lastTouch log k + 1
    else if t = some k then 1 else 0

/-- Follow one kind of link (`link` selects `next_` or `prev_`) from the pointer `p` for at
most `fuel` steps and list the entries met, each with its address. -/
def follow (link : Entry → Option Nat) (h : List Node) : Nat → Option Nat → List (Nat × Entry)
  | 0, _ => []
  | _ + 1, none => []
  | fuel + 1, some a =>
    match deref h a with
    | some e => (a, e) :: follow link h fuel (link e)
    | none => []

/-- The entries met from `oldest_` along the `next_` links. -/
def LRUCache.forward (s : LRUCache) : List (Nat × Entry) :=
  follow (fun e => e.next_) s.cache_ s.cache_.length s.oldest_

/-- The entries met from `newest_` along the `prev_` links. -/
def LRUCache.backward (s : LRUCache) : List (Nat × Entry) :=
  follow (fun e => e.prev_) s.cache_ s.cache_.length s.newest_

/-! ## Sample states -/

/-- The state after `put(1,1); put(2,2); get(1)` on a cache of capacity 2: key 2 (at
address 1) is the oldest entry, key 1 (at address 0) the newest. -/
def sampleFull : LRUCache :=
  { capacity_ := 2,
    cache_ := [{ addr := 1, first := 2,
                 second := { prev_ := none, next_ := some 0, key_ := 2, value_ := 2 } },
               { addr := 0, first := 1,
                 second := { prev_ := some 1, next_ := none, key_ := 1, value_ := 1 } }],
    oldest_ := some 1, newest_ := some 0, brk_ := 2 }

/-- The state after `put(1,1)` on a cache of capacity 1. -/
def sampleOne : LRUCache :=
  { capacity_ := 1,
    cache_ := [{ addr := 0, first := 1,
                 second := { prev_ := none, next_ := none, key_ := 1, value_ := 1 } }],
    oldest_ := some 0, newest_ := some 0, brk_ := 1 }

/-- The state after `put(1,1)` on a cache of capacity 2: one resident key, room for one
more. -/
def sampleRoom : LRUCache :=
  { capacity_ := 2,
    cache_ := [{ addr := 0, first := 1,
                 second := { prev_ := none, next_ := none, key_ := 1, value_ := 1 } }],
    oldest_ := some 0, newest_ := some 0, brk_ := 1 }

/-- The position, counted from 1, of the last call of `ops`, run on a fresh cache of
capacity `c`, that touches the key `k`; `0` when none does.  A key is more recently used
than another when this number is larger. -/
def lastUse (c : Nat) (ops : List Op) (k : Int) : Nat :=
  lastTouch (touchLog (LRUCache.new c) ops) k

end LRU

/-!
# Wildcard matching (`src/problems/44.cpp`)

A `std::string` or `std::string_view` is a list of characters; `substr(1)` is the tail.

* `coalescePatternWildcards` works in place: the range-`for` reads the characters of the
  buffer one after the other while `out` writes into the same buffer.  Iterators are
  indices; an access at an index that is not below the size makes the model return `none`.
* `std::size_t` is a natural number; the one subtraction that could wrap,
  `needed_input_chars - 1`, wraps modulo `2 ^ 64`.
* The `Memoizer` is its table: the list of the keys whose `std::optional` holds a value,
  with that value, the most recent first.  `get` on a key without entry creates an empty
  `std::optional`, which every later `get` treats as the absence of an entry does.
* `isMatchRecursive` calls itself on arguments whose sizes add up to less; it is run with a
  bound on the depth of the recursion and returns `none` when the bound is reached.
* `std::regex` (default grammar: ECMAScript) and `std::regex_match` are library code.  Only
  the expressions that `patternToRegex` writes for a pattern of lowercase letters, `'?'` and
  `'*'` are modelled: a sequence of terms, each a lowercase letter or `.`, possibly followed
  by the quantifier `*`.  A letter matches itself; `.` matches every character except the
  line terminators.  `regex_match` tells whether the whole input matches the sequence.  Any
  other expression makes the model return `none`.
-/

namespace Wildcard

/-- The table of a `Memoizer<bool(std::size_t, std::size_t)>`. -/
abbrev Memoizer := List ((Nat × Nat) × Bool)

/-- The call `memoizer.get(a, b)`, read as a value: the memoized result, if there is one. -/
def Memoizer.get (memo : Memoizer) (a b : Nat) : Option Bool :=
  (memo.find? (fun e => decide (e.1 = (a, b)))).map (fun e => e.2)

/-- The assignment `memoized_result = r` through the reference that `get(a, b)` returned. -/
def Memoizer.set (memo : Memoizer) (a b : Nat) (r : Bool) : Memoizer :=
  ((a, b), r) :: memo

/-- The loop `for (char c : pattern) { ... }` of `coalescePatternWildcards` with `k`
characters still to read: `i` is the index of the next character read, `out` the index
written next.  Returns the buffer and `out`. -/
def coalesceLoop : Nat → List Char → Nat → Nat → Char → Option (List Char × Nat)
  | 0, buf, _, out, _ => some (buf, out)
  | k + 1, buf, i, out, last =>
    match buf[i]? with
    | none => none
    | some c =>
      -- if (c != '*' || last != '*') { *out++ = c; }  last = c;
      if c ≠ '*' ∨ last ≠ '*' then
        if out < buf.length then coalesceLoop k (buf.set out c) (i + 1) (out + 1) c
        else none
      else coalesceLoop k buf (i + 1) out c

/-- The function `Solution::coalescePatternWildcards(pattern)`. -/
def coalescePatternWildcards (pattern : List Char) : Option (List Char) :=
  match coalesceLoop pattern.length pattern 0 0 (Char.ofNat 0) with
  -- pattern.resize(std::distance(pattern.begin(), out));
  | some (buf, out) => some (buf.take out)
  | none => none

/-- The value of `needed_input_chars - 1` in `std::size_t`. -/
def pred64 (n : Nat) : Nat :=
  (n + (2 ^ 64 - 1)) % 2 ^ 64

/-- The function `Solution::isMatchRecursive(input, pattern, needed_input_chars, memoizer)`
with a bound `fuel` on the depth of the recursion: the value returned and the memoizer
afterwards. -/
def isMatchRecursive :
    Nat → List Char → List Char → Nat → Memoizer → Option (Bool × Memoizer)
  | 0, _, _, _, _ => none
  | fuel + 1, input, pattern, needed_input_chars, memoizer =>
    if input.length < needed_input_chars then some (false, memoizer)
    else if pattern = [] then some (decide (input = []), memoizer)
    else if input = [] then some (decide (pattern = ['*']), memoizer)
    else
      match memoizer.get input.length pattern.length with
      | some r => some (r, memoizer)
      | none =>
        match input, pattern with
        | next_char :: input1, next_pattern :: pattern1 =>
          if next_pattern = '*' then
            -- isMatchRecursive(input.substr(1), pattern, ...) ||
            -- isMatchRecursive(input, pattern.substr(1), ...)
            match isMatchRecursive fuel input1 (next_pattern :: pattern1) needed_input_chars
                memoizer with
            | none => none
            | some (true, m1) => some (true, m1.set input.length pattern.length true)
            | some (false, m1) =>
              match isMatchRecursive fuel (next_char :: input1) pattern1 needed_input_chars
                  m1 with
              | none => none
              | some (r, m2) => some (r, m2.set input.length pattern.length r)
          else if next_pattern = '?' then
            match isMatchRecursive fuel input1 pattern1 (pred64 needed_input_chars)
                memoizer with
            | none => none
            | some (r, m1) => some (r, m1.set input.length pattern.length r)
          else if next_char = next_pattern then
            match isMatchRecursive fuel input1 pattern1 (pred64 needed_input_chars)
                memoizer with
            | none => none
            | some (r, m1) => some (r, m1.set input.length pattern.length r)
          else some (false, memoizer.set input.length pattern.length false)
        | _, _ => none

/-- The function `Solution::isMatch(input, pattern)`. -/
def isMatch (input pattern : List Char) : Option Bool :=
  match coalescePatternWildcards pattern with
  | none => none
  | some new_pat =>
    let num_wildcard := new_pat.countP (fun c => decide (c = '*'))
    let needed_input_chars := new_pat.length - num_wildcard
    -- memoizer.clear();
    (isMatchRecursive (input.length + new_pat.length + 1) input new_pat needed_input_chars
      []).map (fun p => p.1)

/-- The wildcard semantics: the whole input matches the pattern, where `'?'` matches
exactly one arbitrary character, `'*'` matches any sequence of characters, the empty one
included, and every other character matches itself. -/
inductive Matches : List Char → List Char → Prop
  | nil : Matches [] []
  | star (s rest p : List Char) : Matches rest p → Matches (s ++ rest) ('*' :: p)
  | question (c : Char) (i p : List Char) : Matches i p → Matches (c :: i) ('?' :: p)
  | char (c : Char) (i p : List Char) : c ≠ '*' → c ≠ '?' → Matches i p →
      Matches (c :: i) (c :: p)

/-- The pattern written by `coalescePatternWildcards`, as a function of the character read
before (`last`) and the characters still to read. -/
def coalesced : Char → List Char → List Char
  | _, [] => []
  | last, c :: cs => if c ≠ '*' ∨ last ≠ '*' then c :: coalesced c cs else coalesced c cs

/-- The number of characters of the pattern other than `'*'`. -/
def nonStar (p : List Char) : Nat :=
  p.length - p.countP (fun c => decide (c = '*'))

/-- The suffix of length `a` of `l`. -/
def suffixOf (l : List Char) (a : Nat) : List Char :=
  l.drop (l.length - a)

/-- Every memoized result is right: the entry for `(a, b)` tells whether the suffix of
length `a` of the input `I` matches the suffix of length `b` of the pattern `P`. -/
def MemoOK (I P : List Char) (memo : Memoizer) : Prop :=
  ∀ a b r, memo.get a b = some r → (r = true ↔ Matches (suffixOf I a) (suffixOf P b))

/-- An atom of the modelled regular expressions: `.` or a letter. -/
inductive Atom
  | any
  | lit (c : Char)
  deriving DecidableEq, Repr

/-- A term of the modelled regular expressions: an atom, and whether `*` follows it. -/
structure Term where
  atom : Atom
  star : Bool
  deriving DecidableEq, Repr

/-- The line terminators, which `.` does not match. -/
def isLineTerminator (c : Char) : Bool :=
  decide (c = '\n') || decide (c = '\r')

/-- An atom matches one character. -/
def Atom.matches : Atom → Char → Bool
  | Atom.any, c => !isLineTerminator c
  | Atom.lit x, c => decide (c = x)

/-- One step of reading a regular expression from left to right; the terms read so far are
kept in reverse. -/
def parseStep (acc : Option (List Term)) (c : Char) : Option (List Term) :=
  match acc with
  | none => none
  | some ts =>
    if c = '*' then
      match ts with
      | t :: rest => if t.star then none else some (Term.mk t.atom true :: rest)
      | [] => none
    else if c = '.' then some (Term.mk Atom.any false :: ts)
    else if c.isLower then some (Term.mk (Atom.lit c) false :: ts)
    else none

/-- The constructor `std::regex(regex_pat)` on the modelled expressions. -/
def parseRegex (regex_pat : List Char) : Option (List Term) :=
  (regex_pat.foldl parseStep (some [])).map List.reverse

/-- The whole input matches the sequence of terms. -/
def termsMatch : List Term → List Char → Bool
  | [], input => decide (input = [])
  | t :: ts, input =>
    if t.star then
      (List.range (input.length + 1)).any (fun k =>
        (input.take k).all t.atom.matches && termsMatch ts (input.drop k))
    else
      match input with
      | [] => false
      | c :: rest => t.atom.matches c && termsMatch ts rest

/-- The function `patternToRegex(pattern)`, up to the construction of the `std::regex`: the
string `regex_pat`. -/
def patternToRegex (pattern : List Char) : List Char :=
  pattern.foldl (fun regex_pat c =>
    if c = '*' then regex_pat ++ ['.', '*']
    else if c = '?' then regex_pat ++ ['.']
    else regex_pat ++ [c]) []

/-- The function `isMatchRegex(input, pattern)`. -/
def isMatchRegex (input pattern : List Char) : Option Bool :=
  (parseRegex (patternToRegex pattern)).map (fun ts => termsMatch ts input)

/-- The term that `patternToRegex` writes for one character of the pattern. -/
def toTerm (c : Char) : Term :=
  if c = '*' then Term.mk Atom.any true
  else if c = '?' then Term.mk Atom.any false
  else Term.mk (Atom.lit c) false

/-- A character of the patterns of the problem: a lowercase letter, `'?'` or `'*'`. -/
def isPatternChar (c : Char) : Bool :=
  c.isLower || decide (c = '?') || decide (c = '*')

end Wildcard

/-!
# Merge sorted array (`src/problems/587.cpp`)

A `std::vector<int>` is a list, an iterator into it an index.  A read or write at an index
that is not below the size, and a failing `assert`, make the model return `none`.

* `int` is a 32-bit signed integer.  The sum `m + n` of the first assertion is computed in
  `int`; signed overflow is undefined and makes the model return `none`.  In the comparison
  with a size the `int` is converted to `std::size_t`, that is taken modulo `2 ^ 64`.
* The iterator `first + n` exists only for `0 ≤ n ≤ size`; outside that range the model
  returns `none`.
* `std::rotate(first, middle, last)` makes the element at `middle` the first one; it is
  applied to the reversed vector.
* `std::copy(first, last, out)` is the forward loop `while (first != last) *out++ = *first++;`,
  also when source and destination are in the same vector.
* The `while (true)` loop consumes one element of `nums1` or `nums2` in each iteration and is
  run for at most `nums1.size() + 1` iterations; the copy loops for at most as many
  iterations as the source has elements.
-/

namespace MergeSorted

/-- The algorithm `std::rotate` on a whole list with `middle` at index `k`. -/
def rotate (l : List Int) (k : Nat) : List Int :=
  l.drop k ++ l.take k

/-- The call `std::copy(first, last, out)` for a source `src = [first, last)` in another
vector: write the elements of `src` to `v` from index `out` on. -/
def copyFrom : List Int → List Int → Nat → Option (List Int)
  | [], v, _ => some v
  | x :: src, v, out => if out < v.length then copyFrom src (v.set out x) (out + 1) else none

/-- The call `std::copy(it1, nums1.end(), out)` with source and destination in the same
vector `v`, for at most `fuel` elements. -/
def copyWithin : Nat → List Int → Nat → Nat → Option (List Int)
  | 0, v, it1, _ => if it1 = v.length then some v else none
  | fuel + 1, v, it1, out =>
    if it1 = v.length then some v
    else
      match v[it1]? with
      | some x => if out < v.length then copyWithin fuel (v.set out x) (it1 + 1) (out + 1)
                  else none
      | none => none

/-- The loop `while (true) { ... }` of `merge`, for at most `fuel` iterations: `v` is
`nums1`, and `out`, `it1` and `it2` are the three iterators as indices. -/
def mergeLoop (nums2 : List Int) : Nat → List Int → Nat → Nat → Nat → Option (List Int)
  | 0, _, _, _, _ => none
  | fuel + 1, v, out, it1, it2 =>
    if it1 = v.length then
      -- std::copy(it2, nums2.end(), out); return;
      copyFrom (nums2.drop it2) v out
    else if it2 = nums2.length then
      -- std::copy(it1, nums1.end(), out); return;
      copyWithin (v.length - it1) v it1 out
    else
      match v[it1]?, nums2[it2]? with
      | some a, some b =>
        if out < v.length then
          -- if (*it1 < *it2) { *out++ = *it1++; } else { *out++ = *it2++; }
          if a < b then mergeLoop nums2 fuel (v.set out a) (out + 1) (it1 + 1) it2
          else mergeLoop nums2 fuel (v.set out b) (out + 1) it1 (it2 + 1)
        else none
      | _, _ => none

/-- The least value of `int`. -/
def INT_MIN : Int := -2147483648

/-- The greatest value of `int`. -/
def INT_MAX : Int := 2147483647

/-- The result of an `int` operation whose mathematical value is `x`. -/
def int32 (x : Int) : Option Int :=
  if INT_MIN ≤ x ∧ x ≤ INT_MAX then some x else none

/-- The value of an `int` converted to `std::size_t`. -/
def toSize (x : Int) : Int :=
  x % 2 ^ 64

/-- The iterator `first + n` in a vector of `size` elements, as an index. -/
def advance (size : Nat) (n : Int) : Option Nat :=
  if 0 ≤ n ∧ n ≤ (size : Int) then some n.toNat else none

/-- The function `Solution::merge(nums1, m, nums2, n)`: the vector `nums1` afterwards. -/
def merge (nums1 : List Int) (m : Int) (nums2 : List Int) (n : Int) : Option (List Int) :=
  -- assert(nums1.size() == m + n);
  match int32 (m + n) with
  | none => none
  | some sum =>
    if (nums1.length : Int) ≠ toSize sum then none
    -- assert(nums2.size() == n);
    else if (nums2.length : Int) ≠ toSize n then none
    else
      -- std::rotate(nums1.rbegin(), nums1.rbegin() + n, nums1.rend());
      -- auto out = nums1.begin(); auto it1 = nums1.begin() + n; auto it2 = nums2.begin();
      match advance nums1.length n with
      | none => none
      | some k =>
        let v := (rotate nums1.reverse k).reverse
        mergeLoop nums2 (v.length + 1) v 0 k 0

end MergeSorted

/-!
# First bad version (`src/problems/278.cpp`)

`int` is a 32-bit signed integer.  Signed overflow is undefined: every arithmetic result
passes through `int32`, which is `none` outside the range of `int`.  The `while` loop halves
`high - low` in each iteration, so 32 iterations are enough for every `int` input; the loop
is run with that bound and returns `none` should it be exceeded.
-/

namespace FirstBadVersion

/-- The least value of `int`. -/
def INT_MIN : Int := -2147483648

/-- The greatest value of `int`. -/
def INT_MAX : Int := 2147483647

/-- The result of an `int` operation whose mathematical value is `x`. -/
def int32 (x : Int) : Option Int :=
  if INT_MIN ≤ x ∧ x ≤ INT_MAX then some x else none

/-- The loop `while (low < high) { ... }` of `firstBadVersion`, for at most `fuel`
iterations.  The list collects the versions passed to `isBadVersion`, in order. -/
def loop (isBadVersion : Int → Bool) : Nat → Int → Int → List Int → Option (Int × List Int)
  | 0, low, high, qs => if low < high then none else some (high, qs)
  | fuel + 1, low, high, qs =>
    if low < high then do
      -- int mid = (high - low) / 2 + low;
      let d ← int32 (high - low)
      let h ← int32 (Int.tdiv d 2)
      let mid ← int32 (h + low)
      if isBadVersion mid then
        loop isBadVersion fuel low mid (qs ++ [mid])
      else do
        let low1 ← int32 (mid + 1)
        loop isBadVersion fuel low1 high (qs ++ [mid])
    else some (high, qs)

/-- The function `Solution::firstBadVersion(n, isBadVersion)`: the value returned and the
versions the predicate was queried on. -/
def firstBadVersion (n : Int) (isBadVersion : Int → Bool) : Option (Int × List Int) :=
  loop isBadVersion 32 1 n []

end FirstBadVersion

/-!
# Flatten nested list iterator (`src/problems/341.cpp`)

A pair `(current, end)` of `std::vector<NestedInteger>::const_iterator` into one vector is
the list of the elements in `[current, end)`: `current == end` is the empty list, `*current`
the head and `++current` the tail.  `std::stack` is a list with the top first.  `top()` on an
empty stack, dereferencing an end iterator and `getInteger()` on a list-valued element
(`std::get` on the wrong alternative) make the operation return `none`.
-/

namespace NestedIter

/-- The class `NestedInteger`: a single integer or a vector of `NestedInteger`s. -/
inductive NestedInteger where
  | int (value : Int) : NestedInteger
  | list (items : List NestedInteger) : NestedInteger

/-- The class `NestedIterator`. -/
structure NestedIterator where
  stack_ : List (List NestedInteger)

mutual
/-- A bound on the iterations of `advance` that an element can cause. -/
def weight : NestedInteger → Nat
  | NestedInteger.int _ => 1
  | NestedInteger.list l => 1 + weightList l
/-- A bound on the iterations of `advance` that a range of elements can cause. -/
def weightList : List NestedInteger → Nat
  | [] => 1
  | x :: xs => weight x + weightList xs
end

/-- A bound on the iterations of `advance` on a stack. -/
def stackWeight : List (List NestedInteger) → Nat
  | [] => 0
  | level :: rest => weightList level + stackWeight rest

/-- The loop `while (!stack_.empty()) { ... }` of `advance`, for at most `fuel` iterations. -/
def advanceLoop : Nat → List (List NestedInteger) → Option (List (List NestedInteger))
  | _, [] => some []
  | 0, _ :: _ => none
  -- if (current == end) { stack_.pop(); }
  | fuel + 1, [] :: rest => advanceLoop fuel rest
  -- else if (!current->isInteger()) { ++current; stack_.emplace(list.begin(), list.end()); }
  | fuel + 1, (NestedInteger.list l :: cur) :: rest => advanceLoop fuel (l :: cur :: rest)
  -- else { break; }
  | _ + 1, (NestedInteger.int v :: cur) :: rest => some ((NestedInteger.int v :: cur) :: rest)

/-- The method `NestedIterator::advance`; the loop is given as many iterations as the
elements on the stack can cause. -/
def NestedIterator.advance (it : NestedIterator) : Option NestedIterator :=
  (advanceLoop (stackWeight it.stack_) it.stack_).map (fun s => { stack_ := s })

/-- The constructor `NestedIterator(nestedList)`: push the range of the list, `advance()`. -/
def NestedIterator.new (nestedList : List NestedInteger) : Option NestedIterator :=
  NestedIterator.advance { stack_ := [nestedList] }

/-- The method `NestedIterator::next`: the value returned and the state afterwards. -/
def NestedIterator.next (it : NestedIterator) : Option (Int × NestedIterator) :=
  match it.stack_ with
  | [] => none
  | [] :: _ => none
  | (NestedInteger.list _ :: _) :: _ => none
  | (NestedInteger.int value :: cur) :: rest =>
    -- ++current; advance(); return value;
    (NestedIterator.advance { stack_ := cur :: rest }).map (fun it1 => (value, it1))

/-- The method `NestedIterator::hasNext`: `return !stack_.empty();`. -/
def NestedIterator.hasNext (it : NestedIterator) : Bool :=
  !it.stack_.isEmpty

/-- Call `next()` `k` times: the values returned, in order, and the state afterwards. -/
def NestedIterator.nexts : Nat → NestedIterator → Option (List Int × NestedIterator)
  | 0, it => some ([], it)
  | k + 1, it =>
    match it.next with
    | some (v, it1) =>
      match NestedIterator.nexts k it1 with
      | some (vs, it2) => some (v :: vs, it2)
      | none => none
    | none => none

/-- The loop `while (it.hasNext()) { actual.push_back(it.next()); }` of the tests, run for
at most `fuel` iterations; `none` when the fuel runs out or a call is undefined. -/
def NestedIterator.drain : Nat → NestedIterator → Option (List Int)
  | 0, it => if it.hasNext then none else some []
  | fuel + 1, it =>
    if it.hasNext then
      match it.next with
      | some (v, it1) =>
        match NestedIterator.drain fuel it1 with
        | some vs => some (v :: vs)
        | none => none
      | none => none
    else some []

mutual
/-- The integers of an element, left to right, depth first. -/
def flatten : NestedInteger → List Int
  | NestedInteger.int v => [v]
  | NestedInteger.list l => flattenList l
/-- The integers of a range of elements, left to right, depth first. -/
def flattenList : List NestedInteger → List Int
  | [] => []
  | x :: xs => flatten x ++ flattenList xs
end

/-- The integers still to be returned: those of the ranges on the stack, top first. -/
def remaining : List (List NestedInteger) → List Int
  | [] => []
  | level :: rest => flattenList level ++ remaining rest

/-- The stack is empty or the first element of its top range is an integer. -/
def Ready : List (List NestedInteger) → Prop
  | [] => True
  | (NestedInteger.int _ :: _) :: _ => True
  | _ => False

/-- The nested list `[[1, [2, 3]], 4, [[]], [5, 6], 7, []]` of the first test case. -/
def sampleNested : List NestedInteger :=
  [NestedInteger.list [NestedInteger.int 1,
      NestedInteger.list [NestedInteger.int 2, NestedInteger.int 3]],
    NestedInteger.int 4,
    NestedInteger.list [NestedInteger.list []],
    NestedInteger.list [NestedInteger.int 5, NestedInteger.int 6],
    NestedInteger.int 7,
    NestedInteger.list []]

end NestedIter

/-!
# Binary search tree iterator (`src/problems/173.cpp`)

A pointer to a `TreeNode` (a `TreeNode*` or a `std::unique_ptr<TreeNode>`) is a `TreePtr`:
`TreePtr.null` is the null pointer, `TreePtr.node l v r` points to a node with the members `left`,
`val` and `right`.  `std::stack` is a list with the top first.  Dereferencing a null pointer
and `top()` on an empty stack are undefined and make the operation return `none`.
-/

namespace BSTIter

/-- A pointer to a `TreeNode`. -/
inductive TreePtr where
  | null : TreePtr
  | node (left : TreePtr) (val : Int) (right : TreePtr) : TreePtr
deriving DecidableEq

/-- The struct `NodeIter`. -/
structure NodeIter where
  node_ : TreePtr
  visited_ : Bool
deriving DecidableEq

/-- The class `BSTIterator`. -/
structure BSTIterator where
  stack_ : List NodeIter
deriving DecidableEq

/-- The loop of `nextLeaf` when the node on top of the stack is `t`: while the top node has
a left child, push that child. -/
def nextLeafFrom : TreePtr → List NodeIter → Option (List NodeIter)
  | TreePtr.null, _ => none
  | TreePtr.node TreePtr.null _ _, stack => some stack
  | TreePtr.node (TreePtr.node ll lv lr) _ _, stack =>
    nextLeafFrom (TreePtr.node ll lv lr)
      ({ node_ := TreePtr.node ll lv lr, visited_ := false } :: stack)

/-- The method `BSTIterator::nextLeaf`. -/
def BSTIterator.nextLeaf (it : BSTIterator) : Option BSTIterator :=
  match it.stack_ with
  | [] => none
  | top :: rest => (nextLeafFrom top.node_ (top :: rest)).map (fun s => { stack_ := s })

/-- The loop of `nextNode`: `while (!stack_.empty() && stack_.top().visited_) stack_.pop();`. -/
def popVisited : List NodeIter → List NodeIter
  | [] => []
  | top :: rest => if top.visited_ then popVisited rest else top :: rest

/-- The method `BSTIterator::nextNode`. -/
def BSTIterator.nextNode (it : BSTIterator) : BSTIterator :=
  { stack_ := popVisited it.stack_ }

/-- The constructor `BSTIterator(root)`: `stack_.emplace(*root); nextLeaf();`. -/
def BSTIterator.new (root : TreePtr) : Option BSTIterator :=
  match root with
  | TreePtr.null => none
  | TreePtr.node l v r =>
    BSTIterator.nextLeaf { stack_ := [{ node_ := TreePtr.node l v r, visited_ := false }] }

/-- The method `BSTIterator::next`: the value returned and the state afterwards. -/
def BSTIterator.next (it : BSTIterator) : Option (Int × BSTIterator) :=
  match it.stack_ with
  | [] => none
  | top :: rest =>
    match top.node_ with
    | TreePtr.null => none
    | TreePtr.node l value r =>
      -- top.visited_ = true;
      match r with
      | TreePtr.node rl rv rr =>
        -- stack_.emplace(*top.node_->right); nextLeaf();
        (BSTIterator.nextLeaf
          { stack_ := { node_ := TreePtr.node rl rv rr, visited_ := false }
                      :: { node_ := TreePtr.node l value r, visited_ := true } :: rest }).map
          (fun it1 => (value, it1))
      | TreePtr.null =>
        -- stack_.pop(); nextNode();
        some (value, BSTIterator.nextNode { stack_ := rest })

/-- The method `BSTIterator::hasNext`: `return !stack_.empty();`. -/
def BSTIterator.hasNext (it : BSTIterator) : Bool :=
  !it.stack_.isEmpty

/-- Call `next()` `k` times: the values returned, in order, and the state afterwards. -/
def BSTIterator.nexts : Nat → BSTIterator → Option (List Int × BSTIterator)
  | 0, it => some ([], it)
  | k + 1, it =>
    match it.next with
    | some (v, it1) =>
      match BSTIterator.nexts k it1 with
      | some (vs, it2) => some (v :: vs, it2)
      | none => none
    | none => none

/-- The loop `while (it.hasNext()) { out.push_back(it.next()); }`, run for at most `fuel`
iterations; `none` when the fuel runs out or a call is undefined. -/
def BSTIterator.drain : Nat → BSTIterator → Option (List Int)
  | 0, it => if it.hasNext then none else some []
  | fuel + 1, it =>
    if it.hasNext then
      match it.next with
      | some (v, it1) =>
        match BSTIterator.drain fuel it1 with
        | some vs => some (v :: vs)
        | none => none
      | none => none
    else some []

/-- The values of the nodes in in-order: left subtree, node, right subtree. -/
def TreePtr.inorder : TreePtr → List Int
  | TreePtr.null => []
  | TreePtr.node l v r => l.inorder ++ v :: r.inorder

/-- The number of nodes. -/
def TreePtr.size : TreePtr → Nat
  | TreePtr.null => 0
  | TreePtr.node l _ r => l.size + 1 + r.size

/-- Every value of the tree satisfies `p`. -/
def TreePtr.All (p : Int → Prop) : TreePtr → Prop
  | TreePtr.null => True
  | TreePtr.node l v r => p v ∧ l.All p ∧ r.All p

/-- The tree is a binary search tree: at every node the values of the left subtree are
smaller and the values of the right subtree are greater than the value of the node. -/
def TreePtr.IsBST : TreePtr → Prop
  | TreePtr.null => True
  | TreePtr.node l v r => l.All (fun x => x < v) ∧ r.All (fun x => v < x) ∧ l.IsBST ∧ r.IsBST

/-- The values the iterator has still to return, read off the stack: an entry that is not
yet visited stands for its value and its right subtree, a visited entry for nothing. -/
def remaining : List NodeIter → List Int
  | [] => []
  | top :: rest =>
    match top.visited_, top.node_ with
    | false, TreePtr.node _ v r => v :: r.inorder ++ remaining rest
    | _, _ => remaining rest

/-- The stack is well formed: no entry holds a null pointer, and the top entry is not
visited. -/
def WellFormed (stack : List NodeIter) : Prop :=
  (∀ e ∈ stack, e.node_ ≠ TreePtr.null) ∧ ∀ top rest, stack = top :: rest → top.visited_ = false

/-- The tree of the last test case: values 1 to 7, root 4. -/
def sampleTree : TreePtr :=
  TreePtr.node
    (TreePtr.node (TreePtr.node TreePtr.null 1 TreePtr.null) 2 (TreePtr.node TreePtr.null 3 TreePtr.null))
    4
    (TreePtr.node (TreePtr.node TreePtr.null 5 TreePtr.null) 6 (TreePtr.node TreePtr.null 7 TreePtr.null))

end BSTIter

/-!
# Peeking iterator (`src/problems/284.cpp`)

A `std::vector<int>::const_iterator` is the vector together with an index into it;
dereferencing an index that is not below the size of the vector is undefined and makes the
operation return `none`, and so does reading an empty `std::optional`.
-/

namespace Peeking

/-- The class `Iterator`: the vector iterated over, and the members `current_` and `end_`
as indices into it. -/
structure Iterator where
  nums : List Int
  current_ : Nat
  end_ : Nat
deriving DecidableEq

/-- The constructor `Iterator(nums)`: `current_(nums.begin()), end_(nums.end())`. -/
def Iterator.new (nums : List Int) : Iterator :=
  { nums := nums, current_ := 0, end_ := nums.length }

/-- The method `Iterator::next`: `return *current_++;`. -/
def Iterator.next (it : Iterator) : Option (Int × Iterator) :=
  match it.nums[it.current_]? with
  | some v => some (v, { it with current_ := it.current_ + 1 })
  | none => none

/-- The method `Iterator::hasNext`: `return current_ != end_;`. -/
def Iterator.hasNext (it : Iterator) : Bool :=
  decide (it.current_ ≠ it.end_)

/-- The class `PeekingIterator`: the base class object and the member `next_`. -/
structure PeekingIterator where
  base : Iterator
  next_ : Option Int
deriving DecidableEq

/-- The method `PeekingIterator::advance`. -/
def PeekingIterator.advance (it : PeekingIterator) : Option PeekingIterator :=
  if it.base.hasNext then
    match it.base.next with
    | some (v, b) => some { base := b, next_ := some v }
    | none => none
  else some { it with next_ := none }

/-- The constructor `PeekingIterator(nums)`: the base constructor, then `advance()`. -/
def PeekingIterator.new (nums : List Int) : Option PeekingIterator :=
  PeekingIterator.advance { base := Iterator.new nums, next_ := none }

/-- The method `PeekingIterator::peek`: `return *next_;`, with the state afterwards. -/
def PeekingIterator.peek (it : PeekingIterator) : Option (Int × PeekingIterator) :=
  match it.next_ with
  | some v => some (v, it)
  | none => none

/-- The method `PeekingIterator::next`: `auto value = *next_; advance(); return value;`. -/
def PeekingIterator.next (it : PeekingIterator) : Option (Int × PeekingIterator) :=
  match it.next_ with
  | some value =>
    match it.advance with
    | some it1 => some (value, it1)
    | none => none
  | none => none

/-- The method `PeekingIterator::hasNext`: `return next_.has_value();`. -/
def PeekingIterator.hasNext (it : PeekingIterator) : Bool :=
  it.next_.isSome

/-- Call `next()` `k` times: the values returned, in order, and the state afterwards. -/
def PeekingIterator.nexts : Nat → PeekingIterator → Option (List Int × PeekingIterator)
  | 0, it => some ([], it)
  | k + 1, it =>
    match it.next with
    | some (v, it1) =>
      match PeekingIterator.nexts k it1 with
      | some (vs, it2) => some (v :: vs, it2)
      | none => none
    | none => none

/-- The loop `while (it.hasNext()) { out.push_back(it.next()); }`, run for at most `fuel`
iterations; `none` when the fuel runs out or a call is undefined. -/
def PeekingIterator.drain : Nat → PeekingIterator → Option (List Int)
  | 0, it => if it.hasNext then none else some []
  | fuel + 1, it =>
    if it.hasNext then
      match it.next with
      | some (v, it1) =>
        match PeekingIterator.drain fuel it1 with
        | some vs => some (v :: vs)
        | none => none
      | none => none
    else some []

/-- The iterator `it` over `nums` stands before the element of index `k`: `next_` holds
that element, if there is one, and the base iterator is one step further. -/
structure Cursor (it : PeekingIterator) (nums : List Int) (k : Nat) : Prop where
  nums_eq : it.base.nums = nums
  end_eq : it.base.end_ = nums.length
  next_eq : it.next_ = nums[k]?
  current_eq : it.base.current_ = min (k + 1) nums.length

end Peeking

/-!
# Remove duplicates from a sorted array (`src/problems/26.cpp`)

`removeDuplicates` is a call of the library algorithm `std::unique` followed by
`std::distance`.  `std::unique` is modelled by the in-place loop with which the C++
reference describes it:

    if (first == last) return last;
    ForwardIt result = first;
    while (++first != last)
        if (!(*result == *first) && ++result != first)
            *result = std::move(*first);
    return ++result;

Iterators are indices into the vector; a read or write at an index that is not below the
size makes the model return `none`.
-/

namespace RemoveDuplicates

/-- The `while` loop of `std::unique`, for at most `fuel` iterations; `result` and `first`
are indices into `vec`.  Returns the vector and the index of the returned iterator. -/
def uniqueLoop : Nat → List Int → Nat → Nat → Option (List Int × Nat)
  | 0, _, _, _ => none
  | fuel + 1, vec, result, first =>
    -- while (++first != last)
    if first + 1 = vec.length then some (vec, result + 1)
    else
      match vec[result]?, vec[first + 1]? with
      | some r, some f =>
        -- if (!(*result == *first) && ++result != first) *result = std::move(*first);
        if r ≠ f then
          if result + 1 ≠ first + 1 then
            if result + 1 < vec.length then
              uniqueLoop fuel (vec.set (result + 1) f) (result + 1) (first + 1)
            else none
          else uniqueLoop fuel vec (result + 1) (first + 1)
        else uniqueLoop fuel vec result (first + 1)
      | _, _ => none

/-- The algorithm `std::unique(vec.begin(), vec.end())`: the vector afterwards and the index
of the returned iterator. -/
def unique (vec : List Int) : Option (List Int × Nat) :=
  if vec.length = 0 then some (vec, 0)
  else uniqueLoop vec.length vec 0 0

/-- The function `Solution::removeDuplicates(nums)`: the value returned (the distance from
`nums.begin()` to the iterator `std::unique` returns) and the vector afterwards. -/
def removeDuplicates (nums : List Int) : Option (Nat × List Int) :=
  match unique nums with
  | some (vec, e) => some (e, vec)
  | none => none

/-- The list `l` without the elements that equal their predecessor, built from the left:
an element is appended unless it equals the last element kept so far. -/
def groupHeads (l : List Int) : List Int :=
  l.foldl (fun acc x => if acc.getLast? = some x then acc else acc ++ [x]) []

end RemoveDuplicates

namespace LRU

/-! ## Reading and writing the map -/

theorem find?_addr_of_mem {h : List Node} (nd : (h.map (fun n => n.addr)).Nodup) {n : Node}
    (hn : n ∈ h) : h.find? (fun m => decide (m.addr = n.addr)) = some n := by
  induction h with
  | nil => simp at hn
  | cons m h ih =>
    simp only [List.map_cons, List.nodup_cons] at nd
    rcases List.mem_cons.1 hn with rfl | hm
    · simp
    · have hne : m.addr ≠ n.addr := by
        intro e
        exact nd.1 (e ▸ List.mem_map_of_mem (fun n => n.addr) hm)
      simp [List.find?_cons, hne, ih nd.2 hm]

theorem find?_first_of_mem {h : List Node} (nd : (h.map (fun n => n.first)).Nodup) {n : Node}
    (hn : n ∈ h) : h.find? (fun m => decide (m.first = n.first)) = some n := by
  induction h with
  | nil => simp at hn
  | cons m h ih =>
    simp only [List.map_cons, List.nodup_cons] at nd
    rcases List.mem_cons.1 hn with rfl | hm
    · simp
    · have hne : m.first ≠ n.first := by
        intro e
        exact nd.1 (e ▸ List.mem_map_of_mem (fun n => n.first) hm)
      simp [List.find?_cons, hne, ih nd.2 hm]

theorem deref_of_mem {h : List Node} (nd : (h.map (fun n => n.addr)).Nodup) {n : Node}
    (hn : n ∈ h) : deref h n.addr = some n.second := by
  simp [deref, find?_addr_of_mem nd hn]

theorem find_of_mem {h : List Node} (nd : (h.map (fun n => n.first)).Nodup) {n : Node}
    (hn : n ∈ h) : find h n.first = some n.addr := by
  simp [find, find?_first_of_mem nd hn]

theorem find_eq_none {h : List Node} {k : Int} :
    find h k = none ↔ k ∉ h.map (fun n => n.first) := by
  simp only [find, Option.map_eq_none', List.find?_eq_none, List.mem_map, not_exists, not_and,
    decide_eq_true_eq]

theorem find_some_mem {h : List Node} {k : Int} {a : Nat} (hf : find h k = some a) :
    ∃ n ∈ h, n.first = k ∧ n.addr = a := by
  simp only [find, Option.map_eq_some'] at hf
  obtain ⟨n, hn, rfl⟩ := hf
  exact ⟨n, List.mem_of_find?_eq_some hn, by simpa using List.find?_some hn, rfl⟩

theorem map_addr_upd (a : Nat) (g : Entry → Entry) (h : List Node) :
    (h.map (upd a g)).map (fun n => n.addr) = h.map (fun n => n.addr) := by
  induction h with
  | nil => rfl
  | cons m h ih =>
    simp only [List.map_cons, ih, List.cons.injEq, and_true]
    unfold upd; split <;> rfl

theorem map_first_upd (a : Nat) (g : Entry → Entry) (h : List Node) :
    (h.map (upd a g)).map (fun n => n.first) = h.map (fun n => n.first) := by
  induction h with
  | nil => rfl
  | cons m h ih =>
    simp only [List.map_cons, ih, List.cons.injEq, and_true]
    unfold upd; split <;> rfl

/-- The map `h` holds exactly the nodes `H`, whose addresses are pairwise distinct. -/
theorem deref_perm {h H : List Node} (hp : h.Perm H) (nd : (H.map (fun n => n.addr)).Nodup)
    {n : Node} (hn : n ∈ H) : deref h n.addr = some n.second :=
  deref_of_mem ((hp.map _).nodup_iff.2 nd) (hp.mem_iff.2 hn)

theorem modify_perm {h H : List Node} (hp : h.Perm H) (nd : (H.map (fun n => n.addr)).Nodup)
    {n : Node} (hn : n ∈ H) (g : Entry → Entry) :
    modify h n.addr g = some (h.map (upd n.addr g)) ∧
      (h.map (upd n.addr g)).Perm (H.map (upd n.addr g)) := by
  refine ⟨?_, hp.map _⟩
  simp [modify, deref_perm hp nd hn]

theorem length_modify {h h1 : List Node} {a : Nat} {g : Entry → Entry}
    (hm : modify h a g = some h1) : h1.map (fun n => n.first) = h.map (fun n => n.first) := by
  unfold modify at hm
  split at hm
  · simp only [Option.some.injEq] at hm
    rw [← hm, map_first_upd]
  · simp at hm

/-! ## Stretches of the chain -/

@[simp] theorem hd_nil (d : Option Nat) : hd [] d = d := rfl

@[simp] theorem hd_cons (c : Cell) (xs : List Cell) (d : Option Nat) :
    hd (c :: xs) d = some c.addr := rfl

@[simp] theorem lastA_nil (d : Option Nat) : lastA [] d = d := rfl

@[simp] theorem lastA_cons (c : Cell) (xs : List Cell) (d : Option Nat) :
    lastA (c :: xs) d = lastA xs (some c.addr) := rfl

@[simp] theorem seg_nil (nx pv : Option Nat) : seg nx [] pv = [] := rfl

@[simp] theorem seg_cons (nx : Option Nat) (c : Cell) (xs : List Cell) (pv : Option Nat) :
    seg nx (c :: xs) pv = c.node (hd xs pv) nx :: seg (some c.addr) xs pv := rfl

@[simp] theorem node_addr (c : Cell) (pv nx : Option Nat) : (c.node pv nx).addr = c.addr := rfl

@[simp] theorem node_first (c : Cell) (pv nx : Option Nat) : (c.node pv nx).first = c.key := rfl

@[simp] theorem node_second (c : Cell) (pv nx : Option Nat) :
    (c.node pv nx).second = { prev_ := pv, next_ := nx, key_ := c.key, value_ := c.val } := rfl

theorem upd_next_node (c : Cell) (pv nx x : Option Nat) :
    upd c.addr (fun e => { e with next_ := x }) (c.node pv nx) = c.node pv x := by
  simp [upd, Cell.node]

theorem upd_prev_node (c : Cell) (pv nx x : Option Nat) :
    upd c.addr (fun e => { e with prev_ := x }) (c.node pv nx) = c.node x nx := by
  simp [upd, Cell.node]

theorem upd_value_node (c : Cell) (pv nx : Option Nat) (v : Int) :
    upd c.addr (fun e => { e with value_ := v }) (c.node pv nx) =
      Cell.node { c with val := v } pv nx := by
  simp [upd, Cell.node]

theorem hd_append (xs ys : List Cell) (d : Option Nat) : hd (xs ++ ys) d = hd xs (hd ys d) := by
  cases xs <;> rfl

theorem lastA_append (xs ys : List Cell) (d : Option Nat) :
    lastA (xs ++ ys) d = lastA ys (lastA xs d) := by
  induction xs generalizing d with
  | nil => rfl
  | cons c xs ih => simp only [List.cons_append, lastA_cons, ih]

theorem hd_of_ne_nil {xs : List Cell} (hx : xs ≠ []) (d e : Option Nat) : hd xs d = hd xs e := by
  cases xs with
  | nil => exact absurd rfl hx
  | cons c xs => rfl

theorem lastA_of_ne_nil {xs : List Cell} (hx : xs ≠ []) (d e : Option Nat) :
    lastA xs d = lastA xs e := by
  cases xs with
  | nil => exact absurd rfl hx
  | cons c xs => rfl

theorem hd_mem {xs : List Cell} {d : Option Nat} {a : Nat} (h : hd xs d = some a)
    (hd_ne : d ≠ some a) : a ∈ xs.map (fun c => c.addr) := by
  cases xs with
  | nil => exact absurd h hd_ne
  | cons c xs =>
    simp only [hd, Option.some.injEq] at h
    simp [h]

theorem lastA_mem {xs : List Cell} {d : Option Nat} {a : Nat} (h : lastA xs d = some a)
    (hd_ne : d ≠ some a) : a ∈ xs.map (fun c => c.addr) := by
  induction xs generalizing d with
  | nil => exact absurd h hd_ne
  | cons c xs ih =>
    simp only [lastA_cons] at h
    by_cases hc : c.addr = a
    · simp [hc]
    · have := ih h (by simpa using hc)
      simp [this]

theorem seg_append (nx : Option Nat) (xs ys : List Cell) (pv : Option Nat) :
    seg nx (xs ++ ys) pv = seg nx xs (hd ys pv) ++ seg (lastA xs nx) ys pv := by
  induction xs generalizing nx with
  | nil => rfl
  | cons c xs ih =>
    simp only [List.cons_append, seg_cons, lastA_cons, ih, hd_append]

theorem map_addr_seg (nx : Option Nat) (ns : List Cell) (pv : Option Nat) :
    (seg nx ns pv).map (fun n => n.addr) = ns.map (fun c => c.addr) := by
  induction ns generalizing nx with
  | nil => rfl
  | cons c ns ih => simp only [seg_cons, List.map_cons, ih, node_addr, node_first]

theorem map_first_seg (nx : Option Nat) (ns : List Cell) (pv : Option Nat) :
    (seg nx ns pv).map (fun n => n.first) = ns.map (fun c => c.key) := by
  induction ns generalizing nx with
  | nil => rfl
  | cons c ns ih => simp only [seg_cons, List.map_cons, ih, node_addr, node_first]

theorem length_seg (nx : Option Nat) (ns : List Cell) (pv : Option Nat) :
    (seg nx ns pv).length = ns.length := by
  induction ns generalizing nx with
  | nil => rfl
  | cons c ns ih => simp only [seg_cons, List.length_cons, ih]

theorem optUpd_ne {o : Option Nat} {g : Entry → Entry} {n : Node} (h : o ≠ some n.addr) :
    optUpd o g n = n := by
  cases o with
  | none => rfl
  | some a =>
    have : n.addr ≠ a := fun e => h (by rw [e])
    simp [optUpd, upd, this]

theorem map_optUpd_seg_id {o : Option Nat} (g : Entry → Entry) (nx : Option Nat)
    {ns : List Cell} (pv : Option Nat) (h : ∀ a, o = some a → a ∉ ns.map (fun c => c.addr)) :
    (seg nx ns pv).map (optUpd o g) = seg nx ns pv := by
  induction ns generalizing nx with
  | nil => rfl
  | cons c ns ih =>
    simp only [seg_cons, List.map_cons]
    rw [ih, optUpd_ne]
    · intro e
      exact h c.addr e (by simp)
    · intro a e ha
      exact h a e (by simp [ha])

/-- Writing `next_` of the first cell of a stretch. -/
theorem map_next_hd (nx x : Option Nat) {ns : List Cell} (pv : Option Nat)
    (nd : (ns.map (fun c => c.addr)).Nodup) :
    (seg nx ns pv).map (optUpd (hd ns none) (fun e => { e with next_ := x })) = seg x ns pv := by
  cases ns with
  | nil => rfl
  | cons c ns =>
    simp only [List.map_cons, List.nodup_cons] at nd
    simp only [seg_cons, List.map_cons, hd_cons]
    rw [map_optUpd_seg_id]
    · simp [optUpd, upd_next_node]
    · intro a e
      simp only [Option.some.injEq] at e
      exact e ▸ nd.1

/-- Writing `prev_` of the last cell of a stretch. -/
theorem map_prev_lastA (nx : Option Nat) {ns : List Cell} (pv x : Option Nat)
    (nd : (ns.map (fun c => c.addr)).Nodup) :
    (seg nx ns pv).map (optUpd (lastA ns none) (fun e => { e with prev_ := x })) = seg nx ns x := by
  induction ns generalizing nx with
  | nil => rfl
  | cons c ns ih =>
    simp only [List.map_cons, List.nodup_cons] at nd
    cases ns with
    | nil => simp [optUpd, upd_prev_node]
    | cons d ns =>
      have hne : lastA (c :: d :: ns) none ≠ some c.addr := by
        intro e
        have hm : c.addr ∈ (d :: ns).map (fun c => c.addr) := by
          apply lastA_mem (d := none)
          · rw [← e]; rfl
          · simp
        exact nd.1 hm
      have e1 : lastA (c :: d :: ns) none = lastA (d :: ns) none := by
        simp
      rw [seg_cons, List.map_cons, optUpd_ne hne, e1, ih _ nd.2]
      simp

/-! ## The linking primitives on a map with known contents -/

theorem writeIf_perm {h H : List Node} (hp : h.Perm H) (nd : (H.map (fun n => n.addr)).Nodup)
    {o : Option Nat} (ho : ∀ a, o = some a → a ∈ H.map (fun n => n.addr)) (g : Entry → Entry) :
    writeIf h o g = some (h.map (optUpd o g)) ∧
      (h.map (optUpd o g)).Perm (H.map (optUpd o g)) := by
  cases o with
  | none =>
    have e : optUpd none g = id := by funext n; rfl
    simpa [writeIf, e] using hp
  | some a =>
    obtain ⟨n, hn, hna⟩ := List.mem_map.1 (ho a rfl)
    have e : optUpd (some a) g = upd a g := by funext n; rfl
    subst hna
    simpa [writeIf, e] using modify_perm hp nd hn g

theorem map_addr_optUpd (o : Option Nat) (g : Entry → Entry) (h : List Node) :
    (h.map (optUpd o g)).map (fun n => n.addr) = h.map (fun n => n.addr) := by
  cases o with
  | none =>
    have e : optUpd none g = id := by funext n; rfl
    simp [e]
  | some a => exact map_addr_upd a g h

theorem unlink_spec {h H : List Node} (hp : h.Perm H) (nd : (H.map (fun n => n.addr)).Nodup)
    {n : Node} (hn : n ∈ H)
    (hprev : ∀ p, n.second.prev_ = some p → p ≠ n.addr ∧ p ∈ H.map (fun n => n.addr))
    (hnext : ∀ q, n.second.next_ = some q → q ∈ H.map (fun n => n.addr)) :
    ∃ h2, Entry.unlink h n.addr = some h2 ∧
      h2.Perm ((H.map (optUpd n.second.prev_ (fun x => { x with next_ := n.second.next_ }))).map
        (optUpd n.second.next_ (fun x => { x with prev_ := n.second.prev_ }))) := by
  have w1 := writeIf_perm hp nd (fun a e => (hprev a e).2)
    (fun x => { x with next_ := n.second.next_ })
  have nd1 := nd
  rw [← map_addr_optUpd n.second.prev_ (fun x => { x with next_ := n.second.next_ })] at nd1
  have hn1 : n ∈ H.map (optUpd n.second.prev_ (fun x => { x with next_ := n.second.next_ })) := by
    refine List.mem_map.2 ⟨n, hn, optUpd_ne ?_⟩
    intro e
    exact (hprev _ e).1 rfl
  have w2 := writeIf_perm w1.2 nd1 (o := n.second.next_)
    (fun a e => by rw [map_addr_optUpd]; exact hnext a e)
    (fun x => { x with prev_ := n.second.prev_ })
  refine ⟨_, ?_, w2.2⟩
  simp [Entry.unlink, deref_perm hp nd hn, w1.1, deref_perm w1.2 nd1 hn1, w2.1]

theorem link_spec {h H : List Node} (hp : h.Perm H) (nd : (H.map (fun n => n.addr)).Nodup)
    {n : Node} (hn : n ∈ H)
    (hprev : ∀ p, n.second.prev_ = some p → p ≠ n.addr ∧ p ∈ H.map (fun n => n.addr))
    (hnext : ∀ q, n.second.next_ = some q → q ∈ H.map (fun n => n.addr)) :
    ∃ h2, Entry.link h n.addr = some h2 ∧
      h2.Perm ((H.map (optUpd n.second.prev_ (fun x => { x with next_ := some n.addr }))).map
        (optUpd n.second.next_ (fun x => { x with prev_ := some n.addr }))) := by
  have w1 := writeIf_perm hp nd (fun a e => (hprev a e).2)
    (fun x => { x with next_ := some n.addr })
  have nd1 := nd
  rw [← map_addr_optUpd n.second.prev_ (fun x => { x with next_ := some n.addr })] at nd1
  have hn1 : n ∈ H.map (optUpd n.second.prev_ (fun x => { x with next_ := some n.addr })) := by
    refine List.mem_map.2 ⟨n, hn, optUpd_ne ?_⟩
    intro e
    exact (hprev _ e).1 rfl
  have w2 := writeIf_perm w1.2 nd1 (o := n.second.next_)
    (fun a e => by rw [map_addr_optUpd]; exact hnext a e)
    (fun x => { x with prev_ := some n.addr })
  refine ⟨_, ?_, w2.2⟩
  simp [Entry.link, deref_perm hp nd hn, w1.1, deref_perm w1.2 nd1 hn1, w2.1]

/-! ## The private methods on a state that holds a chain -/

theorem erase_seg_id {k : Int} (nx : Option Nat) {ns : List Cell} (pv : Option Nat)
    (hk : k ∉ ns.map (fun c => c.key)) : erase (seg nx ns pv) k = seg nx ns pv := by
  unfold erase
  rw [List.filter_eq_self]
  intro n hn
  have : n.first ∈ (seg nx ns pv).map (fun n => n.first) := List.mem_map_of_mem _ hn
  rw [map_first_seg] at this
  simp only [ne_eq, decide_not, Bool.not_eq_eq_eq_not, Bool.not_true, decide_eq_false_iff_not]
  intro e
  exact hk (e ▸ this)

theorem erase_perm {h H : List Node} (hp : h.Perm H) (k : Int) : (erase h k).Perm (erase H k) :=
  hp.filter _

theorem nodup_append_addr {xs ys : List Cell}
    (nd : ((xs ++ ys).map (fun c => c.addr)).Nodup) :
    (xs.map (fun c => c.addr)).Nodup ∧ (ys.map (fun c => c.addr)).Nodup ∧
      ∀ a, a ∈ xs.map (fun c => c.addr) → a ∉ ys.map (fun c => c.addr) := by
  rw [List.map_append, List.nodup_append] at nd
  exact ⟨nd.1, nd.2.1, fun a ha hb => nd.2.2 ha hb⟩

theorem nodup_append_key {xs ys : List Cell}
    (nd : ((xs ++ ys).map (fun c => c.key)).Nodup) :
    (xs.map (fun c => c.key)).Nodup ∧ (ys.map (fun c => c.key)).Nodup ∧
      ∀ a, a ∈ xs.map (fun c => c.key) → a ∉ ys.map (fun c => c.key) := by
  rw [List.map_append, List.nodup_append] at nd
  exact ⟨nd.1, nd.2.1, fun a ha hb => nd.2.2 ha hb⟩

theorem lastA_mem_none {xs : List Cell} {a : Nat} (h : lastA xs none = some a) :
    a ∈ xs.map (fun c => c.addr) :=
  lastA_mem h (by simp)

theorem hd_mem_none {xs : List Cell} {a : Nat} (h : hd xs none = some a) :
    a ∈ xs.map (fun c => c.addr) :=
  hd_mem h (by simp)

theorem evict_oldest_spec {s : LRUCache} {init : List Cell} {c : Cell}
    (r : RepOld s (init ++ [c])) :
    ∃ h2, s.evict_oldest = some { s with cache_ := h2, oldest_ := lastA init none } ∧
      h2.Perm (seg none init none) := by
  obtain ⟨ndi, -, hdis⟩ := nodup_append_addr r.addrs
  obtain ⟨-, -, kdis⟩ := nodup_append_key r.keys
  have hc : c.addr ∉ init.map (fun c => c.addr) := fun hm => hdis _ hm (by simp)
  have hk : c.key ∉ init.map (fun c => c.key) := fun hm => kdis _ hm (by simp)
  have ho : s.oldest_ = some c.addr := by rw [r.oldest, lastA_append]; rfl
  have hH : seg none (init ++ [c]) none =
      seg none init (some c.addr) ++ [c.node none (lastA init none)] := by
    rw [seg_append]; rfl
  have hp := r.heap
  rw [hH] at hp
  have nd : ((seg none init (some c.addr) ++ [c.node none (lastA init none)]).map
      (fun n => n.addr)).Nodup := by
    rw [← hH, map_addr_seg]; exact r.addrs
  have hmem : c.node none (lastA init none) ∈
      seg none init (some c.addr) ++ [c.node none (lastA init none)] := by simp
  obtain ⟨h2, hu, hp2⟩ := unlink_spec hp nd hmem (by simp)
    (by
      intro q hq
      have := lastA_mem_none hq
      simp only [List.map_append, map_addr_seg, List.mem_append]
      exact Or.inl this)
  have hne : lastA init none ≠ some (c.node none (lastA init none)).addr :=
    fun e => hc (lastA_mem_none e)
  have e0 : optUpd none (fun x : Entry => { x with next_ := lastA init none }) = id := by
    funext n; rfl
  simp only [node_second, e0, List.map_id, id_eq, List.map_append, map_prev_lastA _ _ _ ndi,
    List.map_cons, List.map_nil] at hp2
  rw [optUpd_ne hne] at hp2
  have nd2 : ((seg none init none ++ [c.node none (lastA init none)]).map
      (fun n => n.addr)).Nodup := by
    simpa [map_addr_seg] using r.addrs
  have hd2 := deref_perm hp2 nd2 (n := c.node none (lastA init none)) (by simp)
  have hd1 := deref_perm hp nd hmem
  refine ⟨erase h2 c.key, ?_, ?_⟩
  · simp only [node_addr, node_second] at hd1 hd2 hu
    simp [LRUCache.evict_oldest, ho, hd1, hu, hd2]
  · have := erase_perm hp2 c.key
    have e : erase (seg none init none ++ [c.node none (lastA init none)]) c.key =
        seg none init none := by
      have e1 := @erase_seg_id c.key none init none hk
      unfold erase at e1 ⊢
      rw [List.filter_append, e1]
      simp
    rw [e] at this
    exact this

theorem map_upd_seg_id (a : Nat) (g : Entry → Entry) (nx : Option Nat) {ns : List Cell}
    (pv : Option Nat) (h : a ∉ ns.map (fun c => c.addr)) :
    (seg nx ns pv).map (upd a g) = seg nx ns pv :=
  map_optUpd_seg_id (o := some a) g nx pv (fun b e => by
    simp only [Option.some.injEq] at e
    exact e ▸ h)

theorem lastA_some (ns : List Cell) (a : Nat) : ∃ b, lastA ns (some a) = some b := by
  induction ns generalizing a with
  | nil => exact ⟨a, rfl⟩
  | cons c ns ih => exact ih c.addr

theorem insert_newest_spec {s : LRUCache} {ns : List Cell} {key value : Int} (r : RepOld s ns)
    (hnew : s.capacity_ ≠ 1 → s.newest_ = hd ns none)
    (hk : key ∉ ns.map (fun c => c.key)) (hlen : ns.length < s.capacity_) :
    ∃ h2, s.insert_newest key value =
        some { s with cache_ := h2,
                      oldest_ := lastA ({ addr := s.brk_, key := key, val := value } :: ns) none,
                      newest_ := some s.brk_, brk_ := s.brk_ + 1 } ∧
      h2.Perm (seg none ({ addr := s.brk_, key := key, val := value } :: ns) none) := by
  generalize hcn : ({ addr := s.brk_, key := key, val := value } : Cell) = cn
  have hca : cn.addr = s.brk_ := by rw [← hcn]
  have hck : cn.key = key := by rw [← hcn]
  have hcv : cn.val = value := by rw [← hcn]
  have hfresh : s.brk_ ∉ ns.map (fun c => c.addr) := by
    intro hm
    obtain ⟨c, hc, e⟩ := List.mem_map.1 hm
    have := r.brk c hc
    omega
  have hfind : find s.cache_ key = none := by
    rw [find_eq_none, (r.heap.map _).mem_iff, map_first_seg]
    exact hk
  have hp0 : (cn.node none none :: s.cache_).Perm (cn.node none none :: seg none ns none) :=
    r.heap.cons _
  have nd0 : ((cn.node none none :: seg none ns none).map (fun n => n.addr)).Nodup := by
    simp only [List.map_cons, node_addr, map_addr_seg, List.nodup_cons, hca]
    exact ⟨hfresh, r.addrs⟩
  have h1 : ∃ h1, (if s.capacity_ ≠ 1 then
        modify (cn.node none none :: s.cache_) s.brk_ (fun x => { x with prev_ := s.newest_ })
      else some (cn.node none none :: s.cache_)) = some h1 ∧
      h1.Perm (cn.node (hd ns none) none :: seg none ns none) := by
    by_cases hc1 : s.capacity_ = 1
    · have hnil : ns = [] := by
        rw [hc1] at hlen
        exact List.length_eq_zero.1 (by omega)
      subst hnil
      exact ⟨cn.node none none :: s.cache_, by simp [hc1], hp0⟩
    · have := modify_perm hp0 nd0 (n := cn.node none none) (by simp)
        (fun x => { x with prev_ := s.newest_ })
      simp only [node_addr, hca] at this
      refine ⟨_, by simp only [ne_eq, hc1, not_false_eq_true, if_true]; exact this.1, ?_⟩
      have e : (cn.node none none :: seg none ns none).map
          (upd s.brk_ (fun x => { x with prev_ := s.newest_ })) =
          cn.node (hd ns none) none :: seg none ns none := by
        rw [List.map_cons, map_upd_seg_id _ _ _ _ hfresh, ← hca, upd_prev_node, hnew hc1]
      rw [← e]
      exact this.2
  obtain ⟨h1, hh1, hp1⟩ := h1
  have nd1 : ((cn.node (hd ns none) none :: seg none ns none).map (fun n => n.addr)).Nodup := by
    simpa using nd0
  obtain ⟨h2, hl, hp2⟩ := link_spec hp1 nd1 (n := cn.node (hd ns none) none) (by simp)
    (by
      intro p hp
      simp only [node_second] at hp
      have hm := hd_mem_none hp
      refine ⟨?_, ?_⟩
      · intro e
        simp only [node_addr, hca] at e
        exact hfresh (e ▸ hm)
      · simp [map_addr_seg, hm])
    (by simp)
  have e0 : optUpd none (fun x : Entry => { x with prev_ := some cn.addr }) = id := by
    funext n; rfl
  have hne : hd ns none ≠ some (cn.node (hd ns none) none).addr := by
    intro e
    simp only [node_addr, hca] at e
    exact hfresh (hd_mem_none e)
  simp only [node_second, node_addr, e0, List.map_id, List.map_cons,
    map_next_hd _ _ _ r.addrs] at hp2
  rw [optUpd_ne hne] at hp2
  refine ⟨h2, ?_, by simpa using hp2⟩
  simp only [node_addr, hca] at hl
  have hnode : ({ addr := s.brk_, first := key,
                  second := { prev_ := none, next_ := none, key_ := key, value_ := value } }
                  : Node) = cn.node none none := by
    rw [← hcn]; rfl
  simp only [LRUCache.insert_newest, hfind, hnode, hh1, hl, Option.bind_eq_bind,
    Option.some_bind]
  rw [r.oldest, lastA_cons, hca]
  cases ns with
  | nil => rfl
  | cons d ns =>
    obtain ⟨b, hb⟩ := lastA_some ns d.addr
    simp only [lastA_cons, hb]

theorem nodup_mid_addr {pre post : List Cell} {c : Cell}
    (nd : ((pre ++ c :: post).map (fun c => c.addr)).Nodup) :
    (pre.map (fun c => c.addr)).Nodup ∧ (post.map (fun c => c.addr)).Nodup ∧
      c.addr ∉ pre.map (fun c => c.addr) ∧ c.addr ∉ post.map (fun c => c.addr) ∧
      ∀ a, a ∈ pre.map (fun c => c.addr) → a ∉ post.map (fun c => c.addr) := by
  obtain ⟨h1, h2, h3⟩ := nodup_append_addr nd
  simp only [List.map_cons, List.nodup_cons] at h2
  refine ⟨h1, h2.2, ?_, h2.1, ?_⟩
  · intro hm
    exact h3 _ hm (by simp)
  · intro a ha hb
    exact h3 _ ha (by simp [hb])

theorem nodup_mid_key {pre post : List Cell} {c : Cell}
    (nd : ((pre ++ c :: post).map (fun c => c.key)).Nodup) :
    (pre.map (fun c => c.key)).Nodup ∧ (post.map (fun c => c.key)).Nodup ∧
      c.key ∉ pre.map (fun c => c.key) ∧ c.key ∉ post.map (fun c => c.key) ∧
      ∀ a, a ∈ pre.map (fun c => c.key) → a ∉ post.map (fun c => c.key) := by
  obtain ⟨h1, h2, h3⟩ := nodup_append_key nd
  simp only [List.map_cons, List.nodup_cons] at h2
  refine ⟨h1, h2.2, ?_, h2.1, ?_⟩
  · intro hm
    exact h3 _ hm (by simp)
  · intro a ha hb
    exact h3 _ ha (by simp [hb])

/-- The map contents for a chain with a distinguished cell. -/
theorem seg_mid (pre post : List Cell) (c : Cell) :
    seg none (pre ++ c :: post) none =
      seg none pre (some c.addr) ++ c.node (hd post none) (lastA pre none)
        :: seg (some c.addr) post none := by
  rw [seg_append]; rfl

/-- The early exit of `update`: the entry is the newest one. -/
theorem update_newest_spec {s : LRUCache} {c : Cell} {post : List Cell} (value : Option Int)
    (r : Rep s (c :: post)) :
    ∃ h2, s.update c.addr value = some { s with cache_ := h2 } ∧
      h2.Perm (seg none ({ c with val := value.getD c.val } :: post) none) := by
  have hnew : s.newest_ = some c.addr := r.newest
  have hp := r.heap
  rw [seg_cons] at hp
  cases value with
  | none =>
    refine ⟨s.cache_, ?_, ?_⟩
    · simp only [LRUCache.update, hnew, if_true]
      rw [← hnew]
    · exact hp
  | some v =>
    have nd : ((c.node (hd post none) none :: seg (some c.addr) post none).map
        (fun n => n.addr)).Nodup := by
      rw [← seg_cons, map_addr_seg]; exact r.addrs
    have hc : c.addr ∉ post.map (fun c => c.addr) := by
      have := r.addrs
      simp only [List.map_cons, List.nodup_cons] at this
      exact this.1
    have hm := modify_perm hp nd (n := c.node (hd post none) none) (by simp)
      (fun x => { x with value_ := v })
    simp only [node_addr, List.map_cons, upd_value_node, map_upd_seg_id _ _ _ _ hc] at hm
    refine ⟨_, ?_, hm.2⟩
    simp [LRUCache.update, hnew, hm.1]

theorem lastA_ne_of_not_mem {xs : List Cell} {a b : Nat} (hb : b ≠ a)
    (ha : a ∉ xs.map (fun c => c.addr)) : lastA xs (some b) ≠ some a := by
  intro e
  exact ha (lastA_mem e (by simpa using hb))

/-- The last step of `update`: linking the entry in front of the chain. -/
theorem link_front_spec {h : List Node} {pre post : List Cell} {c : Cell} (hpre : pre ≠ [])
    (nd : ((pre ++ c :: post).map (fun c => c.addr)).Nodup)
    (hp : h.Perm (seg none pre (hd post none) ++ c.node (hd pre none) none
      :: seg (lastA pre none) post none)) :
    ∃ h2, Entry.link h c.addr = some h2 ∧ h2.Perm (seg none (c :: (pre ++ post)) none) := by
  obtain ⟨ndpre, ndpost, hcpre, hcpost, hdis⟩ := nodup_mid_addr nd
  have hhdpre : hd pre none ≠ some c.addr := fun e => hcpre (hd_mem_none e)
  have hhdpre_post : ∀ a, hd pre none = some a → a ∉ post.map (fun c => c.addr) :=
    fun a e hm => hdis a (hd_mem_none e) hm
  have nd0 : ((seg none pre (hd post none) ++ c.node (hd pre none) none
      :: seg (lastA pre none) post none).map (fun n => n.addr)).Nodup := by
    simpa [map_addr_seg] using nd
  obtain ⟨h2, hl, hp2⟩ := link_spec hp nd0 (n := c.node (hd pre none) none) (by simp)
    (by
      intro p hp
      simp only [node_second] at hp
      refine ⟨fun e => hhdpre (by rw [hp, e]; rfl), ?_⟩
      simp only [List.map_append, List.map_cons, map_addr_seg, List.mem_append, List.mem_cons]
      exact Or.inl (hd_mem_none hp))
    (by simp)
  have e0 : optUpd none (fun x : Entry => { x with prev_ := some c.addr }) = id := by
    funext n; rfl
  simp only [node_second, node_addr, List.map_append, List.map_cons, e0, List.map_id,
    id_eq] at hp2 hl
  rw [map_next_hd _ _ _ ndpre, optUpd_ne (by simpa using hhdpre),
    map_optUpd_seg_id _ _ _ hhdpre_post] at hp2
  refine ⟨h2, hl, hp2.trans ?_⟩
  rw [seg_cons, seg_append, hd_append, hd_of_ne_nil hpre (hd post none) none,
    lastA_of_ne_nil hpre (some c.addr) none]
  exact List.perm_middle

/-- The main path of `update`: the entry is not the newest one. -/
theorem update_mid_spec {s : LRUCache} {pre post : List Cell} {c : Cell} (value : Option Int)
    (hpre : pre ≠ []) (r : Rep s (pre ++ c :: post)) :
    ∃ h2, s.update c.addr value =
        some { s with cache_ := h2, oldest_ := lastA (pre ++ post) (some c.addr),
                      newest_ := some c.addr } ∧
      h2.Perm (seg none ({ c with val := value.getD c.val } :: (pre ++ post)) none) := by
  obtain ⟨ndpre, ndpost, hcpre, hcpost, hdis⟩ := nodup_mid_addr r.addrs
  have hnew : s.newest_ = hd pre none := by
    rw [r.newest, hd_append]; exact hd_of_ne_nil hpre _ _
  have hhdpre : hd pre none ≠ some c.addr := fun e => hcpre (hd_mem_none e)
  have hlapre : lastA pre none ≠ some c.addr := fun e => hcpre (lastA_mem_none e)
  have hhdpost : hd post none ≠ some c.addr := fun e => hcpost (hd_mem_none e)
  have hhdpost_pre : ∀ a, hd post none = some a → a ∉ pre.map (fun c => c.addr) :=
    fun a e hm => hdis a hm (hd_mem_none e)
  have hlapre_post : ∀ a, lastA pre none = some a → a ∉ post.map (fun c => c.addr) :=
    fun a e hm => hdis a (lastA_mem_none e) hm
  have hhdpre_post : ∀ a, hd pre none = some a → a ∉ post.map (fun c => c.addr) :=
    fun a e hm => hdis a (hd_mem_none e) hm
  -- the map before the call
  have hp0 := r.heap
  rw [seg_mid] at hp0
  have nd0 : ((seg none pre (some c.addr) ++ c.node (hd post none) (lastA pre none)
      :: seg (some c.addr) post none).map (fun n => n.addr)).Nodup := by
    rw [← seg_mid, map_addr_seg]; exact r.addrs
  have hmem0 : c.node (hd post none) (lastA pre none) ∈ seg none pre (some c.addr) ++
      c.node (hd post none) (lastA pre none) :: seg (some c.addr) post none := by simp
  have hd0 := deref_perm hp0 nd0 hmem0
  -- the new oldest marker
  have hold : (if s.oldest_ = some c.addr then lastA pre none else s.oldest_) =
      lastA (pre ++ post) (some c.addr) := by
    rw [r.oldest, lastA_append, lastA_append, lastA_cons]
    cases post with
    | nil =>
      simp only [lastA_nil, if_true]
      exact lastA_of_ne_nil hpre _ _
    | cons d post =>
      simp only [lastA_cons]
      have hne : lastA post (some d.addr) ≠ some c.addr := by
        apply lastA_ne_of_not_mem
        · intro e; exact hcpost (by simp [e])
        · intro hm; exact hcpost (by simp [hm])
      rw [if_neg hne]
  -- unlink
  obtain ⟨h1, hu, hp1⟩ := unlink_spec hp0 nd0 hmem0
    (by
      intro p hp
      simp only [node_second] at hp
      refine ⟨fun e => hhdpost (by rw [hp, e]; rfl), ?_⟩
      simp only [List.map_append, List.map_cons, map_addr_seg, List.mem_append, List.mem_cons]
      exact Or.inr (Or.inr (hd_mem_none hp)))
    (by
      intro q hq
      simp only [node_second] at hq
      simp only [List.map_append, List.map_cons, map_addr_seg, List.mem_append, List.mem_cons]
      exact Or.inl (lastA_mem_none hq))
  simp only [node_second, node_addr, List.map_append, List.map_cons] at hp1 hu
  rw [map_optUpd_seg_id _ _ _ hhdpost_pre, optUpd_ne (o := hd post none) (by simpa using hhdpost),
    map_next_hd _ _ _ ndpost, map_prev_lastA _ _ _ ndpre,
    optUpd_ne (o := lastA pre none) (by simpa using hlapre),
    map_optUpd_seg_id _ _ _ hlapre_post] at hp1
  have nd1 : ((seg none pre (hd post none) ++ c.node (hd post none) (lastA pre none)
      :: seg (lastA pre none) post none).map (fun n => n.addr)).Nodup := by
    simpa [map_addr_seg] using nd0
  -- the writes to the entry
  have hm2 := modify_perm hp1 nd1 (n := c.node (hd post none) (lastA pre none)) (by simp)
    (fun x => { x with prev_ := s.newest_ })
  simp only [node_addr, List.map_append, List.map_cons, upd_prev_node,
    map_upd_seg_id _ _ _ _ hcpre, map_upd_seg_id _ _ _ _ hcpost] at hm2
  obtain ⟨hm2e, hm2p⟩ := hm2
  generalize h1.map (upd c.addr (fun x => { x with prev_ := s.newest_ })) = h2 at hm2e hm2p
  have nd2 : ((seg none pre (hd post none) ++ c.node s.newest_ (lastA pre none)
      :: seg (lastA pre none) post none).map (fun n => n.addr)).Nodup := by
    simpa [map_addr_seg] using nd0
  have hm3 := modify_perm hm2p nd2 (n := c.node s.newest_ (lastA pre none)) (by simp)
    (fun x => { x with next_ := none })
  simp only [node_addr, List.map_append, List.map_cons, upd_next_node,
    map_upd_seg_id _ _ _ _ hcpre, map_upd_seg_id _ _ _ _ hcpost] at hm3
  obtain ⟨hm3e, hm3p⟩ := hm3
  generalize h2.map (upd c.addr (fun x => { x with next_ := none })) = h3 at hm3e hm3p
  have nd3 : ((seg none pre (hd post none) ++ c.node s.newest_ none
      :: seg (lastA pre none) post none).map (fun n => n.addr)).Nodup := by
    simpa [map_addr_seg] using nd0
  simp only [node_addr, node_second] at hd0
  rw [hnew] at hm3p hm2e
  cases value with
  | none =>
    have hc : ({ c with val := (none : Option Int).getD c.val } : Cell) = c := rfl
    rw [hc]
    obtain ⟨h5, hl, hp5⟩ := link_front_spec hpre r.addrs hm3p
    refine ⟨h5, ?_, hp5⟩
    simp [LRUCache.update, hnew, hhdpre, hd0, hu, hm2e, hm3e, hl, ← hold]
  | some v =>
    have hm4 := modify_perm hm3p (by rw [← hnew]; exact nd3) (n := c.node (hd pre none) none)
      (by simp) (fun x => { x with value_ := v })
    simp only [node_addr, List.map_append, List.map_cons, upd_value_node,
      map_upd_seg_id _ _ _ _ hcpre, map_upd_seg_id _ _ _ _ hcpost] at hm4
    obtain ⟨hm4e, hm4p⟩ := hm4
    generalize h3.map (upd c.addr (fun x => { x with value_ := v })) = h4 at hm4e hm4p
    have ndv : ((pre ++ { c with val := v } :: post).map (fun c => c.addr)).Nodup := by
      simpa using r.addrs
    obtain ⟨h5, hl, hp5⟩ := link_front_spec (c := { c with val := v }) hpre ndv hm4p
    refine ⟨h5, ?_, hp5⟩
    simp only at hl
    simp [LRUCache.update, hnew, hhdpre, hd0, hu, hm2e, hm3e, hm4e, hl, ← hold]

/-! ## The private and public methods preserve the representation -/

theorem update_spec {s : LRUCache} {pre post : List Cell} {c : Cell} (value : Option Int)
    (r : Rep s (pre ++ c :: post)) :
    ∃ s', s.update c.addr value = some s' ∧
      Rep s' ({ c with val := value.getD c.val } :: (pre ++ post)) ∧
      s'.capacity_ = s.capacity_ ∧ s'.brk_ = s.brk_ := by
  have hperm : (pre ++ c :: post).Perm (c :: (pre ++ post)) := List.perm_middle
  have haddrs : (({ c with val := value.getD c.val } :: (pre ++ post)).map
      (fun c => c.addr)).Nodup := by
    have := (hperm.map (fun c => c.addr)).nodup_iff.1 r.addrs
    simpa using this
  have hkeys : (({ c with val := value.getD c.val } :: (pre ++ post)).map
      (fun c => c.key)).Nodup := by
    have := (hperm.map (fun c => c.key)).nodup_iff.1 r.keys
    simpa using this
  have hbrk : ∀ d ∈ ({ c with val := value.getD c.val } :: (pre ++ post)), d.addr < s.brk_ := by
    intro d hd
    rcases List.mem_cons.1 hd with rfl | hd
    · exact r.brk c (by simp)
    · exact r.brk d (hperm.mem_iff.2 (List.mem_cons_of_mem _ hd))
  have hsize : ({ c with val := value.getD c.val } :: (pre ++ post)).length ≤ s.capacity_ := by
    have := r.size
    simp only [List.length_append, List.length_cons] at this ⊢
    omega
  by_cases hpre : pre = []
  · subst hpre
    obtain ⟨h2, he, hp⟩ := update_newest_spec value r
    refine ⟨_, he, ⟨⟨hp, haddrs, hkeys, hbrk, ?_, hsize⟩, ?_⟩, rfl, rfl⟩
    · exact r.oldest
    · exact r.newest
  · obtain ⟨h2, he, hp⟩ := update_mid_spec value hpre r
    exact ⟨_, he, ⟨⟨hp, haddrs, hkeys, hbrk, rfl, hsize⟩, rfl⟩, rfl, rfl⟩

/-! ## Facts on chains -/

theorem find?_key_none {ns : List Cell} {k : Int} (hk : k ∉ ns.map (fun c => c.key)) :
    ns.find? (fun c => decide (c.key = k)) = none := by
  rw [List.find?_eq_none]
  intro c hc
  simp only [decide_eq_true_eq]
  intro e
  exact hk (e ▸ List.mem_map_of_mem (fun c => c.key) hc)

theorem find?_key_mid {pre post : List Cell} {c : Cell}
    (nd : ((pre ++ c :: post).map (fun c => c.key)).Nodup) :
    (pre ++ c :: post).find? (fun d => decide (d.key = c.key)) = some c := by
  obtain ⟨-, -, hc, -, -⟩ := nodup_mid_key nd
  rw [List.find?_append, find?_key_none hc]
  simp

theorem erase_mid {pre post : List Cell} {c : Cell}
    (nd : ((pre ++ c :: post).map (fun c => c.key)).Nodup) :
    (pre ++ c :: post).erase c = pre ++ post := by
  obtain ⟨-, -, hc, -, -⟩ := nodup_mid_key nd
  have : c ∉ pre := fun hm => hc (List.mem_map_of_mem (fun c => c.key) hm)
  rw [List.erase_append_right _ this]
  simp

theorem exists_mid {ns : List Cell} {k : Int} (hk : k ∈ ns.map (fun c => c.key)) :
    ∃ pre c post, ns = pre ++ c :: post ∧ c.key = k := by
  obtain ⟨c, hc, e⟩ := List.mem_map.1 hk
  obtain ⟨pre, post, h⟩ := List.append_of_mem hc
  exact ⟨pre, c, post, h, e⟩

theorem chainGet_absent {ns : List Cell} {k : Int} (hk : k ∉ ns.map (fun c => c.key)) :
    chainGet ns k = ns := by
  simp [chainGet, find?_key_none hk]

theorem chainGet_mid {pre post : List Cell} {c : Cell}
    (nd : ((pre ++ c :: post).map (fun c => c.key)).Nodup) :
    chainGet (pre ++ c :: post) c.key = c :: (pre ++ post) := by
  simp only [chainGet, find?_key_mid nd, erase_mid nd]

theorem chainPut_zero (brk : Nat) (ns : List Cell) (k v : Int) : chainPut 0 brk ns k v = ns := by
  simp [chainPut]

theorem chainPut_mid {cap : Nat} (hcap : cap ≠ 0) (brk : Nat) {pre post : List Cell} {c : Cell}
    (v : Int) (nd : ((pre ++ c :: post).map (fun c => c.key)).Nodup) :
    chainPut cap brk (pre ++ c :: post) c.key v = { c with val := v } :: (pre ++ post) := by
  simp only [chainPut, hcap, if_false, find?_key_mid nd, erase_mid nd]

theorem chainPut_absent {cap : Nat} (hcap : cap ≠ 0) (brk : Nat) {ns : List Cell} {k : Int}
    (v : Int) (hk : k ∉ ns.map (fun c => c.key)) :
    chainPut cap brk ns k v =
      { addr := brk, key := k, val := v } :: (if ns.length = cap then ns.dropLast else ns) := by
  simp only [chainPut, hcap, if_false, find?_key_none hk]

/-! ## The public methods -/

theorem keys_perm {s : LRUCache} {ns : List Cell} (r : RepOld s ns) :
    s.keys.Perm (ns.map (fun c => c.key)) := by
  have := r.heap.map (fun n => n.first)
  rwa [map_first_seg] at this

theorem length_cache {s : LRUCache} {ns : List Cell} (r : RepOld s ns) :
    s.cache_.length = ns.length := by
  rw [r.heap.length_eq, length_seg]

theorem mem_keys_iff {s : LRUCache} {ns : List Cell} (r : RepOld s ns) (k : Int) :
    k ∈ s.keys ↔ k ∈ ns.map (fun c => c.key) :=
  (keys_perm r).mem_iff

theorem find_absent {s : LRUCache} {ns : List Cell} (r : RepOld s ns) {k : Int}
    (hk : k ∉ ns.map (fun c => c.key)) : find s.cache_ k = none := by
  rw [find_eq_none]
  exact fun h => hk ((mem_keys_iff r k).1 h)

theorem find_mid {s : LRUCache} {pre post : List Cell} {c : Cell}
    (r : RepOld s (pre ++ c :: post)) : find s.cache_ c.key = some c.addr := by
  have nd : (s.cache_.map (fun n => n.first)).Nodup := (keys_perm r).nodup_iff.2 r.keys
  have hm : c.node (hd post none) (lastA pre none) ∈ s.cache_ := by
    rw [r.heap.mem_iff, seg_mid]; simp
  exact find_of_mem nd hm

theorem deref_mid {s : LRUCache} {pre post : List Cell} {c : Cell}
    (r : RepOld s (pre ++ c :: post)) :
    deref s.cache_ c.addr = some (c.node (hd post none) (lastA pre none)).second := by
  have nd : ((seg none (pre ++ c :: post) none).map (fun n => n.addr)).Nodup := by
    rw [map_addr_seg]; exact r.addrs
  exact deref_perm r.heap nd (n := c.node (hd post none) (lastA pre none))
    (by rw [seg_mid]; simp)

theorem get_absent {s : LRUCache} {ns : List Cell} (r : RepOld s ns) {k : Int}
    (hk : k ∉ ns.map (fun c => c.key)) : s.get k = some (-1, s) := by
  simp [LRUCache.get, find_absent r hk]

theorem get_mid {s : LRUCache} {pre post : List Cell} {c : Cell}
    (r : Rep s (pre ++ c :: post)) :
    ∃ s', s.get c.key = some (c.val, s') ∧ Rep s' (c :: (pre ++ post)) ∧
      s'.capacity_ = s.capacity_ ∧ s'.brk_ = s.brk_ := by
  obtain ⟨s', hu, r', hc, hb⟩ := update_spec none r
  have hcc : ({ c with val := (none : Option Int).getD c.val } : Cell) = c := rfl
  rw [hcc] at r'
  have hd := @deref_mid s' [] _ _ r'.toRepOld
  refine ⟨s', ?_, r', hc, hb⟩
  simp [LRUCache.get, find_mid r.toRepOld, hu, hd]

theorem put_zero {s : LRUCache} (hc : s.capacity_ = 0) (k v : Int) : s.put k v = some s := by
  simp [LRUCache.put, hc]

theorem put_mid {s : LRUCache} {pre post : List Cell} {c : Cell} (hcap : s.capacity_ ≠ 0)
    (v : Int) (r : Rep s (pre ++ c :: post)) :
    ∃ s', s.put c.key v = some s' ∧ Rep s' ({ c with val := v } :: (pre ++ post)) ∧
      s'.capacity_ = s.capacity_ ∧ s'.brk_ = s.brk_ := by
  obtain ⟨s', hu, r', hc, hb⟩ := update_spec (some v) r
  refine ⟨s', ?_, r', hc, hb⟩
  simp [LRUCache.put, hcap, find_mid r.toRepOld, hu]

theorem put_absent_room {s : LRUCache} {ns : List Cell} {k : Int} (v : Int) (r : Rep s ns)
    (hk : k ∉ ns.map (fun c => c.key)) (hlen : ns.length < s.capacity_) :
    ∃ s', s.put k v = some s' ∧ Rep s' ({ addr := s.brk_, key := k, val := v } :: ns) ∧
      s'.capacity_ = s.capacity_ ∧ s'.brk_ = s.brk_ + 1 := by
  obtain ⟨h2, hi, hp⟩ := @insert_newest_spec s ns k v r.toRepOld (fun _ => r.newest) hk hlen
  refine ⟨{ s with cache_ := h2,
                   oldest_ := lastA ({ addr := s.brk_, key := k, val := v } :: ns) none,
                   newest_ := some s.brk_, brk_ := s.brk_ + 1 },
    ?_, ⟨⟨hp, ?_, ?_, ?_, rfl, ?_⟩, rfl⟩, rfl, rfl⟩
  · have hcap : s.capacity_ ≠ 0 := by omega
    have hl : ¬ (s.cache_.length + 1 > s.capacity_) := by
      rw [length_cache r.toRepOld]; omega
    simp [LRUCache.put, hcap, find_absent r.toRepOld hk, hl, hi]
  · simp only [List.map_cons, List.nodup_cons]
    refine ⟨?_, r.addrs⟩
    intro hm
    obtain ⟨c, hc, e⟩ := List.mem_map.1 hm
    have := r.brk c hc
    omega
  · simp only [List.map_cons, List.nodup_cons]
    exact ⟨hk, r.keys⟩
  · intro c hc
    rcases List.mem_cons.1 hc with rfl | hc
    · simp
    · have := r.brk c hc
      simp only
      omega
  · simp only [List.length_cons]
    omega

theorem put_absent_full {s : LRUCache} {init : List Cell} {c : Cell} {k : Int} (v : Int)
    (r : Rep s (init ++ [c])) (hk : k ∉ (init ++ [c]).map (fun c => c.key))
    (hlen : (init ++ [c]).length = s.capacity_) :
    ∃ s', s.put k v = some s' ∧ Rep s' ({ addr := s.brk_, key := k, val := v } :: init) ∧
      s'.capacity_ = s.capacity_ ∧ s'.brk_ = s.brk_ + 1 := by
  obtain ⟨h1, he, hp1⟩ := evict_oldest_spec r.toRepOld
  obtain ⟨ndi, -, -⟩ := nodup_append_addr r.addrs
  obtain ⟨kdi, -, -⟩ := nodup_append_key r.keys
  have hki : k ∉ init.map (fun c => c.key) := by
    intro hm
    apply hk
    rw [List.map_append]
    exact List.mem_append_left _ hm
  simp only [List.length_append, List.length_singleton] at hlen
  have r1 : RepOld { s with cache_ := h1, oldest_ := lastA init none } init :=
    ⟨hp1, ndi, kdi, fun d hd => r.brk d (by simp [hd]), rfl, by simp only; omega⟩
  obtain ⟨h2, hi, hp2⟩ := @insert_newest_spec _ init k v r1
    (by
      intro hc1
      simp only at hc1 ⊢
      have hne : init ≠ [] := by
        intro e
        subst e
        simp at hlen
        exact hc1 hlen.symm
      rw [r.newest, hd_append]
      exact hd_of_ne_nil hne _ _)
    hki (by simp only; omega)
  simp only at hi hp2
  refine ⟨{ s with cache_ := h2,
                   oldest_ := lastA ({ addr := s.brk_, key := k, val := v } :: init) none,
                   newest_ := some s.brk_, brk_ := s.brk_ + 1 },
    ?_, ⟨⟨hp2, ?_, ?_, ?_, rfl, ?_⟩, rfl⟩, rfl, rfl⟩
  · have hcap : s.capacity_ ≠ 0 := by omega
    have hl : s.cache_.length + 1 > s.capacity_ := by
      rw [length_cache r.toRepOld]
      simp only [List.length_append, List.length_singleton]
      omega
    simp [LRUCache.put, hcap, find_absent r.toRepOld hk, hl, he, hi]
  · simp only [List.map_cons, List.nodup_cons]
    refine ⟨?_, ndi⟩
    intro hm
    obtain ⟨d, hd, e⟩ := List.mem_map.1 hm
    have := r.brk d (by simp [hd])
    omega
  · simp only [List.map_cons, List.nodup_cons]
    exact ⟨hki, kdi⟩
  · intro d hd
    rcases List.mem_cons.1 hd with rfl | hd
    · simp
    · have := r.brk d (by simp [hd])
      simp only
      omega
  · simp only [List.length_cons]
    omega

/-! ## The public methods follow the chain functions and the list model -/

theorem get_spec {s : LRUCache} {ns : List Cell} (r : Rep s ns) (k : Int) :
    ∃ s', s.get k = some ((Model.get (pairs ns) k).1, s') ∧ Rep s' (chainGet ns k) ∧
      s'.capacity_ = s.capacity_ ∧ s'.brk_ = s.brk_ := by
  by_cases hk : k ∈ ns.map (fun c => c.key)
  · obtain ⟨pre, c, post, rfl, rfl⟩ := exists_mid hk
    obtain ⟨s', hg, r', hc, hb⟩ := get_mid r
    refine ⟨s', ?_, ?_, hc, hb⟩
    · rw [hg]
      have : (pairs (pre ++ c :: post)).find? (fun p => decide (p.1 = c.key)) =
          some (c.key, c.val) := by
        unfold pairs
        rw [List.find?_map]
        have := find?_key_mid r.keys
        simp only [Function.comp_def]
        rw [this]
        rfl
      simp [Model.get, this]
    · rw [chainGet_mid r.keys]
      exact r'
  · refine ⟨s, ?_, ?_, rfl, rfl⟩
    · rw [get_absent r.toRepOld hk]
      have : (pairs ns).find? (fun p => decide (p.1 = k)) = none := by
        unfold pairs
        rw [List.find?_map]
        have := find?_key_none hk
        simp only [Function.comp_def]
        rw [this]
        rfl
      simp [Model.get, this]
    · rw [chainGet_absent hk]
      exact r

theorem put_spec {s : LRUCache} {ns : List Cell} (r : Rep s ns) (k v : Int) :
    ∃ s', s.put k v = some s' ∧ Rep s' (chainPut s.capacity_ s.brk_ ns k v) ∧
      s'.capacity_ = s.capacity_ := by
  by_cases hcap : s.capacity_ = 0
  · refine ⟨s, put_zero hcap k v, ?_, rfl⟩
    rw [hcap, chainPut_zero]
    exact r
  by_cases hk : k ∈ ns.map (fun c => c.key)
  · obtain ⟨pre, c, post, rfl, rfl⟩ := exists_mid hk
    obtain ⟨s', hg, r', hc, -⟩ := put_mid hcap v r
    refine ⟨s', hg, ?_, hc⟩
    rw [chainPut_mid hcap _ _ r.keys]
    exact r'
  · rw [chainPut_absent hcap _ _ hk]
    by_cases hlen : ns.length = s.capacity_
    · rw [if_pos hlen]
      have hne : ns ≠ [] := by
        intro e
        subst e
        exact hcap hlen.symm
      obtain ⟨init, c, rfl⟩ : ∃ init c, ns = init ++ [c] :=
        ⟨ns.dropLast, ns.getLast hne, (List.dropLast_append_getLast hne).symm⟩
      obtain ⟨s', hg, r', hc, -⟩ := put_absent_full v r hk hlen
      refine ⟨s', hg, ?_, hc⟩
      rw [List.dropLast_concat]
      exact r'
    · rw [if_neg hlen]
      have := r.size
      obtain ⟨s', hg, r', hc, -⟩ := put_absent_room v r hk (by omega)
      exact ⟨s', hg, r', hc⟩

theorem pairs_find? (ns : List Cell) (k : Int) :
    (pairs ns).find? (fun p => decide (p.1 = k)) =
      (ns.find? (fun c => decide (c.key = k))).map (fun c => (c.key, c.val)) := by
  unfold pairs
  rw [List.find?_map]
  rfl

theorem pairs_erase_mid {pre post : List Cell} {c : Cell}
    (nd : ((pre ++ c :: post).map (fun c => c.key)).Nodup) :
    (pairs (pre ++ c :: post)).erase (c.key, c.val) = pairs (pre ++ post) := by
  obtain ⟨-, -, hc, -, -⟩ := nodup_mid_key nd
  have hn : (c.key, c.val) ∉ pairs pre := by
    intro hm
    obtain ⟨d, hd, e⟩ := List.mem_map.1 hm
    simp only [Prod.mk.injEq] at e
    exact hc (e.1 ▸ List.mem_map_of_mem (fun c => c.key) hd)
  unfold pairs at hn ⊢
  rw [List.map_append, List.map_cons, List.erase_append_right _ hn, List.erase_cons_head,
    List.map_append]

theorem pairs_chainGet {ns : List Cell} (nd : (ns.map (fun c => c.key)).Nodup) (k : Int) :
    pairs (chainGet ns k) = (Model.get (pairs ns) k).2 := by
  by_cases hk : k ∈ ns.map (fun c => c.key)
  · obtain ⟨pre, c, post, rfl, rfl⟩ := exists_mid hk
    rw [chainGet_mid nd]
    simp only [Model.get, pairs_find?, find?_key_mid nd, Option.map_some', pairs_erase_mid nd]
    rfl
  · rw [chainGet_absent hk]
    simp only [Model.get, pairs_find?, find?_key_none hk, Option.map_none']

theorem pairs_chainPut (cap brk : Nat) {ns : List Cell} (nd : (ns.map (fun c => c.key)).Nodup)
    (k v : Int) : pairs (chainPut cap brk ns k v) = Model.put cap (pairs ns) k v := by
  by_cases hcap : cap = 0
  · subst hcap
    simp [chainPut, Model.put]
  by_cases hk : k ∈ ns.map (fun c => c.key)
  · obtain ⟨pre, c, post, rfl, rfl⟩ := exists_mid hk
    rw [chainPut_mid hcap _ _ nd]
    simp only [Model.put, hcap, if_false, pairs_find?, find?_key_mid nd, Option.map_some',
      pairs_erase_mid nd]
    rfl
  · rw [chainPut_absent hcap _ _ hk]
    simp only [Model.put, hcap, if_false, pairs_find?, find?_key_none hk, Option.map_none']
    have hl : (pairs ns).length = ns.length := by simp [pairs]
    rw [hl]
    by_cases hlen : ns.length = cap
    · simp only [hlen, if_true]
      simp [pairs, List.map_dropLast]
    · simp only [hlen, if_false]
      rfl

/-- The freshly constructed cache holds the empty chain. -/
theorem rep_new (c : Nat) : Rep (LRUCache.new c) [] :=
  ⟨⟨List.Perm.nil, List.nodup_nil, List.nodup_nil, fun _ h => absurd h (List.not_mem_nil _),
    rfl, Nat.zero_le _⟩, rfl⟩

/-- Every sequence of calls runs to completion, keeps the representation and returns what
the list model returns. -/
theorem run_spec {s : LRUCache} {ns : List Cell} (r : Rep s ns) (ops : List Op) :
    ∃ s' ns', s.run ops = some (Model.run s.capacity_ (pairs ns) ops, s') ∧ Rep s' ns' ∧
      s'.capacity_ = s.capacity_ := by
  induction ops generalizing s ns with
  | nil => exact ⟨s, ns, rfl, r, rfl⟩
  | cons op ops ih =>
    cases op with
    | get k =>
      obtain ⟨s1, hg, r1, hc1, -⟩ := get_spec r k
      obtain ⟨s2, ns2, hr, r2, hc2⟩ := ih r1
      refine ⟨s2, ns2, ?_, r2, hc2.trans hc1⟩
      rw [hc1, pairs_chainGet r.keys] at hr
      simp only [LRUCache.run, hg, hr, Model.run]
    | put k v =>
      obtain ⟨s1, hg, r1, hc1⟩ := put_spec r k v
      obtain ⟨s2, ns2, hr, r2, hc2⟩ := ih r1
      refine ⟨s2, ns2, ?_, r2, hc2.trans hc1⟩
      rw [hc1, pairs_chainPut _ _ r.keys] at hr
      simp only [LRUCache.run, hg, hr, Model.run]

/-! ## Reachable states -/

theorem reachable_rep {s : LRUCache} (h : Reachable s) : ∃ ns, Rep s ns := by
  obtain ⟨c, ops, rs, hr⟩ := h
  obtain ⟨s', ns', hr', r, -⟩ := run_spec (rep_new c) ops
  rw [hr] at hr'
  simp only [Option.some.injEq, Prod.mk.injEq] at hr'
  exact ⟨ns', hr'.2 ▸ r⟩

theorem run_rep {c : Nat} {ops : List Op} {rs : List Int} {s : LRUCache}
    (hr : (LRUCache.new c).run ops = some (rs, s)) : (∃ ns, Rep s ns) ∧ s.capacity_ = c := by
  obtain ⟨s', ns', hr', r, hc⟩ := run_spec (rep_new c) ops
  rw [hr] at hr'
  simp only [Option.some.injEq, Prod.mk.injEq] at hr'
  obtain ⟨-, rfl⟩ := hr'
  exact ⟨⟨ns', r⟩, hc⟩

theorem run_get_cons (s : LRUCache) (k : Int) (ops : List Op) :
    s.run (Op.get k :: ops) =
      match s.get k with
      | some (r, s1) =>
        (match s1.run ops with
        | some (rs, s2) => some (r :: rs, s2)
        | none => none)
      | none => none := rfl

theorem run_put_cons (s : LRUCache) (k v : Int) (ops : List Op) :
    s.run (Op.put k v :: ops) =
      match s.put k v with
      | some s1 => s1.run ops
      | none => none := rfl

theorem touchLog_get_cons (s : LRUCache) (k : Int) (ops : List Op) :
    touchLog s (Op.get k :: ops) =
      touched s (Op.get k) ::
        (match s.get k with
        | some (_, s1) => touchLog s1 ops
        | none => []) := rfl

theorem touchLog_put_cons (s : LRUCache) (k v : Int) (ops : List Op) :
    touchLog s (Op.put k v :: ops) =
      touched s (Op.put k v) ::
        (match s.put k v with
        | some s1 => touchLog s1 ops
        | none => []) := rfl

theorem lastTouch_cons (t : Option Int) (log : List (Option Int)) (k : Int) :
    lastTouch (t :: log) k =
      if lastTouch log k ≠ 0 then lastTouch log k + 1 else if t = some k then 1 else 0 := rfl

theorem run_get_single {s s1 : LRUCache} {k r : Int} (h : s.get k = some (r, s1)) :
    s.run [Op.get k] = some ([r], s1) := by
  rw [run_get_cons, h]
  rfl

theorem run_put_single {s s1 : LRUCache} {k v : Int} (h : s.put k v = some s1) :
    s.run [Op.put k v] = some ([], s1) := by
  rw [run_put_cons, h]
  rfl

theorem run_snoc {s s1 s2 : LRUCache} {ops : List Op} {op : Op} {rs rs1 : List Int}
    (h1 : s.run ops = some (rs, s1)) (h2 : s1.run [op] = some (rs1, s2)) :
    s.run (ops ++ [op]) = some (rs ++ rs1, s2) := by
  induction ops generalizing s rs with
  | nil =>
    simp only [LRUCache.run, Option.some.injEq, Prod.mk.injEq] at h1
    obtain ⟨rfl, rfl⟩ := h1
    simpa using h2
  | cons o ops ih =>
    cases o with
    | get k =>
      rw [run_get_cons] at h1
      rw [List.cons_append, run_get_cons]
      cases hg : s.get k with
      | none => simp [hg] at h1
      | some p =>
        obtain ⟨r, s3⟩ := p
        simp only [hg] at h1 ⊢
        cases hr : s3.run ops with
        | none => simp [hr] at h1
        | some q =>
          obtain ⟨rs3, s4⟩ := q
          simp only [hr, Option.some.injEq, Prod.mk.injEq] at h1
          obtain ⟨rfl, rfl⟩ := h1
          rw [ih hr]
          rfl
    | put k v =>
      rw [run_put_cons] at h1
      rw [List.cons_append, run_put_cons]
      cases hg : s.put k v with
      | none => simp [hg] at h1
      | some s3 =>
        simp only [hg] at h1 ⊢
        exact ih h1

theorem touchLog_append {s s1 : LRUCache} {ops : List Op} {rs : List Int}
    (hr : s.run ops = some (rs, s1)) (op : Op) :
    touchLog s (ops ++ [op]) = touchLog s ops ++ [touched s1 op] := by
  induction ops generalizing s rs with
  | nil =>
    simp only [LRUCache.run, Option.some.injEq, Prod.mk.injEq] at hr
    obtain ⟨-, rfl⟩ := hr
    cases op with
    | get k =>
      rw [List.nil_append, touchLog_get_cons]
      cases s.get k <;> rfl
    | put k v =>
      rw [List.nil_append, touchLog_put_cons]
      cases s.put k v <;> rfl
  | cons o ops ih =>
    cases o with
    | get k =>
      rw [run_get_cons] at hr
      rw [List.cons_append, touchLog_get_cons, touchLog_get_cons]
      cases hg : s.get k with
      | none => simp [hg] at hr
      | some p =>
        obtain ⟨r, s2⟩ := p
        simp only [hg] at hr ⊢
        cases hr2 : s2.run ops with
        | none => simp [hr2] at hr
        | some q =>
          obtain ⟨rs2, s3⟩ := q
          simp only [hr2, Option.some.injEq, Prod.mk.injEq] at hr
          obtain ⟨-, rfl⟩ := hr
          rw [ih hr2]
          rfl
    | put k v =>
      rw [run_put_cons] at hr
      rw [List.cons_append, touchLog_put_cons, touchLog_put_cons]
      cases hg : s.put k v with
      | none => simp [hg] at hr
      | some s2 =>
        simp only [hg] at hr ⊢
        rw [ih hr]
        rfl

theorem length_touchLog {s s1 : LRUCache} {ops : List Op} {rs : List Int}
    (hr : s.run ops = some (rs, s1)) : (touchLog s ops).length = ops.length := by
  induction ops generalizing s rs with
  | nil => rfl
  | cons o ops ih =>
    cases o with
    | get k =>
      rw [run_get_cons] at hr
      rw [touchLog_get_cons]
      cases hg : s.get k with
      | none => simp [hg] at hr
      | some p =>
        obtain ⟨r, s2⟩ := p
        simp only [hg] at hr ⊢
        cases hr2 : s2.run ops with
        | none => simp [hr2] at hr
        | some q =>
          obtain ⟨rs2, s3⟩ := q
          simp only [hr2, Option.some.injEq, Prod.mk.injEq] at hr
          obtain ⟨-, rfl⟩ := hr
          simp only [List.length_cons, ih hr2]
    | put k v =>
      rw [run_put_cons] at hr
      rw [touchLog_put_cons]
      cases hg : s.put k v with
      | none => simp [hg] at hr
      | some s2 =>
        simp only [hg] at hr ⊢
        simp only [List.length_cons, ih hr]

theorem lastTouch_le (log : List (Option Int)) (k : Int) : lastTouch log k ≤ log.length := by
  induction log with
  | nil => exact Nat.le_refl _
  | cons t log ih =>
    rw [lastTouch_cons, List.length_cons]
    split
    · omega
    · split <;> omega

theorem lastTouch_append (log : List (Option Int)) (t : Option Int) (k : Int) :
    lastTouch (log ++ [t]) k = if t = some k then log.length + 1 else lastTouch log k := by
  induction log with
  | nil =>
    simp [lastTouch]
  | cons u log ih =>
    rw [List.cons_append, lastTouch_cons, ih, lastTouch_cons, List.length_cons]
    by_cases ht : t = some k
    · simp [ht]
    · simp only [ht, if_false]

/-! ## The shape of the chain after a touch -/

theorem chainGet_shape {ns : List Cell} (nd : (ns.map (fun c => c.key)).Nodup) {k : Int}
    (hk : k ∈ ns.map (fun c => c.key)) :
    ∃ c rest, chainGet ns k = c :: rest ∧ c ∈ ns ∧ c.key = k ∧ rest.Sublist ns ∧
      (∀ d ∈ rest, d.key ≠ k) ∧ rest.Perm (ns.erase c) := by
  obtain ⟨pre, c, post, rfl, rfl⟩ := exists_mid hk
  obtain ⟨-, -, h1, h2, -⟩ := nodup_mid_key nd
  refine ⟨c, pre ++ post, chainGet_mid nd, by simp, rfl, ?_, ?_, ?_⟩
  · exact List.Sublist.append (List.Sublist.refl _) (List.sublist_cons_self _ _)
  · intro d hd e
    rcases List.mem_append.1 hd with hd | hd
    · exact h1 (e ▸ List.mem_map_of_mem (fun c => c.key) hd)
    · exact h2 (e ▸ List.mem_map_of_mem (fun c => c.key) hd)
  · rw [erase_mid nd]

theorem chainPut_shape {cap : Nat} (hcap : cap ≠ 0) (brk : Nat) {ns : List Cell}
    (nd : (ns.map (fun c => c.key)).Nodup) (k v : Int) :
    ∃ c rest, chainPut cap brk ns k v = c :: rest ∧ c.key = k ∧ c.val = v ∧
      rest.Sublist ns ∧ (∀ d ∈ rest, d.key ≠ k) := by
  by_cases hk : k ∈ ns.map (fun c => c.key)
  · obtain ⟨pre, c, post, rfl, rfl⟩ := exists_mid hk
    obtain ⟨-, -, h1, h2, -⟩ := nodup_mid_key nd
    refine ⟨{ c with val := v }, pre ++ post, chainPut_mid hcap brk v nd, rfl, rfl, ?_, ?_⟩
    · exact List.Sublist.append (List.Sublist.refl _) (List.sublist_cons_self _ _)
    · intro d hd e
      rcases List.mem_append.1 hd with hd | hd
      · exact h1 (e ▸ List.mem_map_of_mem (fun c => c.key) hd)
      · exact h2 (e ▸ List.mem_map_of_mem (fun c => c.key) hd)
  · refine ⟨{ addr := brk, key := k, val := v }, _, chainPut_absent hcap brk v hk, rfl, rfl,
      ?_, ?_⟩
    · split
      · exact List.dropLast_sublist _
      · exact List.Sublist.refl _
    · intro d hd e
      have hd2 : d ∈ ns := by
        split at hd
        · exact List.mem_of_mem_dropLast hd
        · exact hd
      exact hk (e ▸ List.mem_map_of_mem (fun c => c.key) hd2)

/-! ## The chain is ordered by the last touch -/

theorem touch_step {log : List (Option Int)} {ns rest : List Cell} {c : Cell} {k : Int}
    (h1 : ∀ d ∈ ns, 0 < lastTouch log d.key)
    (h2 : (ns.map (fun c => c.key)).Pairwise (fun a b => lastTouch log b < lastTouch log a))
    (hsub : rest.Sublist ns) (hne : ∀ d ∈ rest, d.key ≠ k) (hk : c.key = k) :
    (∀ d ∈ c :: rest, 0 < lastTouch (log ++ [some k]) d.key) ∧
      ((c :: rest).map (fun c => c.key)).Pairwise
        (fun a b => lastTouch (log ++ [some k]) b < lastTouch (log ++ [some k]) a) := by
  have hold : ∀ d ∈ rest, lastTouch (log ++ [some k]) d.key = lastTouch log d.key := by
    intro d hd
    rw [lastTouch_append, if_neg]
    intro e
    simp only [Option.some.injEq] at e
    exact hne d hd e.symm
  have hnew : lastTouch (log ++ [some k]) c.key = log.length + 1 := by
    rw [lastTouch_append, hk, if_pos rfl]
  constructor
  · intro d hd
    rcases List.mem_cons.1 hd with rfl | hd
    · rw [hnew]; omega
    · rw [hold d hd]
      exact h1 d (hsub.subset hd)
  · rw [List.map_cons, List.pairwise_cons]
    constructor
    · intro b hb
      obtain ⟨d, hd, rfl⟩ := List.mem_map.1 hb
      rw [hnew, hold d hd]
      have := lastTouch_le log d.key
      omega
    · have hs : (rest.map (fun c => c.key)).Sublist (ns.map (fun c => c.key)) := hsub.map _
      have := h2.sublist hs
      rw [List.pairwise_map] at this ⊢
      refine this.imp_of_mem ?_
      intro a b ha hb hab
      rw [hold a ha, hold b hb]
      exact hab

theorem touch_same {log : List (Option Int)} {ns : List Cell} {t : Option Int}
    (h1 : ∀ d ∈ ns, 0 < lastTouch log d.key)
    (h2 : (ns.map (fun c => c.key)).Pairwise (fun a b => lastTouch log b < lastTouch log a))
    (hne : ∀ d ∈ ns, t ≠ some d.key) :
    (∀ d ∈ ns, 0 < lastTouch (log ++ [t]) d.key) ∧
      (ns.map (fun c => c.key)).Pairwise
        (fun a b => lastTouch (log ++ [t]) b < lastTouch (log ++ [t]) a) := by
  have hold : ∀ d ∈ ns, lastTouch (log ++ [t]) d.key = lastTouch log d.key := by
    intro d hd
    rw [lastTouch_append, if_neg (hne d hd)]
  constructor
  · intro d hd
    rw [hold d hd]
    exact h1 d hd
  · rw [List.pairwise_map] at h2 ⊢
    refine h2.imp_of_mem ?_
    intro a b ha hb hab
    rw [hold a ha, hold b hb]
    exact hab

/-- After any sequence of calls on a fresh cache the state holds a chain in which every
key has been touched and the keys come in the order of their last touch, latest first. -/
theorem touch_order {c : Nat} {ops : List Op} {rs : List Int} {s : LRUCache}
    (hr : (LRUCache.new c).run ops = some (rs, s)) :
    ∃ ns, Rep s ns ∧ (∀ d ∈ ns, 0 < lastTouch (touchLog (LRUCache.new c) ops) d.key) ∧
      (ns.map (fun c => c.key)).Pairwise (fun a b =>
        lastTouch (touchLog (LRUCache.new c) ops) b <
          lastTouch (touchLog (LRUCache.new c) ops) a) := by
  induction ops using List.reverseRecOn generalizing rs s with
  | nil =>
    simp only [LRUCache.run, Option.some.injEq, Prod.mk.injEq] at hr
    obtain ⟨-, rfl⟩ := hr
    exact ⟨[], rep_new c, by simp, by simp⟩
  | append_singleton ops op ih =>
    obtain ⟨s0, ns0', hr0, -, hc0⟩ := run_spec (rep_new c) ops
    obtain ⟨ns0, r0, p1, p2⟩ := ih hr0
    rw [touchLog_append hr0]
    have hcap : s0.capacity_ = c := hc0
    cases op with
    | get k =>
      obtain ⟨s1, hg, r1, -, -⟩ := get_spec r0 k
      have hs : s = s1 := by
        have := run_snoc hr0 (run_get_single hg)
        rw [hr] at this
        simp only [Option.some.injEq, Prod.mk.injEq] at this
        exact this.2
      subst hs
      by_cases hk : k ∈ ns0.map (fun c => c.key)
      · obtain ⟨d, rest, e, -, hdk, hsub, hne, -⟩ := chainGet_shape r0.keys hk
        rw [e] at r1
        have ht : touched s0 (Op.get k) = some k := by
          simp [touched, (mem_keys_iff r0.toRepOld k).2 hk]
        rw [ht]
        exact ⟨_, r1, touch_step p1 p2 hsub hne hdk⟩
      · rw [chainGet_absent hk] at r1
        have ht : touched s0 (Op.get k) = none := by
          simp [touched, mt (mem_keys_iff r0.toRepOld k).1 hk]
        rw [ht]
        exact ⟨_, r1, touch_same p1 p2 (by simp)⟩
    | put k v =>
      obtain ⟨s1, hg, r1, -⟩ := put_spec r0 k v
      have hs : s = s1 := by
        have := run_snoc hr0 (run_put_single hg)
        rw [hr] at this
        simp only [Option.some.injEq, Prod.mk.injEq] at this
        exact this.2
      subst hs
      have ht : touched s0 (Op.put k v) = some k := rfl
      rw [ht]
      by_cases hz : s0.capacity_ = 0
      · rw [hz, chainPut_zero] at r1
        have hnil : ns0 = [] := by
          have := r0.size
          rw [hz] at this
          exact List.length_eq_zero.1 (by omega)
        subst hnil
        exact ⟨_, r1, by simp, by simp⟩
      · obtain ⟨d, rest, e, hdk, -, hsub, hne⟩ := chainPut_shape hz s0.brk_ r0.keys k v
        rw [e] at r1
        exact ⟨_, r1, touch_step p1 p2 hsub hne hdk⟩

/-! ## The eviction order read off the links -/

theorem walk_succ_some (h : List Node) (fuel a : Nat) :
    walk h (fuel + 1) (some a) =
      match deref h a with
      | some e => e.key_ :: walk h fuel e.next_
      | none => [] := rfl

theorem walk_chain {h : List Node} {xs ys : List Cell}
    (hp : h.Perm (seg none (xs ++ ys) none))
    (nd : ((xs ++ ys).map (fun c => c.addr)).Nodup) :
    walk h xs.length (lastA xs none) = (xs.map (fun c => c.key)).reverse := by
  induction xs using List.reverseRecOn generalizing ys with
  | nil => rfl
  | append_singleton xs c ih =>
    have e : xs ++ [c] ++ ys = xs ++ c :: ys := by simp
    rw [e] at hp nd
    have hd : deref h c.addr = some (c.node (hd ys none) (lastA xs none)).second := by
      have nd2 : ((seg none (xs ++ c :: ys) none).map (fun n => n.addr)).Nodup := by
        rw [map_addr_seg]; exact nd
      exact deref_perm hp nd2 (n := c.node (hd ys none) (lastA xs none))
        (by rw [seg_mid]; simp)
    have hl : lastA (xs ++ [c]) none = some c.addr := by
      rw [lastA_append]; rfl
    rw [List.length_append, List.length_singleton, hl, walk_succ_some, hd]
    simp only [node_second, List.map_append, List.map_cons, List.map_nil, List.reverse_append,
      List.reverse_cons, List.reverse_nil, List.nil_append, List.singleton_append,
      List.cons.injEq, true_and]
    exact ih hp nd

theorem order_spec {s : LRUCache} {ns : List Cell} (r : RepOld s ns) :
    s.order = (ns.map (fun c => c.key)).reverse := by
  unfold LRUCache.order
  rw [length_cache r, r.oldest]
  exact @walk_chain s.cache_ ns [] (by simpa using r.heap) (by simpa using r.addrs)

/-! ## Values -/

theorem lookup_mid {s : LRUCache} {pre post : List Cell} {c : Cell}
    (r : RepOld s (pre ++ c :: post)) : s.lookup c.key = some c.val := by
  have nd : (s.cache_.map (fun n => n.first)).Nodup := (keys_perm r).nodup_iff.2 r.keys
  have hm : c.node (hd post none) (lastA pre none) ∈ s.cache_ := by
    rw [r.heap.mem_iff, seg_mid]; simp
  have := find?_first_of_mem nd hm
  simp only [node_first] at this
  simp [LRUCache.lookup, this]

theorem run_nonneg {s : LRUCache} {ns : List Cell} (r : Rep s ns)
    (hns : ∀ d ∈ ns, 0 ≤ d.val) (ops : List Op)
    (hops : ∀ k v, Op.put k v ∈ ops → 0 ≤ v) :
    ∃ rs s' ns', s.run ops = some (rs, s') ∧ Rep s' ns' ∧ (∀ d ∈ ns', 0 ≤ d.val) := by
  induction ops generalizing s ns with
  | nil => exact ⟨[], s, ns, rfl, r, hns⟩
  | cons op ops ih =>
    have hops' : ∀ k v, Op.put k v ∈ ops → 0 ≤ v :=
      fun k v h => hops k v (List.mem_cons_of_mem _ h)
    cases op with
    | get k =>
      obtain ⟨s1, hg, r1, -, -⟩ := get_spec r k
      have h1 : ∀ d ∈ chainGet ns k, 0 ≤ d.val := by
        by_cases hk : k ∈ ns.map (fun c => c.key)
        · obtain ⟨d, rest, e, hd, -, hsub, -, -⟩ := chainGet_shape r.keys hk
          rw [e]
          intro x hx
          rcases List.mem_cons.1 hx with rfl | hx
          · exact hns _ hd
          · exact hns _ (hsub.subset hx)
        · rw [chainGet_absent hk]
          exact hns
      obtain ⟨rs, s2, ns2, hr, r2, h2⟩ := ih r1 h1 hops'
      refine ⟨(Model.get (pairs ns) k).1 :: rs, s2, ns2, ?_, r2, h2⟩
      rw [run_get_cons, hg]
      simp only [hr]
    | put k v =>
      obtain ⟨s1, hg, r1, -⟩ := put_spec r k v
      have hv : 0 ≤ v := hops k v (List.mem_cons_self _ _)
      have h1 : ∀ d ∈ chainPut s.capacity_ s.brk_ ns k v, 0 ≤ d.val := by
        by_cases hz : s.capacity_ = 0
        · rw [hz, chainPut_zero]
          exact hns
        · obtain ⟨d, rest, e, -, hdv, hsub, -⟩ := chainPut_shape hz s.brk_ r.keys k v
          rw [e]
          intro x hx
          rcases List.mem_cons.1 hx with rfl | hx
          · rw [hdv]; exact hv
          · exact hns _ (hsub.subset hx)
      obtain ⟨rs, s2, ns2, hr, r2, h2⟩ := ih r1 h1 hops'
      refine ⟨rs, s2, ns2, ?_, r2, h2⟩
      rw [run_put_cons, hg]
      simp only [hr]

/-! ## The contract of the cache -/

theorem reachable_of_run {c : Nat} {ops : List Op} {rs : List Int} {s : LRUCache}
    (h : (LRUCache.new c).run ops = some (rs, s)) : Reachable s :=
  ⟨c, ops, rs, h⟩

theorem order_touch {s s' : LRUCache} {pre post : List Cell} {c c' : Cell}
    (r : Rep s (pre ++ c :: post)) (r' : Rep s' (c' :: (pre ++ post))) (hk : c'.key = c.key)
    (ha : c'.addr = c.addr) :
    (∃ a, find s'.cache_ c.key = some a ∧ s'.newest_ = some a) ∧
      s'.order.getLast? = some c.key ∧
      s'.order.filter (fun x => decide (x ≠ c.key)) =
        s.order.filter (fun x => decide (x ≠ c.key)) := by
  obtain ⟨-, -, h1, h2, -⟩ := nodup_mid_key r.keys
  have hf : ∀ l : List Cell, c.key ∉ l.map (fun c => c.key) →
      ((l.map (fun c => c.key)).reverse).filter (fun x => decide (x ≠ c.key)) =
        (l.map (fun c => c.key)).reverse := by
    intro l hl
    rw [List.filter_eq_self]
    intro x hx
    simp only [List.mem_reverse] at hx
    simp only [ne_eq, decide_not, Bool.not_eq_eq_eq_not, Bool.not_true, decide_eq_false_iff_not]
    intro e
    exact hl (e ▸ hx)
  refine ⟨⟨c.addr, ?_, ?_⟩, ?_, ?_⟩
  · have := @find_mid s' [] _ _ r'.toRepOld
    rwa [hk, ha] at this
  · rw [r'.newest, hd_cons, ha]
  · rw [order_spec r'.toRepOld]
    simp [hk]
  · rw [order_spec r'.toRepOld, order_spec r.toRepOld]
    simp only [List.map_cons, List.map_append, List.reverse_cons, List.reverse_append,
      List.filter_append, hk, List.append_assoc]
    rw [hf post h2, hf pre h1]
    simp

/-- C1: for every capacity and every sequence of `get`/`put` calls on a freshly
constructed cache, the run completes and the results of the `get` calls are exactly those of
the reference list model started on the empty list. -/
theorem lru_refines_list_model (c : Nat) (ops : List Op) :
    ((LRUCache.new c).run ops).map (fun p => p.1) = some (Model.run c [] ops) := by
  obtain ⟨s', ns', hr, -, -⟩ := run_spec (rep_new c) ops
  rw [hr]
  rfl

/-- C2: in a state reached by the calls `ops` on a fresh cache of capacity `c ≥ 1` that
holds exactly `c` keys, `put(k, v)` of a key that is not resident succeeds and removes
exactly one resident key `e`; every other resident key stays resident, and `e` is the
resident key whose last touch in `ops` is the earliest. -/
theorem put_evicts_least_recently_touched (c : Nat) (ops : List Op) (rs : List Int)
    (s : LRUCache) (k v : Int) (hr : (LRUCache.new c).run ops = some (rs, s)) (hc : 1 ≤ c)
    (hfull : s.keys.length = c) (hk : k ∉ s.keys) :
    ∃ s' e, s.put k v = some s' ∧ e ∈ s.keys ∧ e ∉ s'.keys ∧
      (∀ x ∈ s.keys, x ≠ e → x ∈ s'.keys) ∧
      0 < lastTouch (touchLog (LRUCache.new c) ops) e ∧
      ∀ x ∈ s.keys, x ≠ e →
        lastTouch (touchLog (LRUCache.new c) ops) e <
          lastTouch (touchLog (LRUCache.new c) ops) x := by
  obtain ⟨ns, r, p1, p2⟩ := touch_order hr
  have hcap : s.capacity_ = c := (run_rep hr).2
  have hlen : ns.length = c := by
    rw [← hfull, (keys_perm r.toRepOld).length_eq, List.length_map]
  have hne : ns ≠ [] := by
    intro e
    subst e
    simp at hlen
    omega
  obtain ⟨init, e, rfl⟩ : ∃ init e, ns = init ++ [e] :=
    ⟨ns.dropLast, ns.getLast hne, (List.dropLast_append_getLast hne).symm⟩
  have hk' : k ∉ (init ++ [e]).map (fun c => c.key) :=
    fun h => hk ((mem_keys_iff r.toRepOld k).2 h)
  obtain ⟨s', hp, r', -, -⟩ := put_absent_full v r hk' (by rw [hlen, hcap])
  obtain ⟨-, -, hdis⟩ := nodup_append_key r.keys
  have hek : e.key ∈ (init ++ [e]).map (fun c => c.key) := by simp
  have hmem' : ∀ x, x ∈ s'.keys ↔ x = k ∨ x ∈ init.map (fun c => c.key) := by
    intro x
    rw [mem_keys_iff r'.toRepOld]
    simp
  have hmem : ∀ x, x ∈ s.keys ↔ x ∈ init.map (fun c => c.key) ∨ x = e.key := by
    intro x
    rw [mem_keys_iff r.toRepOld]
    simp
  refine ⟨s', e.key, hp, (hmem _).2 (Or.inr rfl), ?_, ?_, p1 e (by simp), ?_⟩
  · rw [hmem']
    rintro (h | h)
    · exact hk' (h ▸ hek)
    · exact hdis _ h (by simp)
  · intro x hx hxe
    rw [hmem'] 
    rcases (hmem x).1 hx with h | h
    · exact Or.inr h
    · exact absurd h hxe
  · intro x hx hxe
    rcases (hmem x).1 hx with h | h
    · rw [List.map_append, List.pairwise_append] at p2
      exact p2.2.2 x h e.key (by simp)
    · exact absurd h hxe

/-- The hypotheses of C2 hold for `put(3, 3)` after `put(1,1); put(2,2); get(1)` on a
cache of capacity 2. -/
theorem put_evicts_least_recently_touched_witness :
    (LRUCache.new 2).run [Op.put 1 1, Op.put 2 2, Op.get 1] = some ([1], sampleFull) ∧
    1 ≤ 2 ∧ sampleFull.keys.length = 2 ∧ (3 : Int) ∉ sampleFull.keys ∧
    ∃ s' e, sampleFull.put 3 3 = some s' ∧ e ∈ sampleFull.keys ∧ e ∉ s'.keys ∧
      (∀ x ∈ sampleFull.keys, x ≠ e → x ∈ s'.keys) ∧
      0 < lastTouch (touchLog (LRUCache.new 2) [Op.put 1 1, Op.put 2 2, Op.get 1]) e ∧
      ∀ x ∈ sampleFull.keys, x ≠ e →
        lastTouch (touchLog (LRUCache.new 2) [Op.put 1 1, Op.put 2 2, Op.get 1]) e <
          lastTouch (touchLog (LRUCache.new 2) [Op.put 1 1, Op.put 2 2, Op.get 1]) x :=
  ⟨by decide, by decide, by decide, by decide,
    put_evicts_least_recently_touched 2 [Op.put 1 1, Op.put 2 2, Op.get 1] [1] sampleFull 3 3
      (by decide) (by decide) (by decide) (by decide)⟩

/-- C3: for every capacity and every sequence of calls on a fresh cache, the run completes
and the index then holds at most `capacity` keys (every prefix of a sequence is a sequence,
so this holds after each call). -/
theorem size_le_capacity (c : Nat) (ops : List Op) :
    ∃ rs s, (LRUCache.new c).run ops = some (rs, s) ∧ s.capacity_ = c ∧
      s.cache_.length ≤ c ∧ s.keys.length ≤ c := by
  obtain ⟨s', ns', hr, r, hc⟩ := run_spec (rep_new c) ops
  have hc' : s'.capacity_ = c := hc
  have hl : s'.cache_.length ≤ c := by
    rw [length_cache r.toRepOld, ← hc']
    exact r.size
  refine ⟨_, s', hr, hc', hl, ?_⟩
  simpa [LRUCache.keys] using hl

/-- C4: in a reachable state, `get(k)` and `put(k, v)` of a resident key `k` succeed, and
afterwards the newest marker points to the entry of `k`, `k` is the last key of the
eviction order, and the eviction order of the other keys is what it was before the call. -/
theorem touch_moves_to_newest (s : LRUCache) (k v : Int) (hs : Reachable s)
    (hk : k ∈ s.keys) :
    (∃ x s', s.get k = some (x, s') ∧
      (∃ a, find s'.cache_ k = some a ∧ s'.newest_ = some a) ∧
      s'.order.getLast? = some k ∧
      s'.order.filter (fun x => decide (x ≠ k)) = s.order.filter (fun x => decide (x ≠ k))) ∧
    (∃ s', s.put k v = some s' ∧
      (∃ a, find s'.cache_ k = some a ∧ s'.newest_ = some a) ∧
      s'.order.getLast? = some k ∧
      s'.order.filter (fun x => decide (x ≠ k)) = s.order.filter (fun x => decide (x ≠ k))) := by
  obtain ⟨ns, r⟩ := reachable_rep hs
  obtain ⟨pre, c, post, rfl, rfl⟩ := exists_mid ((mem_keys_iff r.toRepOld k).1 hk)
  have hcap : s.capacity_ ≠ 0 := by
    have := r.size
    simp only [List.length_append, List.length_cons] at this
    omega
  constructor
  · obtain ⟨s', hg, r', -, -⟩ := get_mid r
    exact ⟨c.val, s', hg, order_touch r r' rfl rfl⟩
  · obtain ⟨s', hp, r', -, -⟩ := put_mid hcap v r
    exact ⟨s', hp, order_touch r r' rfl rfl⟩

/-- The hypotheses of C4 hold for key 2, the oldest key of the sample state. -/
theorem touch_moves_to_newest_witness :
    Reachable sampleFull ∧ (2 : Int) ∈ sampleFull.keys ∧
    (∃ x s', sampleFull.get 2 = some (x, s') ∧
      (∃ a, find s'.cache_ 2 = some a ∧ s'.newest_ = some a) ∧
      s'.order.getLast? = some 2 ∧
      s'.order.filter (fun x => decide (x ≠ 2)) =
        sampleFull.order.filter (fun x => decide (x ≠ 2))) ∧
    (∃ s', sampleFull.put 2 7 = some s' ∧
      (∃ a, find s'.cache_ 2 = some a ∧ s'.newest_ = some a) ∧
      s'.order.getLast? = some 2 ∧
      s'.order.filter (fun x => decide (x ≠ 2)) =
        sampleFull.order.filter (fun x => decide (x ≠ 2))) :=
  ⟨⟨2, [Op.put 1 1, Op.put 2 2, Op.get 1], [1], by decide⟩, by decide,
    touch_moves_to_newest sampleFull 2 7
      ⟨2, [Op.put 1 1, Op.put 2 2, Op.get 1], [1], by decide⟩ (by decide)⟩

/-- C5: in a reachable state of a cache with capacity at least 1, `put(k, v)` succeeds and
a `get(k)` issued right after it returns `v`, whether `k` was resident or not. -/
theorem get_after_put (s : LRUCache) (k v : Int) (hs : Reachable s)
    (hc : 1 ≤ s.capacity_) :
    ∃ s1 s2, s.put k v = some s1 ∧ s1.get k = some (v, s2) := by
  obtain ⟨ns, r⟩ := reachable_rep hs
  obtain ⟨s1, hp, r1, -⟩ := put_spec r k v
  obtain ⟨c, rest, e, hck, hcv, -, -⟩ :=
    chainPut_shape (by omega : s.capacity_ ≠ 0) s.brk_ r.keys k v
  rw [e] at r1
  obtain ⟨s2, hg, -, -, -⟩ := @get_mid s1 [] rest c r1
  rw [hck, hcv] at hg
  exact ⟨s1, s2, hp, hg⟩

/-- The hypotheses of C5 hold in the sample state, for an overwrite of key 2. -/
theorem get_after_put_witness :
    Reachable sampleFull ∧ 1 ≤ sampleFull.capacity_ ∧
    ∃ s1 s2, sampleFull.put 2 9 = some s1 ∧ s1.get 2 = some (9, s2) :=
  ⟨⟨2, [Op.put 1 1, Op.put 2 2, Op.get 1], [1], by decide⟩, by decide,
    get_after_put sampleFull 2 9
      ⟨2, [Op.put 1 1, Op.put 2 2, Op.get 1], [1], by decide⟩ (by decide)⟩

/-- C6: in every state (reachable or not), `get(k)` of a key that is not in the index
returns `-1` and leaves the whole state as it was. -/
theorem get_absent_is_noop (s : LRUCache) (k : Int) (hk : k ∉ s.keys) :
    s.get k = some (-1, s) := by
  have : find s.cache_ k = none := find_eq_none.2 hk
  simp [LRUCache.get, this]

/-- The hypothesis of C6 holds for key 5 in the sample state. -/
theorem get_absent_is_noop_witness :
    (5 : Int) ∉ sampleFull.keys ∧ sampleFull.get 5 = some (-1, sampleFull) :=
  ⟨by decide, get_absent_is_noop sampleFull 5 (by decide)⟩

/-- C7: in a reachable state, `put(k, v)` of a resident key succeeds and leaves the
resident keys unchanged: the keys of the index afterwards are the same keys with the same
multiplicities, and the index has as many entries as before. -/
theorem put_resident_keeps_keys (s : LRUCache) (k v : Int) (hs : Reachable s)
    (hk : k ∈ s.keys) :
    ∃ s', s.put k v = some s' ∧ s'.keys.Perm s.keys ∧
      s'.cache_.length = s.cache_.length ∧ ∀ x, x ∈ s'.keys ↔ x ∈ s.keys := by
  obtain ⟨ns, r⟩ := reachable_rep hs
  obtain ⟨pre, c, post, rfl, rfl⟩ := exists_mid ((mem_keys_iff r.toRepOld k).1 hk)
  have hcap : s.capacity_ ≠ 0 := by
    have := r.size
    simp only [List.length_append, List.length_cons] at this
    omega
  obtain ⟨s', hp, r', -, -⟩ := put_mid hcap v r
  have hperm : s'.keys.Perm s.keys := by
    refine (keys_perm r'.toRepOld).trans (List.Perm.trans ?_ (keys_perm r.toRepOld).symm)
    simp only [List.map_cons, List.map_append]
    exact List.perm_middle.symm
  refine ⟨s', hp, hperm, ?_, fun x => hperm.mem_iff⟩
  have := hperm.length_eq
  simpa [LRUCache.keys] using this

/-- The hypotheses of C7 hold for key 2 in the sample state, which is full. -/
theorem put_resident_keeps_keys_witness :
    Reachable sampleFull ∧ (2 : Int) ∈ sampleFull.keys ∧
    ∃ s', sampleFull.put 2 9 = some s' ∧ s'.keys.Perm sampleFull.keys ∧
      s'.cache_.length = sampleFull.cache_.length ∧ ∀ x, x ∈ s'.keys ↔ x ∈ sampleFull.keys :=
  ⟨⟨2, [Op.put 1 1, Op.put 2 2, Op.get 1], [1], by decide⟩, by decide,
    put_resident_keeps_keys sampleFull 2 9
      ⟨2, [Op.put 1 1, Op.put 2 2, Op.get 1], [1], by decide⟩ (by decide)⟩

/-- C8: on a cache constructed with capacity 0, every sequence of calls runs to completion
and ends in the state it started in, the empty cache; every `get` of the sequence returns
`-1`; in that state every `put` leaves the state unchanged and every `get` returns `-1`. -/
theorem capacity_zero_retains_nothing (ops : List Op) :
    (∃ rs, (LRUCache.new 0).run ops = some (rs, LRUCache.new 0) ∧ ∀ x ∈ rs, x = -1) ∧
    (∀ k v, (LRUCache.new 0).put k v = some (LRUCache.new 0)) ∧
    (∀ k, (LRUCache.new 0).get k = some (-1, LRUCache.new 0)) := by
  have hput : ∀ k v, (LRUCache.new 0).put k v = some (LRUCache.new 0) :=
    fun k v => put_zero rfl k v
  have hget : ∀ k, (LRUCache.new 0).get k = some (-1, LRUCache.new 0) := fun k => rfl
  refine ⟨?_, hput, hget⟩
  induction ops with
  | nil => exact ⟨[], rfl, by simp⟩
  | cons op ops ih =>
    obtain ⟨rs, hr, hall⟩ := ih
    cases op with
    | get k =>
      refine ⟨-1 :: rs, ?_, ?_⟩
      · rw [run_get_cons, hget]
        simp only [hr]
      · intro x hx
        rcases List.mem_cons.1 hx with rfl | hx
        · rfl
        · exact hall x hx
    | put k v =>
      refine ⟨rs, ?_, hall⟩
      rw [run_put_cons, hput]
      simp only [hr]

/-- C9: in a state reached by any sequence of calls on a cache constructed with capacity 1,
`put(k, v)` succeeds and afterwards the index holds exactly one entry, with key `k`, value
`v` and both links null; the newest and the oldest marker both point to it; and `get` of
any other key (the previous occupant included) returns `-1`. -/
theorem capacity_one_holds_last_put (ops : List Op) (rs : List Int) (s : LRUCache)
    (k v : Int) (hr : (LRUCache.new 1).run ops = some (rs, s)) :
    ∃ s' a, s.put k v = some s' ∧
      s'.cache_ = [{ addr := a, first := k,
                     second := { prev_ := none, next_ := none, key_ := k, value_ := v } }] ∧
      s'.newest_ = some a ∧ s'.oldest_ = some a ∧
      ∀ k', k' ≠ k → s'.get k' = some (-1, s') := by
  obtain ⟨⟨ns, r⟩, hcap⟩ := run_rep hr
  obtain ⟨s', hp, r', hcap'⟩ := put_spec r k v
  obtain ⟨c, rest, e, hck, hcv, -, -⟩ :=
    chainPut_shape (by omega : s.capacity_ ≠ 0) s.brk_ r.keys k v
  rw [e] at r'
  have hrest : rest = [] := by
    have := r'.size
    rw [hcap', hcap, List.length_cons] at this
    exact List.length_eq_zero.1 (by omega)
  subst hrest
  have hcache : s'.cache_ = [c.node none none] := by
    have := r'.heap
    simpa using this
  refine ⟨s', c.addr, hp, ?_, r'.newest, r'.oldest, ?_⟩
  · rw [hcache, ← hck, ← hcv]
    rfl
  · intro k' hk'
    apply get_absent r'.toRepOld
    simp only [List.map_cons, List.map_nil, List.mem_singleton, hck]
    exact hk'

/-- The hypothesis of C9 holds for `put(2, 5)` after `put(1, 1)` on a cache of capacity 1. -/
theorem capacity_one_holds_last_put_witness :
    (LRUCache.new 1).run [Op.put 1 1] = some ([], sampleOne) ∧
    ∃ s' a, sampleOne.put 2 5 = some s' ∧
      s'.cache_ = [{ addr := a, first := 2,
                     second := { prev_ := none, next_ := none, key_ := 2, value_ := 5 } }] ∧
      s'.newest_ = some a ∧ s'.oldest_ = some a ∧
      ∀ k', k' ≠ 2 → s'.get k' = some (-1, s') :=
  ⟨by decide, capacity_one_holds_last_put [Op.put 1 1] [] sampleOne 2 5 (by decide)⟩

/-- C10: after any sequence of calls on a fresh cache in which every value passed to `put`
is non-negative, `get(k)` succeeds, returns `-1` exactly when `k` is not resident, and
returns the value stored for `k` when `k` is resident. -/
theorem get_sentinel_iff_absent (c : Nat) (ops : List Op) (k : Int)
    (hops : ∀ k' v, Op.put k' v ∈ ops → 0 ≤ v) :
    ∃ rs s x s', (LRUCache.new c).run ops = some (rs, s) ∧ s.get k = some (x, s') ∧
      (x = -1 ↔ k ∉ s.keys) ∧ (k ∈ s.keys → s.lookup k = some x) := by
  obtain ⟨rs, s, ns, hr, r, hnn⟩ := run_nonneg (rep_new c) (by simp) ops hops
  by_cases hk : k ∈ ns.map (fun c => c.key)
  · obtain ⟨pre, d, post, rfl, rfl⟩ := exists_mid hk
    obtain ⟨s', hg, -, -, -⟩ := get_mid r
    have hres : d.key ∈ s.keys := (mem_keys_iff r.toRepOld _).2 hk
    refine ⟨rs, s, d.val, s', hr, hg, ?_, fun _ => lookup_mid r.toRepOld⟩
    have := hnn d (by simp)
    constructor
    · intro e
      omega
    · intro h
      exact absurd hres h
  · have hres : k ∉ s.keys := fun h => hk ((mem_keys_iff r.toRepOld _).1 h)
    exact ⟨rs, s, -1, s, hr, get_absent r.toRepOld hk, ⟨fun _ => hres, fun _ => rfl⟩,
      fun h => absurd h hres⟩

/-- The hypothesis of C10 holds for the calls `put(1, 5); put(2, 0)`. -/
theorem get_sentinel_iff_absent_witness :
    (∀ k' v, Op.put k' v ∈ [Op.put 1 5, Op.put 2 0] → 0 ≤ v) ∧
    ∃ rs s x s', (LRUCache.new 2).run [Op.put 1 5, Op.put 2 0] = some (rs, s) ∧
      s.get 2 = some (x, s') ∧ (x = -1 ↔ (2 : Int) ∉ s.keys) ∧
      ((2 : Int) ∈ s.keys → s.lookup 2 = some x) :=
  ⟨by
      intro k' v h
      simp only [List.mem_cons, Op.put.injEq, List.mem_singleton, List.not_mem_nil,
        or_false] at h
      omega,
    get_sentinel_iff_absent 2 [Op.put 1 5, Op.put 2 0] 2 (by
      intro k' v h
      simp only [List.mem_cons, Op.put.injEq, List.mem_singleton, List.not_mem_nil,
        or_false] at h
      omega)⟩

/-! ## The links of a reachable state -/

theorem follow_succ_some (link : Entry → Option Nat) (h : List Node) (fuel a : Nat) :
    follow link h (fuel + 1) (some a) =
      match deref h a with
      | some e => (a, e) :: follow link h fuel (link e)
      | none => [] := rfl

theorem follow_next_chain {h : List Node} {xs ys : List Cell}
    (hp : h.Perm (seg none (xs ++ ys) none))
    (nd : ((xs ++ ys).map (fun c => c.addr)).Nodup) :
    follow (fun e => e.next_) h xs.length (lastA xs none) =
      ((seg none xs (hd ys none)).map (fun n => (n.addr, n.second))).reverse := by
  induction xs using List.reverseRecOn generalizing ys with
  | nil => rfl
  | append_singleton xs c ih =>
    have e : xs ++ [c] ++ ys = xs ++ c :: ys := by simp
    rw [e] at hp nd
    have hd : deref h c.addr = some (c.node (hd ys none) (lastA xs none)).second := by
      have nd2 : ((seg none (xs ++ c :: ys) none).map (fun n => n.addr)).Nodup := by
        rw [map_addr_seg]; exact nd
      exact deref_perm hp nd2 (n := c.node (hd ys none) (lastA xs none))
        (by rw [seg_mid]; simp)
    have hl : lastA (xs ++ [c]) none = some c.addr := by
      rw [lastA_append]; rfl
    rw [List.length_append, List.length_singleton, hl, follow_succ_some, hd, seg_append]
    simp only [node_second, seg_cons, seg_nil, hd_nil, hd_cons, List.map_append,
      List.map_cons, List.map_nil, List.reverse_append, List.reverse_cons, List.reverse_nil,
      List.nil_append, List.singleton_append, node_addr, List.cons.injEq, true_and]
    exact ih hp nd

theorem follow_prev_chain {h : List Node} {xs ys : List Cell}
    (hp : h.Perm (seg none (xs ++ ys) none))
    (nd : ((xs ++ ys).map (fun c => c.addr)).Nodup) :
    follow (fun e => e.prev_) h ys.length (hd ys none) =
      (seg (lastA xs none) ys none).map (fun n => (n.addr, n.second)) := by
  induction ys generalizing xs with
  | nil => rfl
  | cons c ys ih =>
    have hd : deref h c.addr = some (c.node (hd ys none) (lastA xs none)).second := by
      have nd2 : ((seg none (xs ++ c :: ys) none).map (fun n => n.addr)).Nodup := by
        rw [map_addr_seg]; exact nd
      exact deref_perm hp nd2 (n := c.node (hd ys none) (lastA xs none))
        (by rw [seg_mid]; simp)
    have e : xs ++ c :: ys = (xs ++ [c]) ++ ys := by simp
    rw [e] at hp nd
    have hl : lastA (xs ++ [c]) none = some c.addr := by
      rw [lastA_append]; rfl
    rw [List.length_cons, hd_cons, follow_succ_some, hd]
    simp only [node_second, seg_cons, List.map_cons, node_addr, List.cons.injEq, true_and]
    rw [← hl]
    exact ih hp nd

theorem forward_spec {s : LRUCache} {ns : List Cell} (r : RepOld s ns) :
    s.forward = ((seg none ns none).map (fun n => (n.addr, n.second))).reverse := by
  unfold LRUCache.forward
  rw [length_cache r, r.oldest]
  exact @follow_next_chain s.cache_ ns [] (by simpa using r.heap) (by simpa using r.addrs)

theorem backward_spec {s : LRUCache} {ns : List Cell} (r : Rep s ns) :
    s.backward = (seg none ns none).map (fun n => (n.addr, n.second)) := by
  unfold LRUCache.backward
  rw [length_cache r.toRepOld, r.newest]
  exact @follow_prev_chain s.cache_ [] ns (by simpa using r.heap) (by simpa using r.addrs)

/-- In a stretch of the chain every `prev_` is the outer link `pv` or an address of the
stretch. -/
theorem prev_mem_seg {nx pv : Option Nat} {ns : List Cell} {n : Node} {x : Nat}
    (hn : n ∈ seg nx ns pv) (hx : n.second.prev_ = some x) :
    pv = some x ∨ x ∈ ns.map (fun c => c.addr) := by
  induction ns generalizing nx with
  | nil => simp at hn
  | cons c ns ih =>
    rw [seg_cons, List.mem_cons] at hn
    rcases hn with rfl | hn
    · simp only [node_second] at hx
      cases ns with
      | nil => exact Or.inl hx
      | cons d ns =>
        simp only [hd_cons, Option.some.injEq] at hx
        exact Or.inr (by simp [hx])
    · rcases ih hn with h | h
      · exact Or.inl h
      · exact Or.inr (by simp [h])

/-- In a stretch of the chain every `next_` is the outer link `nx` or an address of the
stretch. -/
theorem next_mem_seg {nx pv : Option Nat} {ns : List Cell} {n : Node} {x : Nat}
    (hn : n ∈ seg nx ns pv) (hx : n.second.next_ = some x) :
    nx = some x ∨ x ∈ ns.map (fun c => c.addr) := by
  induction ns generalizing nx with
  | nil => simp at hn
  | cons c ns ih =>
    rw [seg_cons, List.mem_cons] at hn
    rcases hn with rfl | hn
    · simp only [node_second] at hx
      exact Or.inl hx
    · rcases ih hn with h | h
      · simp only [Option.some.injEq] at h
        exact Or.inr (by simp [h])
      · exact Or.inr (by simp [h])

theorem addr_mem_of_mem_seg {nx pv : Option Nat} {ns : List Cell} {n : Node}
    (hn : n ∈ seg nx ns pv) : n.addr ∈ ns.map (fun c => c.addr) := by
  rw [← map_addr_seg nx ns pv]
  exact List.mem_map_of_mem (fun n => n.addr) hn

/-- In a stretch of the chain whose outer links point outside it, `next_` and `prev_` are
converse to each other. -/
theorem link_sym_seg {nx pv : Option Nat} {ns : List Cell}
    (nd : (ns.map (fun c => c.addr)).Nodup)
    (hnx : ∀ x, nx = some x → x ∉ ns.map (fun c => c.addr))
    (hpv : ∀ x, pv = some x → x ∉ ns.map (fun c => c.addr))
    {n m : Node} (hn : n ∈ seg nx ns pv) (hm : m ∈ seg nx ns pv) :
    n.second.next_ = some m.addr ↔ m.second.prev_ = some n.addr := by
  induction ns generalizing nx with
  | nil => simp at hn
  | cons c ns ih =>
    simp only [List.map_cons, List.nodup_cons] at nd
    have hpv' : ∀ x, pv = some x → x ∉ ns.map (fun c => c.addr) := by
      intro x hx hmem
      exact hpv x hx (by simp [hmem])
    have hpvc : pv ≠ some c.addr := fun e => hpv _ e (by simp)
    have hnx' : ∀ x, some c.addr = some x → x ∉ ns.map (fun c => c.addr) := by
      intro x hx
      simp only [Option.some.injEq] at hx
      exact hx ▸ nd.1
    rw [seg_cons, List.mem_cons] at hn hm
    rcases hn with rfl | hn <;> rcases hm with rfl | hm
    · simp only [node_second, node_addr]
      constructor
      · intro e
        exact absurd (by simp) (hnx _ e)
      · intro e
        cases ns with
        | nil => exact absurd e hpvc
        | cons d ns =>
          simp only [hd_cons, Option.some.injEq] at e
          exact absurd (by simp [e]) nd.1
    · simp only [node_second, node_addr]
      constructor
      · intro e
        have := addr_mem_of_mem_seg hm
        exact absurd (by simp [this]) (hnx _ e)
      · intro e
        rcases prev_mem_seg hm e with h | h
        · exact absurd h hpvc
        · exact absurd h nd.1
    · simp only [node_second, node_addr]
      cases ns with
      | nil => simp at hn
      | cons d ns =>
        simp only [List.map_cons, List.nodup_cons] at nd
        rw [seg_cons, List.mem_cons] at hn
        rcases hn with rfl | hn
        · simp
        · constructor
          · intro e
            rcases next_mem_seg hn e with h | h
            · simp only [Option.some.injEq] at h
              exact absurd (by simp [h]) nd.1
            · exact absurd (by simp [h]) nd.1
          · intro e
            simp only [hd_cons, Option.some.injEq] at e
            have := addr_mem_of_mem_seg hn
            rw [← e] at this
            exact absurd this nd.2.1
    · exact ih nd.2 hnx' hpv' hn hm

theorem mem_of_deref {h : List Node} {a : Nat} {e : Entry} (hd : deref h a = some e) :
    ∃ n ∈ h, n.addr = a ∧ n.second = e := by
  simp only [deref, Option.map_eq_some'] at hd
  obtain ⟨n, hn, rfl⟩ := hd
  exact ⟨n, List.mem_of_find?_eq_some hn, by simpa using List.find?_some hn, rfl⟩

theorem deref_isSome_of_mem {s : LRUCache} {ns : List Cell} (r : RepOld s ns) {a : Nat}
    (ha : a ∈ ns.map (fun c => c.addr)) : ∃ e, deref s.cache_ a = some e := by
  obtain ⟨c, hc, rfl⟩ := List.mem_map.1 ha
  obtain ⟨pre, post, rfl⟩ := List.append_of_mem hc
  exact ⟨_, deref_mid r⟩

theorem head?_seg {nx pv : Option Nat} {ns : List Cell} {n : Node}
    (h : (seg nx ns pv).head? = some n) : n.second.next_ = nx ∧ some n.addr = hd ns none := by
  cases ns with
  | nil => simp at h
  | cons c ns =>
    simp only [seg_cons, List.head?_cons, Option.some.injEq] at h
    subst h
    exact ⟨rfl, rfl⟩

theorem getLast?_seg {nx pv : Option Nat} {ns : List Cell} {n : Node}
    (h : (seg nx ns pv).getLast? = some n) :
    n.second.prev_ = pv ∧ some n.addr = lastA ns none := by
  induction ns generalizing nx with
  | nil => simp at h
  | cons c ns ih =>
    cases ns with
    | nil =>
      simp only [seg_cons, seg_nil, List.getLast?_singleton, Option.some.injEq] at h
      subst h
      exact ⟨rfl, rfl⟩
    | cons d ns =>
      rw [seg_cons, seg_cons, List.getLast?_cons_cons, ← seg_cons] at h
      exact ih h

theorem head?_map_addr (ns : List Cell) : (ns.map (fun c => c.addr)).head? = hd ns none := by
  cases ns <;> rfl

theorem getLast?_map_addr (ns : List Cell) :
    (ns.map (fun c => c.addr)).getLast? = lastA ns none := by
  induction ns with
  | nil => rfl
  | cons c ns ih =>
    cases ns with
    | nil => rfl
    | cons d ns =>
      rw [List.map_cons, List.map_cons, List.getLast?_cons_cons, ← List.map_cons, ih]
      rfl

theorem map_fst_pairs (l : List Node) :
    (l.map (fun n => (n.addr, n.second))).map (fun p => p.1) = l.map (fun n => n.addr) := by
  simp [List.map_map, Function.comp_def]

theorem map_key_pairs (nx pv : Option Nat) (ns : List Cell) :
    ((seg nx ns pv).map (fun n => (n.addr, n.second))).map (fun p => p.2.key_) =
      ns.map (fun c => c.key) := by
  induction ns generalizing nx with
  | nil => rfl
  | cons c ns ih =>
    simp only [seg_cons, List.map_cons, node_second, List.cons.injEq, true_and]
    exact ih _

/-- C11: in a reachable state no call fails: `get` and `put` return; when `put` of a new
key enters `evict_oldest` the marker `oldest_` is not null (its assertion holds), the
eviction returns, and the key is not in the index when `insert_newest` runs (its assertion
holds); every pointer that is read or written through addresses a node of the map, since
a dangling one makes the model return `none`. -/
theorem no_operation_fails (s : LRUCache) (k v : Int) (hs : Reachable s) :
    (∃ x s', s.get k = some (x, s')) ∧ (∃ s', s.put k v = some s') ∧
    (s.capacity_ ≠ 0 → k ∉ s.keys → s.cache_.length + 1 > s.capacity_ →
      s.oldest_ ≠ none ∧
      ∃ s1, s.evict_oldest = some s1 ∧ find s1.cache_ k = none ∧
        ∃ s2, s1.insert_newest k v = some s2) ∧
    (s.capacity_ ≠ 0 → k ∉ s.keys → ¬ s.cache_.length + 1 > s.capacity_ →
      find s.cache_ k = none ∧ ∃ s2, s.insert_newest k v = some s2) := by
  obtain ⟨ns, r⟩ := reachable_rep hs
  obtain ⟨s1, hg, -, -, -⟩ := get_spec r k
  obtain ⟨s2, hp, -, -⟩ := put_spec r k v
  refine ⟨⟨_, s1, hg⟩, ⟨s2, hp⟩, ?_, ?_⟩
  · intro hcap hk hfull
    have hfind : find s.cache_ k = none := find_eq_none.2 hk
    have hlen : ns.length = s.capacity_ := by
      have h1 := r.size
      rw [length_cache r.toRepOld] at hfull
      omega
    have hne : ns ≠ [] := by
      intro e
      subst e
      exact hcap hlen.symm
    obtain ⟨init, c, rfl⟩ : ∃ init c, ns = init ++ [c] :=
      ⟨ns.dropLast, ns.getLast hne, (List.dropLast_append_getLast hne).symm⟩
    obtain ⟨h2, he, hp2⟩ := evict_oldest_spec r.toRepOld
    have hold : s.oldest_ ≠ none := by
      rw [r.oldest, lastA_append]
      simp
    refine ⟨hold, _, he, ?_, s2, ?_⟩
    · rw [find_eq_none, (hp2.map _).mem_iff, map_first_seg]
      intro hm
      apply hk
      rw [mem_keys_iff r.toRepOld, List.map_append]
      exact List.mem_append_left _ hm
    · simpa [LRUCache.put, hcap, hfind, hfull, he] using hp
  · intro hcap hk hroom
    have hfind : find s.cache_ k = none := find_eq_none.2 hk
    refine ⟨hfind, s2, ?_⟩
    simpa [LRUCache.put, hcap, hfind, hroom] using hp

/-- The hypothesis of C11 holds in the sample state, where `put(3, 3)` has to evict. -/
theorem no_operation_fails_witness :
    Reachable sampleFull ∧
    (∃ x s', sampleFull.get 3 = some (x, s')) ∧ (∃ s', sampleFull.put 3 3 = some s') ∧
    (sampleFull.capacity_ ≠ 0 → (3 : Int) ∉ sampleFull.keys →
      sampleFull.cache_.length + 1 > sampleFull.capacity_ →
      sampleFull.oldest_ ≠ none ∧
      ∃ s1, sampleFull.evict_oldest = some s1 ∧ find s1.cache_ 3 = none ∧
        ∃ s2, s1.insert_newest 3 3 = some s2) ∧
    (sampleFull.capacity_ ≠ 0 → (3 : Int) ∉ sampleFull.keys →
      ¬ sampleFull.cache_.length + 1 > sampleFull.capacity_ →
      find sampleFull.cache_ 3 = none ∧ ∃ s2, sampleFull.insert_newest 3 3 = some s2) :=
  ⟨⟨2, [Op.put 1 1, Op.put 2 2, Op.get 1], [1], by decide⟩,
    no_operation_fails sampleFull 3 3
      ⟨2, [Op.put 1 1, Op.put 2 2, Op.get 1], [1], by decide⟩⟩

/-- C19: in a reachable state the keys of the index are exactly the keys of the entries met
from `oldest_` along `next_`, and exactly those met from `newest_` along `prev_`; every node
of the index is met on both walks; and every non-null `prev_` or `next_` of a node of the
index is the address of a node of the index. -/
theorem index_equals_chain (s : LRUCache) (hs : Reachable s) :
    (∀ k, k ∈ s.keys ↔ k ∈ s.forward.map (fun p => p.2.key_)) ∧
    (∀ k, k ∈ s.keys ↔ k ∈ s.backward.map (fun p => p.2.key_)) ∧
    (∀ n ∈ s.cache_, (n.addr, n.second) ∈ s.forward ∧ (n.addr, n.second) ∈ s.backward) ∧
    (∀ n ∈ s.cache_, ∀ p, n.second.prev_ = some p ∨ n.second.next_ = some p →
      ∃ m ∈ s.cache_, m.addr = p) := by
  obtain ⟨ns, r⟩ := reachable_rep hs
  have hf := forward_spec r.toRepOld
  have hb := backward_spec r
  refine ⟨?_, ?_, ?_, ?_⟩
  · intro k
    rw [mem_keys_iff r.toRepOld, hf, List.map_reverse, map_key_pairs, List.mem_reverse]
  · intro k
    rw [mem_keys_iff r.toRepOld, hb, map_key_pairs]
  · intro n hn
    have hn' : n ∈ seg none ns none := r.heap.mem_iff.1 hn
    have : (n.addr, n.second) ∈ (seg none ns none).map (fun n => (n.addr, n.second)) :=
      List.mem_map_of_mem (fun n => (n.addr, n.second)) hn'
    rw [hf, hb, List.mem_reverse]
    exact ⟨this, this⟩
  · intro n hn p hp
    have hn' : n ∈ seg none ns none := r.heap.mem_iff.1 hn
    have hmem : p ∈ ns.map (fun c => c.addr) := by
      rcases hp with hp | hp
      · rcases prev_mem_seg hn' hp with h | h
        · simp at h
        · exact h
      · rcases next_mem_seg hn' hp with h | h
        · simp at h
        · exact h
    obtain ⟨e, he⟩ := deref_isSome_of_mem r.toRepOld hmem
    obtain ⟨m, hm, hma, -⟩ := mem_of_deref he
    exact ⟨m, hm, hma⟩

/-- The hypothesis of C19 holds in the sample state. -/
theorem index_equals_chain_witness :
    Reachable sampleFull ∧
    (∀ k, k ∈ sampleFull.keys ↔ k ∈ sampleFull.forward.map (fun p => p.2.key_)) ∧
    (∀ k, k ∈ sampleFull.keys ↔ k ∈ sampleFull.backward.map (fun p => p.2.key_)) ∧
    (∀ n ∈ sampleFull.cache_,
      (n.addr, n.second) ∈ sampleFull.forward ∧ (n.addr, n.second) ∈ sampleFull.backward) ∧
    (∀ n ∈ sampleFull.cache_, ∀ p, n.second.prev_ = some p ∨ n.second.next_ = some p →
      ∃ m ∈ sampleFull.cache_, m.addr = p) :=
  ⟨⟨2, [Op.put 1 1, Op.put 2 2, Op.get 1], [1], by decide⟩,
    index_equals_chain sampleFull ⟨2, [Op.put 1 1, Op.put 2 2, Op.get 1], [1], by decide⟩⟩

/-- C20: in a reachable state the walk from `oldest_` along `next_` meets every node of the
index exactly once, starts at the oldest entry and ends at the newest one; the oldest
entry has a null `prev_` and the newest a null `next_`; and for resident entries at
addresses `a` and `b`, the `next_` of `a` is `b` exactly when the `prev_` of `b` is `a`. -/
theorem links_form_one_chain (s : LRUCache) (hs : Reachable s) :
    (s.forward.map (fun p => p.1)).Perm (s.cache_.map (fun n => n.addr)) ∧
    (s.forward.map (fun p => p.1)).Nodup ∧
    (s.forward.map (fun p => p.1)).head? = s.oldest_ ∧
    (s.forward.map (fun p => p.1)).getLast? = s.newest_ ∧
    (∀ a e, s.forward.head? = some (a, e) → e.prev_ = none) ∧
    (∀ a e, s.forward.getLast? = some (a, e) → e.next_ = none) ∧
    (∀ a b ea eb, deref s.cache_ a = some ea → deref s.cache_ b = some eb →
      (ea.next_ = some b ↔ eb.prev_ = some a)) := by
  obtain ⟨ns, r⟩ := reachable_rep hs
  have hf := forward_spec r.toRepOld
  have hfa : s.forward.map (fun p => p.1) = (ns.map (fun c => c.addr)).reverse := by
    rw [hf, List.map_reverse, map_fst_pairs, map_addr_seg]
  refine ⟨?_, ?_, ?_, ?_, ?_, ?_, ?_⟩
  · rw [hfa]
    have := r.heap.map (fun n => n.addr)
    rw [map_addr_seg] at this
    exact (List.reverse_perm _).trans this.symm
  · rw [hfa, List.nodup_reverse]
    exact r.addrs
  · rw [hfa, List.head?_reverse, getLast?_map_addr, r.oldest]
  · rw [hfa, List.getLast?_reverse, head?_map_addr, r.newest]
  · intro a e h
    rw [hf, List.head?_reverse, List.getLast?_map] at h
    simp only [Option.map_eq_some', Prod.mk.injEq] at h
    obtain ⟨n, hn, -, rfl⟩ := h
    exact (getLast?_seg hn).1
  · intro a e h
    rw [hf, List.getLast?_reverse, List.head?_map] at h
    simp only [Option.map_eq_some', Prod.mk.injEq] at h
    obtain ⟨n, hn, -, rfl⟩ := h
    exact (head?_seg hn).1
  · intro a b ea eb ha hb
    obtain ⟨n, hn, rfl, rfl⟩ := mem_of_deref ha
    obtain ⟨m, hm, rfl, rfl⟩ := mem_of_deref hb
    exact link_sym_seg r.addrs (by simp) (by simp) (r.heap.mem_iff.1 hn) (r.heap.mem_iff.1 hm)

/-- The hypothesis of C20 holds in the sample state. -/
theorem links_form_one_chain_witness :
    Reachable sampleFull ∧
    (sampleFull.forward.map (fun p => p.1)).Perm (sampleFull.cache_.map (fun n => n.addr)) ∧
    (sampleFull.forward.map (fun p => p.1)).Nodup ∧
    (sampleFull.forward.map (fun p => p.1)).head? = sampleFull.oldest_ ∧
    (sampleFull.forward.map (fun p => p.1)).getLast? = sampleFull.newest_ ∧
    (∀ a e, sampleFull.forward.head? = some (a, e) → e.prev_ = none) ∧
    (∀ a e, sampleFull.forward.getLast? = some (a, e) → e.next_ = none) ∧
    (∀ a b ea eb, deref sampleFull.cache_ a = some ea → deref sampleFull.cache_ b = some eb →
      (ea.next_ = some b ↔ eb.prev_ = some a)) :=
  ⟨⟨2, [Op.put 1 1, Op.put 2 2, Op.get 1], [1], by decide⟩,
    links_form_one_chain sampleFull
      ⟨2, [Op.put 1 1, Op.put 2 2, Op.get 1], [1], by decide⟩⟩

/-! ## Markers, frame of `put`, and `get` against `put` -/

theorem deref_none_of_not_mem {s : LRUCache} {ns : List Cell} (r : RepOld s ns) {a : Nat}
    (ha : a ∉ ns.map (fun c => c.addr)) : deref s.cache_ a = none := by
  cases h : deref s.cache_ a with
  | none => rfl
  | some e =>
    obtain ⟨n, hn, hna, -⟩ := mem_of_deref h
    rw [r.heap.mem_iff] at hn
    exact absurd (hna ▸ addr_mem_of_mem_seg hn) ha

theorem lookup_none_of_not_mem {s : LRUCache} {ns : List Cell} (r : RepOld s ns) {k : Int}
    (hk : k ∉ ns.map (fun c => c.key)) : s.lookup k = none := by
  have h := find_absent r hk
  simp only [find, Option.map_eq_none'] at h
  simp only [LRUCache.lookup, h, Option.map_none']

theorem split_of_addr {ns : List Cell} {a : Nat} (ha : a ∈ ns.map (fun c => c.addr)) :
    ∃ pre d post, ns = pre ++ d :: post ∧ d.addr = a := by
  obtain ⟨c, hc, rfl⟩ := List.mem_map.1 ha
  obtain ⟨pre, post, rfl⟩ := List.append_of_mem hc
  exact ⟨pre, c, post, rfl, rfl⟩

theorem length_keys {s : LRUCache} {ns : List Cell} (r : RepOld s ns) :
    s.keys.length = ns.length := by
  rw [← length_cache r]
  simp [LRUCache.keys]

theorem markers_of_rep {s : LRUCache} {ns : List Cell} (r : Rep s ns) :
    (s.keys = [] → s.newest_ = none ∧ s.oldest_ = none) ∧
    (s.keys ≠ [] → ∃ a b ea eb, s.newest_ = some a ∧ s.oldest_ = some b ∧
      deref s.cache_ a = some ea ∧ deref s.cache_ b = some eb ∧
      find s.cache_ ea.key_ = some a ∧ find s.cache_ eb.key_ = some b ∧
      (a = b ↔ s.keys.length = 1)) := by
  have hlen := length_keys r.toRepOld
  cases ns with
  | nil =>
    constructor
    · intro _
      exact ⟨r.newest, r.oldest⟩
    · intro h
      exact absurd (List.length_eq_zero.1 (by simpa using hlen)) h
  | cons c rest =>
    constructor
    · intro h
      rw [h] at hlen
      simp at hlen
    · intro _
      obtain ⟨b, hb⟩ := lastA_some rest c.addr
      have hold : s.oldest_ = some b := by rw [r.oldest]; exact hb
      have hbm : b ∈ (c :: rest).map (fun c => c.addr) := lastA_mem_none (r.oldest ▸ hold)
      obtain ⟨pre, d, post, e, hd⟩ := split_of_addr hbm
      have r0 : RepOld s ([] ++ c :: rest) := r.toRepOld
      have rd : RepOld s (pre ++ d :: post) := e ▸ r.toRepOld
      refine ⟨c.addr, b, _, _, r.newest, hold, deref_mid r0, hd ▸ deref_mid rd, ?_, ?_, ?_⟩
      · exact find_mid r0
      · have := find_mid rd
        rw [hd] at this
        exact this
      · rw [hlen]
        cases rest with
        | nil =>
          simp only [lastA, Option.some.injEq] at hb
          simp [hb]
        | cons c2 rest2 =>
          have h1 : lastA (c2 :: rest2) (some c.addr) = lastA (c2 :: rest2) none :=
            lastA_of_ne_nil (by simp) _ _
          rw [h1] at hb
          have hm := lastA_mem_none hb
          have nd := r.addrs
          rw [List.map_cons, List.nodup_cons] at nd
          constructor
          · intro e
            rw [← e] at hm
            exact absurd hm nd.1
          · intro e
            simp at e

theorem rep_value_change {s1 s2 : LRUCache} {c : Cell} {l : List Cell} (v : Int)
    (r1 : Rep s1 (c :: l)) (r2 : Rep s2 ({ c with val := v } :: l)) :
    (∀ y, y ∈ s2.keys ↔ y ∈ s1.keys) ∧
    s2.newest_ = s1.newest_ ∧ s2.oldest_ = s1.oldest_ ∧
    (∀ a, (deref s2.cache_ a).map (fun e => (e.prev_, e.next_, e.key_)) =
      (deref s1.cache_ a).map (fun e => (e.prev_, e.next_, e.key_))) ∧
    (∀ y, y ≠ c.key → s2.lookup y = s1.lookup y) ∧
    s1.lookup c.key = some c.val ∧ s2.lookup c.key = some v := by
  refine ⟨?_, ?_, ?_, ?_, ?_, ?_, ?_⟩
  · intro y
    rw [mem_keys_iff r2.toRepOld, mem_keys_iff r1.toRepOld]
    rfl
  · rw [r1.newest, r2.newest]; rfl
  · rw [r1.oldest, r2.oldest]; rfl
  · intro a
    by_cases ha : a ∈ (c :: l).map (fun c => c.addr)
    · obtain ⟨pre, d, post, e, hd⟩ := split_of_addr ha
      cases pre with
      | nil =>
        simp only [List.nil_append, List.cons.injEq] at e
        obtain ⟨rfl, rfl⟩ := e
        have h1 : RepOld s1 ([] ++ c :: l) := r1.toRepOld
        have h2 : RepOld s2 ([] ++ { c with val := v } :: l) := r2.toRepOld
        have d1 := deref_mid h1
        have d2 := deref_mid h2
        rw [hd] at d1
        have hd2 : ({ c with val := v } : Cell).addr = a := hd
        rw [hd2] at d2
        rw [d1, d2]
        rfl
      | cons p pre2 =>
        simp only [List.cons_append, List.cons.injEq] at e
        obtain ⟨rfl, rfl⟩ := e
        have h1 : RepOld s1 ((c :: pre2) ++ d :: post) := r1.toRepOld
        have h2 : RepOld s2 (({ c with val := v } :: pre2) ++ d :: post) := r2.toRepOld
        have d1 := deref_mid h1
        have d2 := deref_mid h2
        rw [hd] at d1 d2
        rw [d1, d2]
        rfl
    · have ha2 : a ∉ ({ c with val := v } :: l).map (fun c => c.addr) := ha
      rw [deref_none_of_not_mem r1.toRepOld ha, deref_none_of_not_mem r2.toRepOld ha2]
  · intro y hy
    by_cases hm : y ∈ l.map (fun c => c.key)
    · obtain ⟨pre, d, post, rfl, rfl⟩ := exists_mid hm
      have h1 : RepOld s1 ((c :: pre) ++ d :: post) := r1.toRepOld
      have h2 : RepOld s2 (({ c with val := v } :: pre) ++ d :: post) := r2.toRepOld
      rw [lookup_mid h1, lookup_mid h2]
    · have n1 : y ∉ (c :: l).map (fun c => c.key) := by
        rw [List.map_cons, List.mem_cons]
        rintro (h | h)
        · exact hy h
        · exact hm h
      have n2 : y ∉ ({ c with val := v } :: l).map (fun c => c.key) := n1
      rw [lookup_none_of_not_mem r1.toRepOld n1, lookup_none_of_not_mem r2.toRepOld n2]
  · have h1 : RepOld s1 ([] ++ c :: l) := r1.toRepOld
    exact lookup_mid h1
  · have h2 : RepOld s2 ([] ++ { c with val := v } :: l) := r2.toRepOld
    exact lookup_mid h2

/-- C21: after a `get` or a `put` on a reachable state (the call returns), if no key is
resident both `newest_` and `oldest_` are null; if a key is resident both point to entries
of the index, each stored under its own key, and they point to the same entry exactly when
one key is resident. -/
theorem markers_after_operation (s : LRUCache) (op : Op) (hs : Reachable s) :
    ∃ rs s', s.run [op] = some (rs, s') ∧
      (s'.keys = [] → s'.newest_ = none ∧ s'.oldest_ = none) ∧
      (s'.keys ≠ [] → ∃ a b ea eb, s'.newest_ = some a ∧ s'.oldest_ = some b ∧
        deref s'.cache_ a = some ea ∧ deref s'.cache_ b = some eb ∧
        find s'.cache_ ea.key_ = some a ∧ find s'.cache_ eb.key_ = some b ∧
        (a = b ↔ s'.keys.length = 1)) := by
  obtain ⟨ns, r⟩ := reachable_rep hs
  cases op with
  | get k =>
    obtain ⟨s1, hg, r1, -, -⟩ := get_spec r k
    refine ⟨[(Model.get (pairs ns) k).1], s1, ?_, markers_of_rep r1⟩
    simp [LRUCache.run, hg]
  | put k v =>
    obtain ⟨s1, hp, r1, -⟩ := put_spec r k v
    refine ⟨[], s1, ?_, markers_of_rep r1⟩
    simp [LRUCache.run, hp]

/-- The hypothesis of C21 holds in the sample state; `put(3, 3)` evicts there and leaves two
resident keys, so the two markers differ. -/
theorem markers_after_operation_witness :
    Reachable sampleFull ∧
    ∃ rs s', sampleFull.run [Op.put 3 3] = some (rs, s') ∧
      (s'.keys = [] → s'.newest_ = none ∧ s'.oldest_ = none) ∧
      (s'.keys ≠ [] → ∃ a b ea eb, s'.newest_ = some a ∧ s'.oldest_ = some b ∧
        deref s'.cache_ a = some ea ∧ deref s'.cache_ b = some eb ∧
        find s'.cache_ ea.key_ = some a ∧ find s'.cache_ eb.key_ = some b ∧
        (a = b ↔ s'.keys.length = 1)) :=
  ⟨⟨2, [Op.put 1 1, Op.put 2 2, Op.get 1], [1], by decide⟩,
    markers_after_operation sampleFull (Op.put 3 3)
      ⟨2, [Op.put 1 1, Op.put 2 2, Op.get 1], [1], by decide⟩⟩

/-- C22: on a reachable state `put(k, v)` returns; at most one resident key is no longer
resident afterwards, and none unless `k` is new and the number of resident keys equals the
capacity; when `k` is new and the number is below the capacity, every resident key stays
resident with its value, `k` is resident with value `v`, and the number grows by one. -/
theorem put_removes_at_most_one (s : LRUCache) (k v : Int) (hs : Reachable s) :
    ∃ s', s.put k v = some s' ∧
      (s.keys.filter (fun x => decide (x ∉ s'.keys))).length ≤ 1 ∧
      (¬ (k ∉ s.keys ∧ s.keys.length = s.capacity_) → ∀ x ∈ s.keys, x ∈ s'.keys) ∧
      (k ∉ s.keys → s.keys.length < s.capacity_ →
        (∀ x ∈ s.keys, x ∈ s'.keys ∧ s'.lookup x = s.lookup x) ∧
        k ∈ s'.keys ∧ s'.lookup k = some v ∧ s'.keys.length = s.keys.length + 1) := by
  obtain ⟨ns, r⟩ := reachable_rep hs
  have hlen := length_keys r.toRepOld
  have hsize := r.size
  by_cases hcap : s.capacity_ = 0
  · refine ⟨s, put_zero hcap k v, ?_, fun _ x hx => hx, ?_⟩
    · rw [List.filter_eq_nil_iff.2 (by simp)]
      simp
    · intro _ h
      omega
  by_cases hk : k ∈ s.keys
  · have hk2 := (mem_keys_iff r.toRepOld k).1 hk
    obtain ⟨pre, c, post, rfl, rfl⟩ := exists_mid hk2
    obtain ⟨s1, hp, r1, -, -⟩ := put_mid hcap v r
    have hall : ∀ x ∈ s.keys, x ∈ s1.keys := by
      intro x hx
      rw [mem_keys_iff r.toRepOld] at hx
      rw [mem_keys_iff r1.toRepOld]
      simp only [List.map_append, List.map_cons, List.mem_append, List.mem_cons] at hx ⊢
      tauto
    refine ⟨s1, hp, ?_, fun _ => hall, fun h => absurd hk h⟩
    rw [List.filter_eq_nil_iff.2 (by simpa using hall)]
    simp
  have hk2 : k ∉ ns.map (fun c => c.key) := fun h => hk ((mem_keys_iff r.toRepOld k).2 h)
  by_cases hroom : ns.length < s.capacity_
  · obtain ⟨s1, hp, r1, -, -⟩ := put_absent_room v r hk2 hroom
    have hall : ∀ x ∈ s.keys, x ∈ s1.keys := by
      intro x hx
      rw [mem_keys_iff r.toRepOld] at hx
      rw [mem_keys_iff r1.toRepOld]
      exact List.mem_cons_of_mem _ hx
    refine ⟨s1, hp, ?_, fun _ => hall, ?_⟩
    · rw [List.filter_eq_nil_iff.2 (by simpa using hall)]
      simp
    · intro _ _
      refine ⟨?_, ?_, ?_, ?_⟩
      · intro x hx
        refine ⟨hall x hx, ?_⟩
        obtain ⟨pre, d, post, rfl, rfl⟩ := exists_mid ((mem_keys_iff r.toRepOld x).1 hx)
        have h1 : RepOld s1 (({ addr := s.brk_, key := k, val := v } :: pre) ++ d :: post) :=
          r1.toRepOld
        rw [lookup_mid h1, lookup_mid r.toRepOld]
      · rw [mem_keys_iff r1.toRepOld]
        exact List.mem_cons_self _ _
      · have h1 : RepOld s1 ([] ++ { addr := s.brk_, key := k, val := v } :: ns) := r1.toRepOld
        exact lookup_mid h1
      · rw [length_keys r1.toRepOld, hlen]
        rfl
  · have hfull : ns.length = s.capacity_ := by omega
    have hne : ns ≠ [] := by
      intro e
      subst e
      exact hcap hfull.symm
    obtain ⟨init, c, rfl⟩ : ∃ init c, ns = init ++ [c] :=
      ⟨ns.dropLast, ns.getLast hne, (List.dropLast_append_getLast hne).symm⟩
    obtain ⟨s1, hp, r1, -, -⟩ := put_absent_full v r hk2 hfull
    refine ⟨s1, hp, ?_, ?_, ?_⟩
    · have hperm := (keys_perm r.toRepOld).filter (fun x => decide (x ∉ s1.keys))
      rw [hperm.length_eq, List.map_append, List.filter_append]
      have hinit : (init.map (fun c => c.key)).filter (fun x => decide (x ∉ s1.keys)) = [] := by
        rw [List.filter_eq_nil_iff]
        intro x hx
        have : x ∈ s1.keys := by
          rw [mem_keys_iff r1.toRepOld]
          exact List.mem_cons_of_mem _ hx
        simpa using this
      rw [hinit, List.nil_append]
      exact (List.length_filter_le _ _).trans (by simp)
    · intro h
      exact absurd ⟨hk, by rw [hlen]; exact hfull⟩ h
    · intro _ h
      omega

/-- The hypothesis of C22 holds in the sample state with one resident key and room for a
second one. -/
theorem put_removes_at_most_one_witness :
    Reachable sampleRoom ∧
    ∃ s', sampleRoom.put 2 7 = some s' ∧
      (sampleRoom.keys.filter (fun x => decide (x ∉ s'.keys))).length ≤ 1 ∧
      (¬ ((2 : Int) ∉ sampleRoom.keys ∧ sampleRoom.keys.length = sampleRoom.capacity_) →
        ∀ x ∈ sampleRoom.keys, x ∈ s'.keys) ∧
      ((2 : Int) ∉ sampleRoom.keys → sampleRoom.keys.length < sampleRoom.capacity_ →
        (∀ x ∈ sampleRoom.keys, x ∈ s'.keys ∧ s'.lookup x = sampleRoom.lookup x) ∧
        (2 : Int) ∈ s'.keys ∧ s'.lookup 2 = some 7 ∧
        s'.keys.length = sampleRoom.keys.length + 1) :=
  ⟨⟨2, [Op.put 1 1], [], by decide⟩,
    put_removes_at_most_one sampleRoom 2 7 ⟨2, [Op.put 1 1], [], by decide⟩⟩

/-- C23: on a reachable state with `k` resident, `get(k)` and `put(k, v)` both return, and
the two states afterwards have the same resident keys, the same markers `newest_` and
`oldest_`, at every address the same links `prev_`, `next_` and the same key, and the same
value for every key other than `k`; the value of `k` is the old one after `get` and `v`
after `put`. -/
theorem get_and_put_differ_in_value_only (s : LRUCache) (k v : Int) (hs : Reachable s)
    (hk : k ∈ s.keys) :
    ∃ x s1 s2, s.get k = some (x, s1) ∧ s.put k v = some s2 ∧
      (∀ y, y ∈ s2.keys ↔ y ∈ s1.keys) ∧
      s2.newest_ = s1.newest_ ∧ s2.oldest_ = s1.oldest_ ∧
      (∀ a, (deref s2.cache_ a).map (fun e => (e.prev_, e.next_, e.key_)) =
        (deref s1.cache_ a).map (fun e => (e.prev_, e.next_, e.key_))) ∧
      (∀ y, y ≠ k → s2.lookup y = s1.lookup y) ∧
      s1.lookup k = some x ∧ s2.lookup k = some v := by
  obtain ⟨ns, r⟩ := reachable_rep hs
  obtain ⟨pre, c, post, rfl, rfl⟩ := exists_mid ((mem_keys_iff r.toRepOld k).1 hk)
  have hcap : s.capacity_ ≠ 0 := by
    have := r.size
    simp only [List.length_append, List.length_cons] at this
    omega
  obtain ⟨s1, hg, r1, -, -⟩ := get_mid r
  obtain ⟨s2, hp, r2, -, -⟩ := put_mid hcap v r
  exact ⟨c.val, s1, s2, hg, hp, rep_value_change v r1 r2⟩

/-- The hypotheses of C23 hold in the sample state for the key 2, which is the oldest entry
there, so both calls relink. -/
theorem get_and_put_differ_in_value_only_witness :
    Reachable sampleFull ∧ (2 : Int) ∈ sampleFull.keys ∧
    ∃ x s1 s2, sampleFull.get 2 = some (x, s1) ∧ sampleFull.put 2 9 = some s2 ∧
      (∀ y, y ∈ s2.keys ↔ y ∈ s1.keys) ∧
      s2.newest_ = s1.newest_ ∧ s2.oldest_ = s1.oldest_ ∧
      (∀ a, (deref s2.cache_ a).map (fun e => (e.prev_, e.next_, e.key_)) =
        (deref s1.cache_ a).map (fun e => (e.prev_, e.next_, e.key_))) ∧
      (∀ y, y ≠ 2 → s2.lookup y = s1.lookup y) ∧
      s1.lookup 2 = some x ∧ s2.lookup 2 = some 9 :=
  ⟨⟨2, [Op.put 1 1, Op.put 2 2, Op.get 1], [1], by decide⟩, by decide,
    get_and_put_differ_in_value_only sampleFull 2 9
      ⟨2, [Op.put 1 1, Op.put 2 2, Op.get 1], [1], by decide⟩ (by decide)⟩

/-! ## The direction of the links -/

theorem recency_split {T : Int → Nat} {pre post : List Cell} {d : Cell}
    (h : ((pre ++ d :: post).map (fun c => c.key)).Pairwise (fun a b => T b < T a)) :
    (∀ x ∈ pre, T d.key < T x.key) ∧ (∀ y ∈ post, T y.key < T d.key) ∧
      pre.Pairwise (fun x y => T y.key < T x.key) ∧
      post.Pairwise (fun x y => T y.key < T x.key) := by
  rw [List.pairwise_map, List.pairwise_append, List.pairwise_cons] at h
  obtain ⟨h1, ⟨h2, h3⟩, h4⟩ := h
  exact ⟨fun x hx => h4 x hx d (List.mem_cons_self _ _), h2, h1, h3⟩

theorem key_cases {s : LRUCache} {pre post : List Cell} {d : Cell}
    (r : RepOld s (pre ++ d :: post)) {y : Int} (hy : y ∈ s.keys) :
    (∃ x ∈ pre, x.key = y) ∨ y = d.key ∨ ∃ x ∈ post, x.key = y := by
  rw [mem_keys_iff r] at hy
  simp only [List.map_append, List.map_cons, List.mem_append, List.mem_cons, List.mem_map] at hy
  rcases hy with h | h | h
  · exact Or.inl h
  · exact Or.inr (Or.inl h)
  · exact Or.inr (Or.inr h)

/-- C24 (as stated, refuted): in the state reached by `put(1,1); put(2,2); get(1)` on a
cache of capacity 2, key 1 is more recently used than key 2; the `prev_` of the entry of
key 1 (at address 0) is the address 1 of the entry of key 2, a less recently used entry,
and the `next_` of the entry of key 2 is the address 0 of the entry of key 1, a more
recently used one. -/
theorem links_run_from_oldest_to_newest :
    (LRUCache.new 2).run [Op.put 1 1, Op.put 2 2, Op.get 1] = some ([1], sampleFull) ∧
    deref sampleFull.cache_ 0 =
      some { prev_ := some 1, next_ := none, key_ := 1, value_ := 1 } ∧
    deref sampleFull.cache_ 1 =
      some { prev_ := none, next_ := some 0, key_ := 2, value_ := 2 } ∧
    lastUse 2 [Op.put 1 1, Op.put 2 2, Op.get 1] 2 <
      lastUse 2 [Op.put 1 1, Op.put 2 2, Op.get 1] 1 := by
  decide

/-- C24 (amended): in the state reached by the calls `ops` on a fresh cache, a non-null
`prev_` of a resident entry points to the resident entry that is immediately less recently
used (no resident key was last used in between), and an entry whose `prev_` is null is the
least recently used one; a non-null `next_` points to the resident entry that is
immediately more recently used, and an entry whose `next_` is null is the most recently
used one. -/
theorem links_follow_recency (c : Nat) (ops : List Op) (rs : List Int) (s : LRUCache)
    (hr : (LRUCache.new c).run ops = some (rs, s)) (a : Nat) (ea : Entry)
    (ha : deref s.cache_ a = some ea) :
    (∀ b, ea.prev_ = some b → ∃ eb, deref s.cache_ b = some eb ∧
      lastUse c ops eb.key_ < lastUse c ops ea.key_ ∧
      ∀ y ∈ s.keys, ¬ (lastUse c ops eb.key_ < lastUse c ops y ∧
        lastUse c ops y < lastUse c ops ea.key_)) ∧
    (ea.prev_ = none → ∀ y ∈ s.keys, lastUse c ops ea.key_ ≤ lastUse c ops y) ∧
    (∀ b, ea.next_ = some b → ∃ eb, deref s.cache_ b = some eb ∧
      lastUse c ops ea.key_ < lastUse c ops eb.key_ ∧
      ∀ y ∈ s.keys, ¬ (lastUse c ops ea.key_ < lastUse c ops y ∧
        lastUse c ops y < lastUse c ops eb.key_)) ∧
    (ea.next_ = none → ∀ y ∈ s.keys, lastUse c ops y ≤ lastUse c ops ea.key_) := by
  obtain ⟨ns, r, -, hpw⟩ := touch_order hr
  change ((ns.map (fun c => c.key)).Pairwise
    (fun x y => lastUse c ops y < lastUse c ops x)) at hpw
  obtain ⟨n, hn, hna, hne⟩ := mem_of_deref ha
  rw [r.heap.mem_iff] at hn
  obtain ⟨pre, d, post, rfl, hda⟩ := split_of_addr (addr_mem_of_mem_seg hn)
  have hde := deref_mid r.toRepOld
  rw [hda, hna, ha, Option.some.injEq] at hde
  subst hde
  obtain ⟨hpre, hpost, hpp, hqq⟩ := recency_split hpw
  simp only [node_second]
  refine ⟨?_, ?_, ?_, ?_⟩
  · intro b hb
    cases post with
    | nil => simp [hd] at hb
    | cons d2 post2 =>
      simp only [hd, Option.some.injEq] at hb
      have r2 : RepOld s ((pre ++ [d]) ++ d2 :: post2) := by
        simpa using r.toRepOld
      have hd2 := deref_mid r2
      rw [hb] at hd2
      refine ⟨_, hd2, ?_, ?_⟩
      · simp only [node_second]
        exact hpost d2 (List.mem_cons_self _ _)
      · intro y hy
        simp only [node_second]
        rw [List.pairwise_cons] at hqq
        rcases key_cases r.toRepOld hy with ⟨x, hx, rfl⟩ | rfl | ⟨x, hx, rfl⟩
        · have := hpre x hx
          omega
        · omega
        · rcases List.mem_cons.1 hx with rfl | hx2
          · omega
          · have := hqq.1 x hx2
            omega
  · intro hnone y hy
    cases post with
    | nil =>
      rcases key_cases r.toRepOld hy with ⟨x, hx, rfl⟩ | rfl | ⟨x, hx, rfl⟩
      · exact (hpre x hx).le
      · exact le_refl _
      · simp at hx
    | cons d2 post2 => simp [hd] at hnone
  · intro b hb
    rcases List.eq_nil_or_concat pre with rfl | ⟨pre2, d0, rfl⟩
    · simp [lastA] at hb
    · rw [List.concat_eq_append, lastA_append] at hb
      simp only [lastA, Option.some.injEq] at hb
      have r2 : RepOld s (pre2 ++ d0 :: (d :: post)) := by
        simpa using r.toRepOld
      have hd2 := deref_mid r2
      rw [hb] at hd2
      refine ⟨_, hd2, ?_, ?_⟩
      · simp only [node_second]
        exact hpre d0 (by simp)
      · intro y hy
        simp only [node_second]
        rw [List.concat_eq_append, List.pairwise_append] at hpp
        rcases key_cases r.toRepOld hy with ⟨x, hx, rfl⟩ | rfl | ⟨x, hx, rfl⟩
        · rw [List.concat_eq_append, List.mem_append] at hx
          rcases hx with hx | hx
          · have := hpp.2.2 x hx d0 (by simp)
            omega
          · simp only [List.mem_singleton] at hx
            subst hx
            omega
        · omega
        · have := hpost x hx
          omega
  · intro hnone y hy
    rcases List.eq_nil_or_concat pre with rfl | ⟨pre2, d0, rfl⟩
    · rcases key_cases r.toRepOld hy with ⟨x, hx, rfl⟩ | rfl | ⟨x, hx, rfl⟩
      · simp at hx
      · exact le_refl _
      · exact (hpost x hx).le
    · rw [List.concat_eq_append, lastA_append] at hnone
      simp [lastA] at hnone

/-- The hypotheses of C24 (amended) hold for the oldest entry of the sample state, at
address 1: its `prev_` is null and its `next_` is the address of the entry of key 1. -/
theorem links_follow_recency_witness :
    (LRUCache.new 2).run [Op.put 1 1, Op.put 2 2, Op.get 1] = some ([1], sampleFull) ∧
    deref sampleFull.cache_ 1 =
      some { prev_ := none, next_ := some 0, key_ := 2, value_ := 2 } ∧
    ((∀ b, (none : Option Nat) = some b → ∃ eb, deref sampleFull.cache_ b = some eb ∧
      lastUse 2 [Op.put 1 1, Op.put 2 2, Op.get 1] eb.key_ <
        lastUse 2 [Op.put 1 1, Op.put 2 2, Op.get 1] 2 ∧
      ∀ y ∈ sampleFull.keys, ¬ (lastUse 2 [Op.put 1 1, Op.put 2 2, Op.get 1] eb.key_ <
          lastUse 2 [Op.put 1 1, Op.put 2 2, Op.get 1] y ∧
        lastUse 2 [Op.put 1 1, Op.put 2 2, Op.get 1] y <
          lastUse 2 [Op.put 1 1, Op.put 2 2, Op.get 1] 2)) ∧
    ((none : Option Nat) = none → ∀ y ∈ sampleFull.keys,
      lastUse 2 [Op.put 1 1, Op.put 2 2, Op.get 1] 2 ≤
        lastUse 2 [Op.put 1 1, Op.put 2 2, Op.get 1] y) ∧
    (∀ b, some 0 = some b → ∃ eb, deref sampleFull.cache_ b = some eb ∧
      lastUse 2 [Op.put 1 1, Op.put 2 2, Op.get 1] 2 <
        lastUse 2 [Op.put 1 1, Op.put 2 2, Op.get 1] eb.key_ ∧
      ∀ y ∈ sampleFull.keys, ¬ (lastUse 2 [Op.put 1 1, Op.put 2 2, Op.get 1] 2 <
          lastUse 2 [Op.put 1 1, Op.put 2 2, Op.get 1] y ∧
        lastUse 2 [Op.put 1 1, Op.put 2 2, Op.get 1] y <
          lastUse 2 [Op.put 1 1, Op.put 2 2, Op.get 1] eb.key_)) ∧
    ((some 0 : Option Nat) = none → ∀ y ∈ sampleFull.keys,
      lastUse 2 [Op.put 1 1, Op.put 2 2, Op.get 1] y ≤
        lastUse 2 [Op.put 1 1, Op.put 2 2, Op.get 1] 2)) :=
  ⟨by decide, by decide,
    links_follow_recency 2 [Op.put 1 1, Op.put 2 2, Op.get 1] [1] sampleFull (by decide) 1
      { prev_ := none, next_ := some 0, key_ := 2, value_ := 2 } (by decide)⟩

end LRU

namespace Wildcard

/-! ## Wildcard matching: the semantics -/

theorem matches_nil_right (i : List Char) : Matches i [] ↔ i = [] := by
  constructor
  · intro h; cases h; rfl
  · rintro rfl; exact Matches.nil

theorem matches_star (i p : List Char) :
    Matches i ('*' :: p) ↔ ∃ s rest, i = s ++ rest ∧ Matches rest p := by
  constructor
  · intro h
    cases h with
    | star s rest p h => exact ⟨s, rest, rfl, h⟩
    | char c i p h1 _ _ => exact absurd rfl h1
  · rintro ⟨s, rest, rfl, h⟩; exact Matches.star s rest p h

theorem matches_question (i p : List Char) :
    Matches i ('?' :: p) ↔ ∃ c rest, i = c :: rest ∧ Matches rest p := by
  constructor
  · intro h
    cases h with
    | question c i p h => exact ⟨c, i, rfl, h⟩
    | char c i p _ h2 _ => exact absurd rfl h2
  · rintro ⟨c, rest, rfl, h⟩; exact Matches.question c rest p h

theorem matches_char (x : Char) (hx1 : x ≠ '*') (hx2 : x ≠ '?') (i p : List Char) :
    Matches i (x :: p) ↔ ∃ rest, i = x :: rest ∧ Matches rest p := by
  constructor
  · intro h
    cases h with
    | star s rest p h => exact absurd rfl hx1
    | question c i p h => exact absurd rfl hx2
    | char c i p _ _ h => exact ⟨i, rfl, h⟩
  · rintro ⟨rest, rfl, h⟩; exact Matches.char x rest p hx1 hx2 h

theorem matches_star_step (i p : List Char) :
    Matches i ('*' :: p) ↔
      Matches i p ∨ ∃ c rest, i = c :: rest ∧ Matches rest ('*' :: p) := by
  rw [matches_star]
  constructor
  · rintro ⟨s, rest, rfl, h⟩
    cases s with
    | nil => exact Or.inl h
    | cons c s => exact Or.inr ⟨c, s ++ rest, rfl, Matches.star s rest p h⟩
  · rintro (h | ⟨c, rest, rfl, h⟩)
    · exact ⟨[], i, rfl, h⟩
    · rw [matches_star] at h
      obtain ⟨s, r, rfl, h⟩ := h
      exact ⟨c :: s, r, rfl, h⟩

theorem matches_congr (x : Char) (q q' : List Char)
    (h : ∀ i, Matches i q ↔ Matches i q') (i : List Char) :
    Matches i (x :: q) ↔ Matches i (x :: q') := by
  by_cases hx1 : x = '*'
  · subst hx1
    rw [matches_star, matches_star]
    simp only [h]
  · by_cases hx2 : x = '?'
    · subst hx2
      rw [matches_question, matches_question]
      simp only [h]
    · rw [matches_char x hx1 hx2, matches_char x hx1 hx2]
      simp only [h]

theorem matches_star_star (i p : List Char) :
    Matches i ('*' :: '*' :: p) ↔ Matches i ('*' :: p) := by
  constructor
  · intro h
    rw [matches_star] at h
    obtain ⟨s, rest, rfl, h⟩ := h
    rw [matches_star] at h
    obtain ⟨s2, r, rfl, h⟩ := h
    rw [← List.append_assoc]
    exact Matches.star (s ++ s2) r p h
  · intro h
    exact Matches.star [] i _ h

theorem nonStar_nil : nonStar [] = 0 := rfl

theorem nonStar_star (p : List Char) : nonStar ('*' :: p) = nonStar p := by
  simp [nonStar, List.countP_cons]

theorem nonStar_other (x : Char) (hx : x ≠ '*') (p : List Char) :
    nonStar (x :: p) = nonStar p + 1 := by
  have := List.countP_le_length (fun c => decide (c = '*')) (l := p)
  simp [nonStar, List.countP_cons, hx]
  omega

theorem matches_length (i p : List Char) (h : Matches i p) : nonStar p ≤ i.length := by
  induction h with
  | nil => simp [nonStar_nil]
  | star s rest p _ ih => rw [nonStar_star]; simp; omega
  | question c i p _ ih => rw [nonStar_other _ (by decide)]; simp; omega
  | char c i p h1 _ _ ih => rw [nonStar_other _ h1]; simp; omega

/-- A pattern without two `'*'` in a row. -/
theorem matches_nil_left (p : List Char) (hp : p ≠ [])
    (hc : p.Chain' (fun a b => ¬ (a = '*' ∧ b = '*'))) (hn : nonStar p = 0) :
    p = ['*'] ∧ Matches [] p := by
  cases p with
  | nil => exact absurd rfl hp
  | cons x q =>
    by_cases hx : x = '*'
    · subst hx
      cases q with
      | nil => exact ⟨rfl, Matches.star [] [] [] Matches.nil⟩
      | cons y r =>
        rw [nonStar_star] at hn
        by_cases hy : y = '*'
        · subst hy
          rw [List.chain'_cons] at hc
          exact absurd ⟨rfl, rfl⟩ hc.1
        · rw [nonStar_other _ hy] at hn
          omega
    · rw [nonStar_other _ hx] at hn
      omega

/-! ## Wildcard matching: `coalescePatternWildcards` -/

theorem coalesceLoop_spec (k : Nat) :
    ∀ (w g r : List Char) (last : Char), r.length = k →
      (coalesced last r).length ≤ g.length + r.length →
      ∃ buf, coalesceLoop k (w ++ g ++ r) (w.length + g.length) w.length last =
          some (buf, w.length + (coalesced last r).length) ∧
        buf.take (w.length + (coalesced last r).length) = w ++ coalesced last r := by
  induction k with
  | zero =>
    intro w g r last hr _
    have : r = [] := List.length_eq_zero.mp hr
    subst this
    refine ⟨w ++ g ++ [], rfl, ?_⟩
    simp [coalesced]
  | succ k ih =>
    intro w g r last hr hlen
    cases r with
    | nil => simp at hr
    | cons c cs =>
      have hk : cs.length = k := by simpa using hr
      have hget : (w ++ g ++ c :: cs)[w.length + g.length]? = some c := by
        rw [← List.length_append, List.getElem?_append_right (le_refl _)]
        simp
      by_cases hcond : c ≠ '*' ∨ last ≠ '*'
      · have hco : coalesced last (c :: cs) = c :: coalesced c cs := by
          simp only [coalesced, if_pos hcond]
        rw [hco] at hlen ⊢
        simp only [coalesceLoop, hget, if_pos hcond]
        have hout : w.length < (w ++ g ++ c :: cs).length := by simp
        rw [if_pos hout]
        cases g with
        | nil =>
          have hset : (w ++ [] ++ c :: cs).set w.length c = (w ++ [c]) ++ [] ++ cs := by
            simp
          rw [hset]
          have := ih (w ++ [c]) [] cs c hk (by simp at hlen ⊢; omega)
          simp only [List.length_append, List.length_singleton, List.length_nil,
            List.length_cons, Nat.add_zero, List.append_assoc, List.singleton_append,
            List.nil_append, List.append_nil] at this ⊢
          obtain ⟨buf, h1, h2⟩ := this
          refine ⟨buf, ?_, ?_⟩
          · rw [h1]; congr 2; omega
          · rw [show w.length + ((coalesced c cs).length + 1) =
              w.length + 1 + (coalesced c cs).length by omega]
            exact h2
        | cons y g =>
          have hset : (w ++ y :: g ++ c :: cs).set w.length c =
              (w ++ [c]) ++ (g ++ [c]) ++ cs := by
            simp
          rw [hset]
          have := ih (w ++ [c]) (g ++ [c]) cs c hk (by simp at hlen ⊢; omega)
          simp only [List.length_append, List.length_singleton, List.length_nil,
            List.length_cons, Nat.add_zero, List.append_assoc, List.singleton_append,
            List.nil_append, List.append_nil] at this ⊢
          obtain ⟨buf, h1, h2⟩ := this
          refine ⟨buf, ?_, ?_⟩
          · rw [show w.length + (g.length + 1) + 1 = w.length + 1 + (g.length + 1) by omega,
              h1]
            congr 2; omega
          · rw [show w.length + ((coalesced c cs).length + 1) =
              w.length + 1 + (coalesced c cs).length by omega]
            exact h2
      · have hco : coalesced last (c :: cs) = coalesced c cs := by
          simp only [coalesced, if_neg hcond]
        rw [hco] at hlen ⊢
        simp only [coalesceLoop, hget, if_neg hcond]
        have := ih w (g ++ [c]) cs c hk (by simp at hlen ⊢; omega)
        simp only [List.length_append, List.length_singleton, List.append_assoc,
          List.singleton_append] at this
        rw [show w.length + g.length + 1 = w.length + (g.length + 1) by omega,
          List.append_assoc]
        exact this

theorem coalesced_length (r : List Char) : ∀ last, (coalesced last r).length ≤ r.length := by
  induction r with
  | nil => intro last; simp [coalesced]
  | cons c cs ih =>
    intro last
    simp only [coalesced]
    split
    · simp; exact ih c
    · have := ih c; simp; omega

theorem coalescePatternWildcards_spec (pattern : List Char) :
    coalescePatternWildcards pattern = some (coalesced (Char.ofNat 0) pattern) := by
  have := coalesceLoop_spec pattern.length [] [] pattern (Char.ofNat 0) rfl
    (by simpa using coalesced_length pattern _)
  obtain ⟨buf, h1, h2⟩ := this
  simp only [List.nil_append, List.length_nil, Nat.zero_add] at h1 h2
  simp only [coalescePatternWildcards, h1, h2]

theorem coalesced_matches (p : List Char) :
    ∀ last,
      (last ≠ '*' → ∀ i, Matches i (coalesced last p) ↔ Matches i p) ∧
      (last = '*' → ∀ i, Matches i ('*' :: coalesced last p) ↔ Matches i ('*' :: p)) := by
  induction p with
  | nil => intro last; simp [coalesced]
  | cons c cs ih =>
    intro last
    by_cases hc : c = '*'
    · subst hc
      constructor
      · intro hl i
        have : coalesced last ('*' :: cs) = '*' :: coalesced '*' cs := by
          simp [coalesced, hl]
        rw [this]
        exact (ih '*').2 rfl i
      · intro hl i
        subst hl
        have : coalesced '*' ('*' :: cs) = coalesced '*' cs := by
          simp [coalesced]
        rw [this, matches_star_star]
        exact (ih '*').2 rfl i
    · have hco : coalesced last (c :: cs) = c :: coalesced c cs := by
        simp [coalesced, hc]
      rw [hco]
      have h1 : ∀ i, Matches i (c :: coalesced c cs) ↔ Matches i (c :: cs) :=
        matches_congr c _ _ ((ih c).1 hc)
      exact ⟨fun _ => h1, fun _ => matches_congr '*' _ _ h1⟩

theorem coalesced_chain (p : List Char) :
    ∀ last, (coalesced last p).Chain (fun a b => ¬ (a = '*' ∧ b = '*')) last := by
  induction p with
  | nil => intro last; simp [coalesced]
  | cons c cs ih =>
    intro last
    simp only [coalesced]
    split
    · rename_i h
      refine List.Chain.cons ?_ (ih c)
      rintro ⟨h1, h2⟩
      rcases h with h | h
      · exact h h2
      · exact h h1
    · rename_i h
      have h1 : c = '*' := by
        by_contra hc; exact h (Or.inl hc)
      have h2 : last = '*' := by
        by_contra hc; exact h (Or.inr hc)
      subst h1 h2
      exact ih '*'

theorem coalesced_no_star_star (p : List Char) (last : Char) :
    (coalesced last p).Chain' (fun a b => ¬ (a = '*' ∧ b = '*')) :=
  List.Chain'.tail (l := last :: coalesced last p) (coalesced_chain p last)

/-! ## Wildcard matching: `isMatchRecursive` and `isMatch` -/

theorem memo_get_nil (a b : Nat) : Memoizer.get [] a b = none := rfl

theorem memo_get_set (m : Memoizer) (a b : Nat) (r : Bool) (a' b' : Nat) :
    Memoizer.get (m.set a b r) a' b' =
      if (a, b) = (a', b') then some r else m.get a' b' := by
  by_cases h : (a, b) = (a', b')
  · simp [Memoizer.get, Memoizer.set, List.find?_cons, h]
  · simp only [Memoizer.get, Memoizer.set, List.find?_cons, if_neg h]
    simp [h]

theorem suffixOf_of_suffix (l I : List Char) (h : l <:+ I) : suffixOf I l.length = l := by
  obtain ⟨t, rfl⟩ := h
  simp [suffixOf]

theorem memoOK_nil (I P : List Char) : MemoOK I P [] := by
  intro a b r h
  simp [memo_get_nil] at h

theorem memoOK_set (I P : List Char) (m : Memoizer) (input pattern : List Char) (r : Bool)
    (hm : MemoOK I P m) (hi : input <:+ I) (hp : pattern <:+ P)
    (h : r = true ↔ Matches input pattern) :
    MemoOK I P (m.set input.length pattern.length r) := by
  intro a b r' hg
  rw [memo_get_set] at hg
  by_cases hk : (input.length, pattern.length) = (a, b)
  · rw [if_pos hk] at hg
    injection hk with h1 h2
    injection hg with hg
    subst hg
    rw [← h1, ← h2, suffixOf_of_suffix _ _ hi, suffixOf_of_suffix _ _ hp]
    exact h
  · rw [if_neg hk] at hg
    exact hm a b r' hg

theorem pred64_succ (n : Nat) (h : n < 2 ^ 64) : pred64 (n + 1) = n := by
  unfold pred64
  norm_num at h ⊢
  omega

theorem nonStar_le (p : List Char) : nonStar p ≤ p.length := by
  unfold nonStar; omega

theorem isMatchRecursive_succ (fuel : Nat) (input pattern : List Char) (needed : Nat)
    (memoizer : Memoizer) :
    isMatchRecursive (fuel + 1) input pattern needed memoizer =
      if input.length < needed then some (false, memoizer)
      else if pattern = [] then some (decide (input = []), memoizer)
      else if input = [] then some (decide (pattern = ['*']), memoizer)
      else
        match memoizer.get input.length pattern.length with
        | some r => some (r, memoizer)
        | none =>
          match input, pattern with
          | next_char :: input1, next_pattern :: pattern1 =>
            if next_pattern = '*' then
              match isMatchRecursive fuel input1 (next_pattern :: pattern1) needed
                  memoizer with
              | none => none
              | some (true, m1) => some (true, m1.set input.length pattern.length true)
              | some (false, m1) =>
                match isMatchRecursive fuel (next_char :: input1) pattern1 needed m1 with
                | none => none
                | some (r, m2) => some (r, m2.set input.length pattern.length r)
            else if next_pattern = '?' then
              match isMatchRecursive fuel input1 pattern1 (pred64 needed) memoizer with
              | none => none
              | some (r, m1) => some (r, m1.set input.length pattern.length r)
            else if next_char = next_pattern then
              match isMatchRecursive fuel input1 pattern1 (pred64 needed) memoizer with
              | none => none
              | some (r, m1) => some (r, m1.set input.length pattern.length r)
            else some (false, memoizer.set input.length pattern.length false)
          | _, _ => none := by
  rfl

theorem isMatchRecursive_spec (I P : List Char) (hP : P.length < 2 ^ 64) :
    ∀ (fuel : Nat) (input pattern : List Char) (memo : Memoizer),
      input <:+ I → pattern <:+ P →
      pattern.Chain' (fun a b => ¬ (a = '*' ∧ b = '*')) →
      MemoOK I P memo → input.length + pattern.length < fuel →
      ∃ r memo1, isMatchRecursive fuel input pattern (nonStar pattern) memo = some (r, memo1) ∧
        (r = true ↔ Matches input pattern) ∧ MemoOK I P memo1 := by
  intro fuel
  induction fuel with
  | zero => intro input pattern memo _ _ _ _ hf; omega
  | succ fuel ih =>
    intro input pattern memo hi hp hc hm hf
    rw [isMatchRecursive_succ]
    by_cases h1 : input.length < nonStar pattern
    · rw [if_pos h1]
      refine ⟨false, memo, rfl, ?_, hm⟩
      constructor
      · intro h; cases h
      · intro hM
        have := matches_length _ _ hM
        omega
    rw [if_neg h1]
    by_cases h2 : pattern = []
    · rw [if_pos h2]
      refine ⟨_, memo, rfl, ?_, hm⟩
      subst h2
      rw [matches_nil_right]
      simp
    rw [if_neg h2]
    by_cases h3 : input = []
    · rw [if_pos h3]
      refine ⟨_, memo, rfl, ?_, hm⟩
      subst h3
      have hn : nonStar pattern = 0 := by
        simp only [List.length_nil] at h1
        omega
      obtain ⟨e, hM⟩ := matches_nil_left pattern h2 hc hn
      simp only [decide_eq_true_eq]
      exact ⟨fun _ => hM, fun _ => e⟩
    rw [if_neg h3]
    cases hg : memo.get input.length pattern.length with
    | some r =>
      refine ⟨r, memo, rfl, ?_, hm⟩
      have := hm _ _ _ hg
      rw [suffixOf_of_suffix _ _ hi, suffixOf_of_suffix _ _ hp] at this
      exact this
    | none =>
      cases input with
      | nil => exact absurd rfl h3
      | cons nc i1 =>
      cases pattern with
      | nil => exact absurd rfl h2
      | cons np p1 =>
      have hi1 : i1 <:+ I := (List.suffix_cons nc i1).trans hi
      have hp1 : p1 <:+ P := (List.suffix_cons np p1).trans hp
      have hc1 : p1.Chain' (fun a b => ¬ (a = '*' ∧ b = '*')) := hc.tail
      have hlen : p1.length < 2 ^ 64 := by
        have := hp1.length_le
        omega
      have hns : nonStar p1 < 2 ^ 64 := lt_of_le_of_lt (nonStar_le p1) hlen
      simp only [List.length_cons] at hf
      simp only []
      by_cases hs : np = '*'
      · subst hs
        rw [if_pos rfl]
        obtain ⟨r1, m1, e1, s1, hm1⟩ := ih i1 ('*' :: p1) memo hi1 hp hc hm
          (by simp only [List.length_cons]; omega)
        rw [e1]
        cases r1 with
        | true =>
          refine ⟨true, _, rfl, ?_, ?_⟩
          · have hM : Matches (nc :: i1) ('*' :: p1) :=
              (matches_star_step _ _).2 (Or.inr ⟨nc, i1, rfl, s1.1 rfl⟩)
            exact ⟨fun _ => hM, fun _ => rfl⟩
          · exact memoOK_set I P m1 (nc :: i1) ('*' :: p1) true hm1 hi hp
              ⟨fun _ => (matches_star_step _ _).2 (Or.inr ⟨nc, i1, rfl, s1.1 rfl⟩),
                fun _ => rfl⟩
        | false =>
          obtain ⟨r2, m2, e2, s2, hm2⟩ := ih (nc :: i1) p1 m1 hi hp1 hc1 hm1
            (by simp only [List.length_cons]; omega)
          rw [← nonStar_star p1] at e2
          simp only []
          rw [e2]
          have hr : r2 = true ↔ Matches (nc :: i1) ('*' :: p1) := by
            rw [matches_star_step, s2]
            constructor
            · intro h; exact Or.inl h
            · rintro (h | ⟨c, rest, e, h⟩)
              · exact h
              · injection e with _ e
                subst e
                exact absurd (s1.2 h) (by simp)
          exact ⟨r2, _, rfl, hr, memoOK_set I P m2 (nc :: i1) ('*' :: p1) r2 hm2 hi hp hr⟩
      · rw [if_neg hs]
        have hpred : pred64 (nonStar (np :: p1)) = nonStar p1 := by
          rw [nonStar_other np hs, pred64_succ _ hns]
        rw [hpred]
        by_cases hq : np = '?'
        · subst hq
          rw [if_pos rfl]
          obtain ⟨r1, m1, e1, s1, hm1⟩ := ih i1 p1 memo hi1 hp1 hc1 hm (by omega)
          rw [e1]
          have hr : r1 = true ↔ Matches (nc :: i1) ('?' :: p1) := by
            rw [matches_question, s1]
            constructor
            · intro h; exact ⟨nc, i1, rfl, h⟩
            · rintro ⟨c, rest, e, h⟩
              injection e with _ e
              subst e
              exact h
          exact ⟨r1, _, rfl, hr, memoOK_set I P m1 (nc :: i1) ('?' :: p1) r1 hm1 hi hp hr⟩
        · rw [if_neg hq]
          by_cases he : nc = np
          · subst he
            rw [if_pos rfl]
            obtain ⟨r1, m1, e1, s1, hm1⟩ := ih i1 p1 memo hi1 hp1 hc1 hm (by omega)
            rw [e1]
            have hr : r1 = true ↔ Matches (nc :: i1) (nc :: p1) := by
              rw [matches_char nc hs hq, s1]
              constructor
              · intro h; exact ⟨i1, rfl, h⟩
              · rintro ⟨rest, e, h⟩
                injection e with _ e
                subst e
                exact h
            exact ⟨r1, _, rfl, hr, memoOK_set I P m1 (nc :: i1) (nc :: p1) r1 hm1 hi hp hr⟩
          · rw [if_neg he]
            have hr : false = true ↔ Matches (nc :: i1) (np :: p1) := by
              rw [matches_char np hs hq]
              constructor
              · intro h; cases h
              · rintro ⟨rest, e, _⟩
                exact absurd (List.cons.inj e).1 he
            exact ⟨false, _, rfl, hr,
              memoOK_set I P memo (nc :: i1) (np :: p1) false hm hi hp hr⟩

theorem nonStar_eq (p : List Char) :
    p.length - p.countP (fun c => decide (c = '*')) = nonStar p := rfl

theorem coalesced_length_le (p : List Char) :
    (coalesced (Char.ofNat 0) p).length ≤ p.length := coalesced_length p _

theorem isMatch_spec (input pattern : List Char) (hp : pattern.length < 2 ^ 64) :
    ∃ b, isMatch input pattern = some b ∧ (b = true ↔ Matches input pattern) := by
  have hco := coalescePatternWildcards_spec pattern
  have hlen : (coalesced (Char.ofNat 0) pattern).length < 2 ^ 64 :=
    lt_of_le_of_lt (coalesced_length_le pattern) hp
  obtain ⟨r, m, e, hr, _⟩ := isMatchRecursive_spec input (coalesced (Char.ofNat 0) pattern)
    hlen (input.length + (coalesced (Char.ofNat 0) pattern).length + 1) input
    (coalesced (Char.ofNat 0) pattern) [] (List.suffix_refl _) (List.suffix_refl _)
    (coalesced_no_star_star pattern _) (memoOK_nil _ _) (by omega)
  refine ⟨r, ?_, ?_⟩
  · simp only [isMatch, hco, nonStar_eq, e, Option.map_some']
  · rw [hr]
    exact (coalesced_matches pattern (Char.ofNat 0)).1 (by decide) input

/-! ## Wildcard matching: the reference matcher `isMatchRegex` -/

theorem lower_ne_special (c : Char) (h : c.isLower = true) : c ≠ '*' ∧ c ≠ '?' ∧ c ≠ '.' := by
  refine ⟨?_, ?_, ?_⟩ <;> (rintro rfl; exact absurd h (by decide))

theorem patternChar_cases (c : Char) (h : isPatternChar c = true) :
    c = '*' ∨ c = '?' ∨ (c.isLower = true ∧ c ≠ '*' ∧ c ≠ '?' ∧ c ≠ '.') := by
  simp only [isPatternChar, Bool.or_eq_true, decide_eq_true_eq] at h
  rcases h with (h | h) | h
  · exact Or.inr (Or.inr ⟨h, lower_ne_special c h⟩)
  · exact Or.inr (Or.inl h)
  · exact Or.inl h

theorem parse_patternToRegex_aux (pattern : List Char) :
    ∀ (acc : List Char) (ts : List Term),
      (∀ c ∈ pattern, isPatternChar c = true) →
      acc.foldl parseStep (some []) = some ts →
      (pattern.foldl (fun regex_pat c =>
          if c = '*' then regex_pat ++ ['.', '*']
          else if c = '?' then regex_pat ++ ['.']
          else regex_pat ++ [c]) acc).foldl parseStep (some []) =
        some ((pattern.map toTerm).reverse ++ ts) := by
  induction pattern with
  | nil => intro acc ts _ h; simpa using h
  | cons c cs ih =>
    intro acc ts hpc h
    have hc := hpc c (List.mem_cons_self _ _)
    have hcs : ∀ x ∈ cs, isPatternChar x = true := fun x hx => hpc x (List.mem_cons_of_mem _ hx)
    rw [List.foldl_cons]
    rcases patternChar_cases c hc with rfl | rfl | ⟨hl, h1, h2, h3⟩
    · rw [if_pos rfl]
      have := ih (acc ++ ['.', '*']) (Term.mk Atom.any true :: ts) hcs (by
        rw [List.foldl_append, h]
        rfl)
      rw [this]
      simp [toTerm]
    · rw [if_neg (by decide), if_pos rfl]
      have := ih (acc ++ ['.']) (Term.mk Atom.any false :: ts) hcs (by
        rw [List.foldl_append, h]
        rfl)
      rw [this]
      simp [toTerm]
    · rw [if_neg h1, if_neg h2]
      have := ih (acc ++ [c]) (Term.mk (Atom.lit c) false :: ts) hcs (by
        rw [List.foldl_append, h]
        simp only [List.foldl_cons, List.foldl_nil, parseStep, if_neg h1, if_neg h3, hl,
          if_true])
      rw [this]
      simp [toTerm, h1, h2]

theorem parse_patternToRegex (pattern : List Char)
    (hpc : ∀ c ∈ pattern, isPatternChar c = true) :
    parseRegex (patternToRegex pattern) = some (pattern.map toTerm) := by
  have := parse_patternToRegex_aux pattern [] [] hpc rfl
  simp only [parseRegex, patternToRegex, this]
  simp

theorem termsMatch_nil (input : List Char) : termsMatch [] input = decide (input = []) := rfl

theorem termsMatch_star (a : Atom) (ts : List Term) (input : List Char) :
    termsMatch (Term.mk a true :: ts) input =
      (List.range (input.length + 1)).any (fun k =>
        (input.take k).all a.matches && termsMatch ts (input.drop k)) := rfl

theorem termsMatch_one_nil (a : Atom) (ts : List Term) :
    termsMatch (Term.mk a false :: ts) [] = false := rfl

theorem termsMatch_one_cons (a : Atom) (ts : List Term) (c : Char) (rest : List Char) :
    termsMatch (Term.mk a false :: ts) (c :: rest) = (a.matches c && termsMatch ts rest) := rfl

theorem termsMatch_iff_matches (pattern : List Char)
    (hpc : ∀ c ∈ pattern, isPatternChar c = true) :
    ∀ input : List Char, (∀ c ∈ input, isLineTerminator c = false) →
      (termsMatch (pattern.map toTerm) input = true ↔ Matches input pattern) := by
  induction pattern with
  | nil =>
    intro input _
    rw [List.map_nil, termsMatch_nil, matches_nil_right]
    simp
  | cons c cs ih =>
    intro input hin
    have hc := hpc c (List.mem_cons_self _ _)
    have hcs : ∀ x ∈ cs, isPatternChar x = true := fun x hx => hpc x (List.mem_cons_of_mem _ hx)
    have ih := ih hcs
    rw [List.map_cons]
    rcases patternChar_cases c hc with rfl | rfl | ⟨hl, h1, h2, h3⟩
    · have : toTerm '*' = Term.mk Atom.any true := rfl
      rw [this, termsMatch_star, matches_star, List.any_eq_true]
      constructor
      · rintro ⟨k, _, hk⟩
        rw [Bool.and_eq_true] at hk
        refine ⟨input.take k, input.drop k, (List.take_append_drop k input).symm, ?_⟩
        exact (ih _ (fun x hx => hin x (List.mem_of_mem_drop hx))).1 hk.2
      · rintro ⟨s, rest, rfl, hM⟩
        refine ⟨s.length, ?_, ?_⟩
        · rw [List.mem_range, List.length_append]; omega
        · rw [Bool.and_eq_true, List.take_left, List.drop_left]
          constructor
          · rw [List.all_eq_true]
            intro x hx
            simp only [Atom.matches, hin x (List.mem_append_left _ hx), Bool.not_false]
          · exact (ih rest (fun x hx => hin x (List.mem_append_right _ hx))).2 hM
    · have : toTerm '?' = Term.mk Atom.any false := rfl
      rw [this, matches_question]
      cases input with
      | nil =>
        rw [termsMatch_one_nil]
        constructor
        · intro h; cases h
        · rintro ⟨c, rest, e, _⟩; cases e
      | cons x rest =>
        rw [termsMatch_one_cons, Bool.and_eq_true]
        have hx : Atom.any.matches x = true := by
          simp only [Atom.matches, hin x (List.mem_cons_self _ _), Bool.not_false]
        have ihr := ih rest (fun y hy => hin y (List.mem_cons_of_mem _ hy))
        constructor
        · rintro ⟨_, h⟩; exact ⟨x, rest, rfl, ihr.1 h⟩
        · rintro ⟨y, r, e, h⟩
          obtain ⟨_, rfl⟩ := List.cons.inj e
          exact ⟨hx, ihr.2 h⟩
    · have : toTerm c = Term.mk (Atom.lit c) false := by
        simp only [toTerm, if_neg h1, if_neg h2]
      rw [this, matches_char c h1 h2]
      cases input with
      | nil =>
        rw [termsMatch_one_nil]
        constructor
        · intro h; cases h
        · rintro ⟨rest, e, _⟩; cases e
      | cons x rest =>
        rw [termsMatch_one_cons, Bool.and_eq_true]
        have ihr := ih rest (fun y hy => hin y (List.mem_cons_of_mem _ hy))
        constructor
        · rintro ⟨hx, h⟩
          have hx : x = c := by simpa [Atom.matches] using hx
          subst hx
          exact ⟨rest, rfl, ihr.1 h⟩
        · rintro ⟨r, e, h⟩
          obtain ⟨rfl, rfl⟩ := List.cons.inj e
          exact ⟨by simp [Atom.matches], ihr.2 h⟩

theorem isMatchRegex_spec (input pattern : List Char)
    (hpc : ∀ c ∈ pattern, isPatternChar c = true)
    (hin : ∀ c ∈ input, isLineTerminator c = false) :
    ∃ b, isMatchRegex input pattern = some b ∧ (b = true ↔ Matches input pattern) := by
  refine ⟨termsMatch (pattern.map toTerm) input, ?_, termsMatch_iff_matches pattern hpc input hin⟩
  simp only [isMatchRegex, parse_patternToRegex pattern hpc, Option.map_some']

/-- C12 (as stated, refuted): on the input `"\n"` and the pattern `"?"`, made of `'?'` only,
`isMatch` returns true, as the wildcard semantics says, and the reference matcher
`isMatchRegex` returns false: the `.` of a regular expression does not match a line
terminator. -/
theorem isMatch_differs_from_regex_on_newline :
    (∀ c ∈ ['?'], isPatternChar c = true) ∧
      isMatch ['\n'] ['?'] = some true ∧
      isMatchRegex ['\n'] ['?'] = some false := by
  decide

/-- C12 (amended): `isMatch(input, pattern)` returns, and returns true exactly when the
whole input matches the pattern under the wildcard semantics (`'?'` matches exactly one
arbitrary character, `'*'` matches any sequence of characters, the empty one included, every
other character matches itself); when the pattern is made of lowercase letters, `'?'` and
`'*'` and the input holds no line terminator, the reference matcher `isMatchRegex` returns
the same value. -/
theorem isMatch_iff_matches (input pattern : List Char) (hp : pattern.length < 2 ^ 64) :
    ∃ b, isMatch input pattern = some b ∧ (b = true ↔ Matches input pattern) ∧
      ((∀ c ∈ pattern, isPatternChar c = true) →
        (∀ c ∈ input, isLineTerminator c = false) →
        isMatchRegex input pattern = some b) := by
  obtain ⟨b, hb, hM⟩ := isMatch_spec input pattern hp
  refine ⟨b, hb, hM, ?_⟩
  intro hpc hin
  obtain ⟨b2, hb2, hM2⟩ := isMatchRegex_spec input pattern hpc hin
  rw [hb2]
  congr 1
  rw [Bool.eq_iff_iff, hM2, hM]

theorem isMatch_iff_matches_witness :
    "*a*b".toList.length < 2 ^ 64 ∧
      (∃ b, isMatch "adceb".toList "*a*b".toList = some b ∧
        (b = true ↔ Matches "adceb".toList "*a*b".toList) ∧
        ((∀ c ∈ "*a*b".toList, isPatternChar c = true) →
          (∀ c ∈ "adceb".toList, isLineTerminator c = false) →
          isMatchRegex "adceb".toList "*a*b".toList = some b)) ∧
      isMatch "adceb".toList "*a*b".toList = some true ∧
      isMatchRegex "adceb".toList "*a*b".toList = some true ∧
      isMatch "acdcb".toList "a*c?b".toList = some false :=
  ⟨by simp, isMatch_iff_matches "adceb".toList "*a*b".toList (by simp), by decide,
    by decide, by decide⟩

end Wildcard

namespace MergeSorted

/-! ## The in-place merge -/

theorem copyFrom_spec (src W G T : List Int) (hg : G.length = src.length) :
    copyFrom src (W ++ G ++ T) W.length = some (W ++ src ++ T) := by
  induction src generalizing W G with
  | nil =>
    have : G = [] := List.length_eq_zero.1 hg
    subst this
    rfl
  | cons x src ih =>
    cases G with
    | nil => simp at hg
    | cons g G =>
      have hlt : W.length < (W ++ g :: G ++ T).length := by simp
      have hset : (W ++ g :: G ++ T).set W.length x = (W ++ [x]) ++ G ++ T := by
        rw [List.append_assoc, List.set_append_right _ _ (Nat.le_refl _)]
        simp
      have := ih (W ++ [x]) G (by simpa using hg)
      rw [copyFrom, if_pos hlt, hset]
      simpa using this

theorem copyWithin_zero (v : List Int) (it1 out : Nat) :
    copyWithin 0 v it1 out = if it1 = v.length then some v else none := rfl

theorem copyWithin_succ (fuel : Nat) (v : List Int) (it1 out : Nat) :
    copyWithin (fuel + 1) v it1 out =
      if it1 = v.length then some v
      else
        match v[it1]? with
        | some x => if out < v.length then copyWithin fuel (v.set out x) (it1 + 1) (out + 1)
                    else none
        | none => none := rfl

theorem copyWithin_self (fuel : Nat) (v : List Int) (i : Nat) (hi : i ≤ v.length)
    (hf : v.length - i ≤ fuel) : copyWithin fuel v i i = some v := by
  induction fuel generalizing i with
  | zero =>
    rw [copyWithin_zero, if_pos (by omega)]
  | succ fuel ih =>
    rw [copyWithin_succ]
    by_cases he : i = v.length
    · rw [if_pos he]
    · have hlt : i < v.length := by omega
      rw [if_neg he, List.getElem?_eq_getElem hlt]
      simp only [hlt, if_true]
      have hset : v.set i v[i] = v := by
        apply List.ext_getElem (by simp)
        intro j h1 h2
        rw [List.getElem_set]
        split
        · next h => subst h; rfl
        · rfl
      rw [hset]
      exact ih (i + 1) (by omega) (by omega)

theorem mergeLoop_succ (nums2 : List Int) (fuel : Nat) (v : List Int) (out it1 it2 : Nat) :
    mergeLoop nums2 (fuel + 1) v out it1 it2 =
      if it1 = v.length then copyFrom (nums2.drop it2) v out
      else if it2 = nums2.length then copyWithin (v.length - it1) v it1 out
      else
        match v[it1]?, nums2[it2]? with
        | some a, some b =>
          if out < v.length then
            if a < b then mergeLoop nums2 fuel (v.set out a) (out + 1) (it1 + 1) it2
            else mergeLoop nums2 fuel (v.set out b) (out + 1) it1 (it2 + 1)
          else none
        | _, _ => none := rfl

/-- The loop invariant: `nums1` is the merged prefix `W`, then `G`, as many slots as
`nums2` has elements left, then the elements `A` of `nums1` still to be read; `B` are the
elements of `nums2` still to be read. -/
theorem mergeLoop_spec (nums2 : List Int) (fuel : Nat) (A B W G v : List Int)
    (out it1 it2 : Nat) (hv : v = W ++ G ++ A) (hg : G.length = B.length)
    (hout : out = W.length) (hit1 : it1 = W.length + G.length) (hB : nums2.drop it2 = B)
    (hit2 : it2 ≤ nums2.length) (hf : A.length + B.length < fuel)
    (hA : A.Pairwise (fun a b => a ≤ b)) (hBs : B.Pairwise (fun a b => a ≤ b)) :
    ∃ X, mergeLoop nums2 fuel v out it1 it2 = some (W ++ X) ∧ X.Perm (A ++ B) ∧
      X.Pairwise (fun a b => a ≤ b) := by
  induction fuel generalizing A B W G v out it1 it2 with
  | zero => omega
  | succ fuel ih =>
    rw [mergeLoop_succ]
    have hlen : v.length = W.length + G.length + A.length := by
      rw [hv]; simp; omega
    cases A with
    | nil =>
      rw [if_pos (by rw [hlen, hit1]; simp), hB, hv, hout, List.append_nil]
      have := copyFrom_spec B W G [] hg
      simp only [List.append_nil] at this
      exact ⟨B, this, by simp, hBs⟩
    | cons a A =>
      rw [if_neg (by rw [hlen, hit1]; simp)]
      cases B with
      | nil =>
        have hG : G = [] := List.length_eq_zero.1 hg
        subst hG
        have h2 : it2 = nums2.length := by
          have := List.drop_eq_nil_iff.1 hB
          omega
        rw [if_pos h2]
        have hio : it1 = out := by rw [hit1, hout]; simp
        rw [hio, copyWithin_self _ v out (by rw [hlen, hout]; simp) (Nat.le_refl _), hv]
        exact ⟨a :: A, by simp, by simp, hA⟩
      | cons b B =>
        have h2lt : it2 < nums2.length := by
          by_contra hge
          rw [List.drop_eq_nil_of_le (by omega)] at hB
          exact absurd hB (by simp)
        rw [if_neg (by omega)]
        have hb : nums2[it2]? = some b := by
          rw [List.drop_eq_getElem_cons h2lt] at hB
          rw [List.getElem?_eq_getElem h2lt, (List.cons.inj hB).1]
        have hB' : nums2.drop (it2 + 1) = B := by
          rw [List.drop_eq_getElem_cons h2lt] at hB
          exact (List.cons.inj hB).2
        have ha : v[it1]? = some a := by
          have e : it1 = (W ++ G).length := by rw [hit1]; simp
          rw [hv, e, List.getElem?_append_right (Nat.le_refl _)]
          simp
        rw [ha, hb]
        simp only
        cases G with
        | nil => simp at hg
        | cons g G =>
          simp only [List.length_cons] at hg hf hit1
          have holt : out < v.length := by rw [hlen, hout]; simp; omega
          rw [if_pos holt]
          rw [List.pairwise_cons] at hA hBs
          have hset : ∀ x, v.set out x = (W ++ [x]) ++ G ++ a :: A := by
            intro x
            rw [hv, hout, List.append_assoc, List.set_append_right _ _ (Nat.le_refl _)]
            simp
          by_cases hab : a < b
          · rw [if_pos hab]
            obtain ⟨X, h1, h2, h3⟩ := ih A (b :: B) (W ++ [a]) (G ++ [a]) (v.set out a)
              (out + 1) (it1 + 1) it2 (by rw [hset]; simp) (by simp; omega) (by simp [hout])
              (by simp; omega) hB hit2 (by simp; omega) hA.2 (List.pairwise_cons.2 hBs)
            refine ⟨a :: X, by rw [h1]; simp, by simpa using h2, ?_⟩
            rw [List.pairwise_cons]
            refine ⟨?_, h3⟩
            intro x hx
            rcases List.mem_append.1 (h2.mem_iff.1 hx) with h | h
            · exact hA.1 x h
            · rcases List.mem_cons.1 h with rfl | h
              · omega
              · have := hBs.1 x h
                omega
          · rw [if_neg hab]
            obtain ⟨X, h1, h2, h3⟩ := ih (a :: A) B (W ++ [b]) G (v.set out b)
              (out + 1) it1 (it2 + 1) (hset b) (by omega) (by simp [hout])
              (by simp; omega) hB' (by omega) (by simp; omega) (List.pairwise_cons.2 hA)
              hBs.2
            refine ⟨b :: X, by rw [h1]; simp, ?_, ?_⟩
            · exact (h2.cons b).trans List.perm_middle.symm
            · rw [List.pairwise_cons]
              refine ⟨?_, h3⟩
              intro x hx
              rcases List.mem_append.1 (h2.mem_iff.1 hx) with h | h
              · rcases List.mem_cons.1 h with rfl | h
                · omega
                · have := hA.1 x h
                  omega
              · exact hBs.1 x h

theorem rotate_reverse (A Z : List Int) :
    (rotate (A ++ Z).reverse Z.length).reverse = Z ++ A := by
  simp [rotate, List.reverse_append]

theorem merge_core (nums1 nums2 : List Int) (m n : Nat)
    (h1 : nums1.length = m + n) (h2 : nums2.length = n)
    (hs1 : (nums1.take m).Pairwise (fun a b => a ≤ b))
    (hs2 : nums2.Pairwise (fun a b => a ≤ b)) :
    ∃ r, mergeLoop nums2 ((rotate nums1.reverse n).reverse.length + 1)
        (rotate nums1.reverse n).reverse 0 n 0 = some r ∧
      r.Pairwise (fun a b => a ≤ b) ∧ r.Perm (nums1.take m ++ nums2) := by
  have hsplit : nums1 = nums1.take m ++ nums1.drop m := (List.take_append_drop m nums1).symm
  have hz : (nums1.drop m).length = n := by rw [List.length_drop]; omega
  have hv : (rotate nums1.reverse n).reverse = nums1.drop m ++ nums1.take m := by
    conv_lhs => rw [hsplit, ← hz]
    exact rotate_reverse _ _
  obtain ⟨X, hX, hp, hsorted⟩ := mergeLoop_spec nums2
    ((nums1.drop m ++ nums1.take m).length + 1) (nums1.take m) nums2 [] (nums1.drop m)
    (nums1.drop m ++ nums1.take m) 0 n 0 (by simp) (by rw [hz, h2]) rfl (by simp [hz])
    (by simp) (by omega) (by simp; omega) hs1 hs2
  refine ⟨X, ?_, hsorted, hp⟩
  rw [hv]
  simpa using hX

theorem merge_int32_of_range (x : Int) (h1 : -2147483648 ≤ x) (h2 : x ≤ 2147483647) :
    int32 x = some x := by
  simp [int32, INT_MIN, INT_MAX, h1, h2]

theorem merge_int32_overflow (x : Int) (h : 2147483647 < x) : int32 x = none := by
  have : ¬ x ≤ 2147483647 := by omega
  simp [int32, INT_MIN, INT_MAX, this]

theorem merge_none_of_overflow (nums1 nums2 : List Int) (m n : Int)
    (h : 2147483647 < m + n) : merge nums1 m nums2 n = none := by
  simp only [merge, merge_int32_overflow _ h]

theorem toSize_of_range (x : Int) (h1 : 0 ≤ x) (h2 : x ≤ 2147483647) : toSize x = x := by
  unfold toSize
  exact Int.emod_eq_of_lt h1 (by norm_num; omega)

theorem advance_of_range (size : Nat) (k : Nat) (h : k ≤ size) :
    advance size (k : Int) = some k := by
  have : (k : Int) ≤ (size : Int) := by exact_mod_cast h
  simp [advance, this]

/-- C13 (as stated, refuted): for `m = INT_MAX`, `n = 1`, a vector `nums1` of `m + n = 2^31`
zeros and `nums2 = {0}`, both sorted, the sum `m + n` of the first assertion overflows
`int`, which is undefined behaviour: `merge` does not return a result. -/
theorem merge_overflows_past_int_max :
    ((List.replicate 2147483648 (0 : Int)).length : Int) = 2147483647 + 1 ∧
    (([0] : List Int).length : Int) = 1 ∧
    ((List.replicate 2147483648 (0 : Int)).take 2147483647).Pairwise (fun a b => a ≤ b) ∧
    ([0] : List Int).Pairwise (fun a b => a ≤ b) ∧
    merge (List.replicate 2147483648 0) 2147483647 [0] 1 = none := by
  refine ⟨?_, by decide, ?_, by decide, merge_none_of_overflow _ _ _ _ (by norm_num)⟩
  · rw [List.length_replicate]
    norm_num
  · refine List.Pairwise.sublist (List.take_sublist _ _) ?_
    rw [List.pairwise_replicate]
    exact Or.inr (le_refl _)

/-- C13 (amended): for `m, n ≥ 0` with `m + n ≤ INT_MAX`, when `nums1` has `m + n` elements
of which the first `m` are in non-decreasing order, and `nums2` has `n` elements in
non-decreasing order, `merge` returns (both assertions hold and every access is within
bounds, so no element of `nums1` is written over before it is read) and `nums1` is then
in non-decreasing order and a permutation of its first `m` elements together with the
elements of `nums2`. -/
theorem merge_sorts_in_place (nums1 nums2 : List Int) (m n : Int)
    (hm : 0 ≤ m) (hn : 0 ≤ n) (hmn : m + n ≤ 2147483647)
    (h1 : (nums1.length : Int) = m + n) (h2 : (nums2.length : Int) = n)
    (hs1 : (nums1.take m.toNat).Pairwise (fun a b => a ≤ b))
    (hs2 : nums2.Pairwise (fun a b => a ≤ b)) :
    ∃ r, merge nums1 m nums2 n = some r ∧ r.Pairwise (fun a b => a ≤ b) ∧
      r.Perm (nums1.take m.toNat ++ nums2) := by
  obtain ⟨m', rfl⟩ := Int.eq_ofNat_of_zero_le hm
  obtain ⟨n', rfl⟩ := Int.eq_ofNat_of_zero_le hn
  have h1' : nums1.length = m' + n' := by exact_mod_cast h1
  have h2' : nums2.length = n' := by exact_mod_cast h2
  simp only [Int.toNat_ofNat] at hs1 ⊢
  obtain ⟨r, hr, hsorted, hperm⟩ := merge_core nums1 nums2 m' n' h1' h2' hs1 hs2
  refine ⟨r, ?_, hsorted, hperm⟩
  have hsum : int32 ((m' : Int) + (n' : Int)) = some ((m' : Int) + (n' : Int)) :=
    merge_int32_of_range _ (by omega) hmn
  have ht1 : toSize ((m' : Int) + (n' : Int)) = (m' : Int) + (n' : Int) :=
    toSize_of_range _ (by omega) hmn
  have ht2 : toSize (n' : Int) = (n' : Int) := toSize_of_range _ (by omega) (by omega)
  have hadv : advance nums1.length (n' : Int) = some n' :=
    advance_of_range _ _ (by omega)
  simp only [merge, hsum, ht1, ht2, h1, h2, hadv, ne_eq, not_true_eq_false, if_false]
  exact hr

/-- The hypotheses of C13 (amended) hold for the first test case. -/
theorem merge_sorts_in_place_witness :
    (0 : Int) ≤ 3 ∧ (3 : Int) + 3 ≤ 2147483647 ∧
    (([1, 2, 3, 0, 0, 0] : List Int).length : Int) = 3 + 3 ∧
    (([2, 5, 6] : List Int).length : Int) = 3 ∧
    (([1, 2, 3, 0, 0, 0] : List Int).take (3 : Int).toNat).Pairwise (fun a b => a ≤ b) ∧
    ([2, 5, 6] : List Int).Pairwise (fun a b => a ≤ b) ∧
    (∃ r, merge [1, 2, 3, 0, 0, 0] 3 [2, 5, 6] 3 = some r ∧ r.Pairwise (fun a b => a ≤ b) ∧
      r.Perm (([1, 2, 3, 0, 0, 0] : List Int).take (3 : Int).toNat ++ [2, 5, 6])) ∧
    merge [1, 2, 3, 0, 0, 0] 3 [2, 5, 6] 3 = some [1, 2, 2, 3, 5, 6] :=
  ⟨by decide, by decide, by decide, by decide, by decide, by decide,
    merge_sorts_in_place [1, 2, 3, 0, 0, 0] [2, 5, 6] 3 3 (by decide) (by decide) (by decide)
      (by decide) (by decide) (by decide) (by decide), by decide⟩

end MergeSorted

namespace FirstBadVersion

/-! ## Binary search for the first bad version -/

theorem int32_of_range {x : Int} (h1 : -2147483648 ≤ x) (h2 : x ≤ 2147483647) :
    int32 x = some x := by
  simp [int32, INT_MIN, INT_MAX, h1, h2]

theorem loop_zero (f : Int → Bool) (low high : Int) (qs : List Int) :
    loop f 0 low high qs = if low < high then none else some (high, qs) := rfl

theorem loop_succ (f : Int → Bool) (fuel : Nat) (low high : Int) (qs : List Int) :
    loop f (fuel + 1) low high qs =
      if low < high then
        (int32 (high - low)).bind fun d =>
          (int32 (Int.tdiv d 2)).bind fun h =>
            (int32 (h + low)).bind fun mid =>
              if f mid then loop f fuel low mid (qs ++ [mid])
              else (int32 (mid + 1)).bind fun low1 => loop f fuel low1 high (qs ++ [mid])
      else some (high, qs) := rfl

/-- The loop invariant: `1 ≤ low ≤ b ≤ high ≤ n`, the interval is shorter than `2 ^ fuel`,
and all queries so far were within `[1, n]`. -/
theorem loop_spec (n b : Int) (hn : n ≤ 2147483647) (fuel : Nat) (low high : Int)
    (qs : List Int) (h1 : 1 ≤ low) (h2 : low ≤ b) (h3 : b ≤ high) (h4 : high ≤ n)
    (hw : high - low < 2 ^ fuel) (hq : ∀ q ∈ qs, 1 ≤ q ∧ q ≤ n) :
    ∃ qs', loop (fun m => decide (m ≥ b)) fuel low high qs = some (b, qs') ∧
      ∀ q ∈ qs', 1 ≤ q ∧ q ≤ n := by
  induction fuel generalizing low high qs with
  | zero =>
    have : high = low := by
      simp only [pow_zero] at hw
      omega
    have hb : high = b := by omega
    refine ⟨qs, ?_, hq⟩
    rw [loop_zero, if_neg (by omega), hb]
  | succ fuel ih =>
    rw [loop_succ]
    by_cases hlt : low < high
    · rw [if_pos hlt]
      have hd : Int.tdiv (high - low) 2 = (high - low) / 2 :=
        Int.tdiv_eq_ediv (by omega) (by omega)
      have hpow : (2 : Int) ^ (fuel + 1) = 2 * 2 ^ fuel := by
        rw [pow_succ]; ring
      rw [hpow] at hw
      rw [int32_of_range (by omega) (by omega)]
      simp only [Option.some_bind, hd]
      rw [int32_of_range (by omega) (by omega)]
      simp only [Option.some_bind]
      rw [int32_of_range (by omega) (by omega)]
      simp only [Option.some_bind]
      have hq' : ∀ q ∈ qs ++ [(high - low) / 2 + low], 1 ≤ q ∧ q ≤ n := by
        intro q hq1
        rcases List.mem_append.1 hq1 with h | h
        · exact hq q h
        · simp only [List.mem_singleton] at h
          subst h
          constructor <;> omega
      by_cases hbad : (high - low) / 2 + low ≥ b
      · simp only [hbad, decide_True, if_true]
        exact ih low _ _ h1 h2 hbad (by omega) (by omega) hq'
      · simp only [hbad, decide_False, Bool.false_eq_true, if_false]
        rw [int32_of_range (by omega) (by omega)]
        simp only [Option.some_bind]
        exact ih _ high _ (by omega) (by omega) h3 h4 (by omega) hq'
    · rw [if_neg hlt]
      have hb : high = b := by omega
      exact ⟨qs, by rw [hb], hq⟩

/-- C14: for `1 ≤ b ≤ n ≤ 2^31 - 1` and `isBad(m) = (m >= b)`, `firstBadVersion(n, isBad)`
returns `b`: the loop ends within its bound of 32 iterations, no `int` operation
overflows (either would make the model return `none`), and every version the predicate is
queried on lies within `[1, n]`. -/
theorem firstBadVersion_finds_first_bad (n b : Int) (hb1 : 1 ≤ b) (hbn : b ≤ n)
    (hn : n ≤ 2 ^ 31 - 1) :
    ∃ qs, firstBadVersion n (fun m => decide (m ≥ b)) = some (b, qs) ∧
      ∀ q ∈ qs, 1 ≤ q ∧ q ≤ n := by
  have hn' : n ≤ 2147483647 := by
    have : (2 : Int) ^ 31 - 1 = 2147483647 := by norm_num
    omega
  unfold firstBadVersion
  exact loop_spec n b hn' 32 1 n [] (by omega) hb1 hbn (by omega)
    (by norm_num; omega) (by simp)

/-- The hypotheses of C14 hold for the largest `n` with the first bad version at `n`. -/
theorem firstBadVersion_finds_first_bad_witness :
    (1 : Int) ≤ 2147483647 ∧ (2147483647 : Int) ≤ 2147483647 ∧
    (2147483647 : Int) ≤ 2 ^ 31 - 1 ∧
    ∃ qs, firstBadVersion 2147483647 (fun m => decide (m ≥ 2147483647)) =
        some (2147483647, qs) ∧
      ∀ q ∈ qs, 1 ≤ q ∧ q ≤ 2147483647 :=
  ⟨by decide, by decide, by decide,
    firstBadVersion_finds_first_bad 2147483647 2147483647 (by decide) (by decide)
      (by decide)⟩

end FirstBadVersion

namespace NestedIter

/-! ## The iterator returns the integers depth first, left to right -/

theorem weightList_pos (l : List NestedInteger) : 0 < weightList l := by
  cases l with
  | nil => simp [weightList]
  | cons x xs =>
    cases x with
    | int v => simp [weightList, weight]
    | list items => simp [weightList, weight]

theorem advanceLoop_nil (fuel : Nat) : advanceLoop fuel [] = some [] := by
  cases fuel <;> rfl

theorem advanceLoop_pop (fuel : Nat) (rest : List (List NestedInteger)) :
    advanceLoop (fuel + 1) ([] :: rest) = advanceLoop fuel rest := rfl

theorem advanceLoop_push (fuel : Nat) (l cur : List NestedInteger)
    (rest : List (List NestedInteger)) :
    advanceLoop (fuel + 1) ((NestedInteger.list l :: cur) :: rest) =
      advanceLoop fuel (l :: cur :: rest) := rfl

theorem advanceLoop_break (fuel : Nat) (v : Int) (cur : List NestedInteger)
    (rest : List (List NestedInteger)) :
    advanceLoop (fuel + 1) ((NestedInteger.int v :: cur) :: rest) =
      some ((NestedInteger.int v :: cur) :: rest) := rfl

/-- With as many iterations as the weight of the stack the loop of `advance` ends, keeps
the integers still to be returned, and leaves an integer on top unless the stack is empty. -/
theorem advanceLoop_spec (fuel : Nat) (s : List (List NestedInteger))
    (hf : stackWeight s ≤ fuel) :
    ∃ s', advanceLoop fuel s = some s' ∧ remaining s' = remaining s ∧ Ready s' := by
  induction fuel generalizing s with
  | zero =>
    cases s with
    | nil => exact ⟨[], rfl, rfl, trivial⟩
    | cons level rest =>
      have := weightList_pos level
      simp only [stackWeight] at hf
      omega
  | succ fuel ih =>
    cases s with
    | nil => exact ⟨[], rfl, rfl, trivial⟩
    | cons level rest =>
      cases level with
      | nil =>
        obtain ⟨s', h1, h2, h3⟩ := ih rest (by simp [stackWeight, weightList] at hf; omega)
        exact ⟨s', by rw [advanceLoop_pop]; exact h1, by rw [h2]; simp [remaining, flattenList],
          h3⟩
      | cons x cur =>
        cases x with
        | int v => exact ⟨_, advanceLoop_break fuel v cur rest, rfl, trivial⟩
        | list l =>
          obtain ⟨s', h1, h2, h3⟩ := ih (l :: cur :: rest)
            (by simp [stackWeight, weightList, weight] at hf ⊢; omega)
          refine ⟨s', by rw [advanceLoop_push]; exact h1, ?_, h3⟩
          rw [h2]
          simp [remaining, flattenList, flatten]

theorem nested_advance_spec (s : List (List NestedInteger)) :
    ∃ s', NestedIterator.advance { stack_ := s } = some { stack_ := s' } ∧
      remaining s' = remaining s ∧ Ready s' := by
  obtain ⟨s', h1, h2, h3⟩ := advanceLoop_spec (stackWeight s) s (Nat.le_refl _)
  exact ⟨s', by simp [NestedIterator.advance, h1], h2, h3⟩

theorem nested_new_spec (nested : List NestedInteger) :
    ∃ s, NestedIterator.new nested = some { stack_ := s } ∧
      remaining s = flattenList nested ∧ Ready s := by
  obtain ⟨s', h1, h2, h3⟩ := nested_advance_spec [nested]
  exact ⟨s', h1, by rw [h2]; simp [remaining], h3⟩

theorem nested_next_spec (s : List (List NestedInteger)) (hr : Ready s) (hne : s ≠ []) :
    ∃ v s', NestedIterator.next { stack_ := s } = some (v, { stack_ := s' }) ∧
      remaining s = v :: remaining s' ∧ Ready s' := by
  cases s with
  | nil => exact absurd rfl hne
  | cons level rest =>
    cases level with
    | nil => exact absurd hr (by simp [Ready])
    | cons x cur =>
      cases x with
      | list l => exact absurd hr (by simp [Ready])
      | int v =>
        obtain ⟨s', h1, h2, h3⟩ := nested_advance_spec (cur :: rest)
        refine ⟨v, s', ?_, ?_, h3⟩
        · simp only [NestedIterator.next, h1, Option.map_some']
        · rw [h2]
          simp [remaining, flattenList, flatten]

theorem nested_hasNext_iff (s : List (List NestedInteger)) (hr : Ready s) :
    NestedIterator.hasNext { stack_ := s } = true ↔ remaining s ≠ [] := by
  cases s with
  | nil => simp [NestedIterator.hasNext, remaining]
  | cons level rest =>
    cases level with
    | nil => exact absurd hr (by simp [Ready])
    | cons x cur =>
      cases x with
      | list l => exact absurd hr (by simp [Ready])
      | int v => simp [NestedIterator.hasNext, remaining, flattenList, flatten]

theorem nested_nexts_spec (k : Nat) (s : List (List NestedInteger)) (hr : Ready s)
    (hk : k ≤ (remaining s).length) :
    ∃ s', NestedIterator.nexts k { stack_ := s } =
        some ((remaining s).take k, { stack_ := s' }) ∧
      remaining s' = (remaining s).drop k ∧ Ready s' := by
  induction k generalizing s with
  | zero => exact ⟨s, rfl, rfl, hr⟩
  | succ k ih =>
    have hne : s ≠ [] := by
      intro e
      subst e
      simp [remaining] at hk
    obtain ⟨v, s1, h1, h2, h3⟩ := nested_next_spec s hr hne
    rw [h2] at hk ⊢
    obtain ⟨s2, h4, h5, h6⟩ := ih s1 h3 (by simpa using hk)
    refine ⟨s2, ?_, by simpa using h5, h6⟩
    simp only [NestedIterator.nexts, h1, h4, List.take_succ_cons]

theorem nested_drain_zero (it : NestedIterator) :
    it.drain 0 = if it.hasNext then none else some [] := rfl

theorem nested_drain_succ (fuel : Nat) (it : NestedIterator) :
    it.drain (fuel + 1) =
      if it.hasNext then
        match it.next with
        | some (v, it1) =>
          match NestedIterator.drain fuel it1 with
          | some vs => some (v :: vs)
          | none => none
        | none => none
      else some [] := rfl

theorem nested_drain_spec (fuel : Nat) (s : List (List NestedInteger)) (hr : Ready s)
    (hf : (remaining s).length ≤ fuel) :
    NestedIterator.drain fuel { stack_ := s } = some (remaining s) := by
  induction fuel generalizing s with
  | zero =>
    have hnil : remaining s = [] := List.length_eq_zero.1 (by omega)
    have hh : NestedIterator.hasNext { stack_ := s } = false := by
      cases h : NestedIterator.hasNext { stack_ := s }
      · rfl
      · exact absurd hnil ((nested_hasNext_iff s hr).1 h)
    rw [nested_drain_zero, hh, hnil]
    rfl
  | succ fuel ih =>
    by_cases hnil : remaining s = []
    · have hh : NestedIterator.hasNext { stack_ := s } = false := by
        cases h : NestedIterator.hasNext { stack_ := s }
        · rfl
        · exact absurd hnil ((nested_hasNext_iff s hr).1 h)
      rw [nested_drain_succ, hh, hnil]
      rfl
    · have hne : s ≠ [] := by
        intro e
        subst e
        exact hnil rfl
      obtain ⟨v, s1, h1, h2, h3⟩ := nested_next_spec s hr hne
      rw [h2] at hf
      rw [nested_drain_succ, (nested_hasNext_iff s hr).2 hnil, h2]
      simp only [if_true, h1, ih s1 h3 (by simpa using hf)]

/-- C15: for every nested list the constructor succeeds; `k` calls of `next()`, for `k` up
to the number of integers of the structure, succeed and return the first `k` integers in
left-to-right depth-first order; afterwards `hasNext()` is true exactly when integers
remain; and the loop that calls `next()` while `hasNext()` holds ends and returns all the
integers in that order. -/
theorem nested_iterator_flattens (nested : List NestedInteger) (k : Nat)
    (hk : k ≤ (flattenList nested).length) :
    ∃ it0 it, NestedIterator.new nested = some it0 ∧
      it0.nexts k = some ((flattenList nested).take k, it) ∧
      (it.hasNext = true ↔ (flattenList nested).drop k ≠ []) ∧
      (∀ fuel, (flattenList nested).length ≤ fuel →
        it0.drain fuel = some (flattenList nested)) := by
  obtain ⟨s, h1, h2, h3⟩ := nested_new_spec nested
  obtain ⟨s', h4, h5, h6⟩ := nested_nexts_spec k s h3 (by rw [h2]; exact hk)
  refine ⟨_, _, h1, by rw [← h2]; exact h4, ?_, ?_⟩
  · rw [nested_hasNext_iff s' h6, h5, h2]
  · intro fuel hf
    rw [← h2]
    exact nested_drain_spec fuel s h3 (by rw [h2]; exact hf)

/-- The hypothesis of C15 holds for the nested list of the first test case after three
calls. -/
theorem nested_iterator_flattens_witness :
    3 ≤ (flattenList sampleNested).length ∧
    ∃ it0 it, NestedIterator.new sampleNested = some it0 ∧
      it0.nexts 3 = some ((flattenList sampleNested).take 3, it) ∧
      (it.hasNext = true ↔ (flattenList sampleNested).drop 3 ≠ []) ∧
      (∀ fuel, (flattenList sampleNested).length ≤ fuel →
        it0.drain fuel = some (flattenList sampleNested)) :=
  ⟨by decide, nested_iterator_flattens sampleNested 3 (by decide)⟩

end NestedIter

namespace BSTIter

/-! ## The iterator returns the values in in-order -/

theorem remaining_unvisited (l : TreePtr) (v : Int) (r : TreePtr) (rest : List NodeIter) :
    remaining ({ node_ := TreePtr.node l v r, visited_ := false } :: rest) =
      v :: r.inorder ++ remaining rest := rfl

theorem remaining_visited (t : TreePtr) (rest : List NodeIter) :
    remaining ({ node_ := t, visited_ := true } :: rest) = remaining rest := by
  cases t <;> rfl

theorem nextLeafFrom_spec (t : TreePtr) (ht : t ≠ TreePtr.null) (rest : List NodeIter)
    (hrest : ∀ e ∈ rest, e.node_ ≠ TreePtr.null) :
    ∃ s, nextLeafFrom t ({ node_ := t, visited_ := false } :: rest) = some s ∧
      remaining s = t.inorder ++ remaining rest ∧ WellFormed s ∧ s ≠ [] := by
  induction t generalizing rest with
  | null => exact absurd rfl ht
  | node l v r ihl _ =>
    cases l with
    | null =>
      refine ⟨_, rfl, ?_, ⟨?_, ?_⟩, by simp⟩
      · rw [remaining_unvisited]
        simp [TreePtr.inorder]
      · intro e he
        rcases List.mem_cons.1 he with rfl | he
        · exact ht
        · exact hrest e he
      · intro top rest' h
        rw [List.cons.injEq] at h
        rw [← h.1]
    | node ll lv lr =>
      obtain ⟨s, h1, h2, h3, h4⟩ := ihl (by simp)
        ({ node_ := TreePtr.node (TreePtr.node ll lv lr) v r, visited_ := false } :: rest)
        (by
          intro e he
          rcases List.mem_cons.1 he with rfl | he
          · exact ht
          · exact hrest e he)
      refine ⟨s, ?_, ?_, h3, h4⟩
      · rw [nextLeafFrom]
        exact h1
      · rw [h2, remaining_unvisited]
        simp [TreePtr.inorder]

theorem popVisited_spec (s : List NodeIter) (hs : ∀ e ∈ s, e.node_ ≠ TreePtr.null) :
    remaining (popVisited s) = remaining s ∧ WellFormed (popVisited s) := by
  induction s with
  | nil =>
    refine ⟨rfl, ?_, ?_⟩
    · intro e he
      simp [popVisited] at he
    · intro top rest h
      simp [popVisited] at h
  | cons top rest ih =>
    obtain ⟨n, vis⟩ := top
    cases vis with
    | true =>
      have h := ih (fun e he => hs e (List.mem_cons_of_mem _ he))
      simp only [popVisited, if_true]
      rw [remaining_visited]
      exact h
    | false =>
      simp only [popVisited, Bool.false_eq_true, if_false]
      refine ⟨trivial, hs, ?_⟩
      intro top rest' h
      rw [List.cons.injEq] at h
      rw [← h.1]

theorem bst_next_spec (s : List NodeIter) (hw : WellFormed s) (hne : s ≠ []) :
    ∃ v s', BSTIterator.next { stack_ := s } = some (v, { stack_ := s' }) ∧
      remaining s = v :: remaining s' ∧ WellFormed s' := by
  cases s with
  | nil => exact absurd rfl hne
  | cons top rest =>
    obtain ⟨n, vis⟩ := top
    have hvis : vis = false := hw.2 _ _ rfl
    subst hvis
    have hrest : ∀ e ∈ rest, e.node_ ≠ TreePtr.null :=
      fun e he => hw.1 e (List.mem_cons_of_mem _ he)
    cases n with
    | null => exact absurd rfl (hw.1 _ (List.mem_cons_self _ _))
    | node l v r =>
      cases r with
      | null =>
        obtain ⟨h1, h2⟩ := popVisited_spec rest hrest
        refine ⟨v, popVisited rest, rfl, ?_, h2⟩
        rw [remaining_unvisited, h1]
        simp [TreePtr.inorder]
      | node rl rv rr =>
        obtain ⟨s', h1, h2, h3, -⟩ := nextLeafFrom_spec (TreePtr.node rl rv rr) (by simp)
          ({ node_ := TreePtr.node l v (TreePtr.node rl rv rr), visited_ := true } :: rest)
          (by
            intro e he
            rcases List.mem_cons.1 he with rfl | he
            · simp
            · exact hrest e he)
        refine ⟨v, s', ?_, ?_, h3⟩
        · simp only [BSTIterator.next, BSTIterator.nextLeaf, h1, Option.map_some']
        · rw [remaining_unvisited, h2, remaining_visited]
          rfl

theorem bst_hasNext_iff (s : List NodeIter) (hw : WellFormed s) :
    BSTIterator.hasNext { stack_ := s } = true ↔ remaining s ≠ [] := by
  cases s with
  | nil => simp [BSTIterator.hasNext, remaining]
  | cons top rest =>
    obtain ⟨n, vis⟩ := top
    have hvis : vis = false := hw.2 _ _ rfl
    subst hvis
    cases n with
    | null => exact absurd rfl (hw.1 _ (List.mem_cons_self _ _))
    | node l v r =>
      rw [remaining_unvisited]
      simp [BSTIterator.hasNext]

theorem bst_new_spec (root : TreePtr) (hroot : root ≠ TreePtr.null) :
    ∃ s, BSTIterator.new root = some { stack_ := s } ∧ remaining s = root.inorder ∧
      WellFormed s := by
  obtain ⟨s, h1, h2, h3, -⟩ := nextLeafFrom_spec root hroot [] (by simp)
  refine ⟨s, ?_, by simpa [remaining] using h2, h3⟩
  cases root with
  | null => exact absurd rfl hroot
  | node l v r => simp only [BSTIterator.new, BSTIterator.nextLeaf, h1, Option.map_some']

theorem bst_nexts_spec (k : Nat) (s : List NodeIter) (hw : WellFormed s)
    (hk : k ≤ (remaining s).length) :
    ∃ s', BSTIterator.nexts k { stack_ := s } = some ((remaining s).take k, { stack_ := s' }) ∧
      remaining s' = (remaining s).drop k ∧ WellFormed s' := by
  induction k generalizing s with
  | zero => exact ⟨s, rfl, rfl, hw⟩
  | succ k ih =>
    have hne : s ≠ [] := by
      intro e
      subst e
      simp [remaining] at hk
    obtain ⟨v, s1, h1, h2, h3⟩ := bst_next_spec s hw hne
    rw [h2] at hk ⊢
    obtain ⟨s2, h4, h5, h6⟩ := ih s1 h3 (by simpa using hk)
    refine ⟨s2, ?_, by simpa using h5, h6⟩
    simp only [BSTIterator.nexts, h1, h4, List.take_succ_cons]

theorem bst_drain_zero (it : BSTIterator) :
    it.drain 0 = if it.hasNext then none else some [] := rfl

theorem bst_drain_succ (fuel : Nat) (it : BSTIterator) :
    it.drain (fuel + 1) =
      if it.hasNext then
        match it.next with
        | some (v, it1) =>
          match BSTIterator.drain fuel it1 with
          | some vs => some (v :: vs)
          | none => none
        | none => none
      else some [] := rfl

theorem bst_drain_spec (fuel : Nat) (s : List NodeIter) (hw : WellFormed s)
    (hf : (remaining s).length ≤ fuel) :
    BSTIterator.drain fuel { stack_ := s } = some (remaining s) := by
  induction fuel generalizing s with
  | zero =>
    have hnil : remaining s = [] := List.length_eq_zero.1 (by omega)
    have hh : BSTIterator.hasNext { stack_ := s } = false := by
      cases h : BSTIterator.hasNext { stack_ := s }
      · rfl
      · exact absurd hnil ((bst_hasNext_iff s hw).1 h)
    rw [bst_drain_zero, hh, hnil]
    rfl
  | succ fuel ih =>
    by_cases hnil : remaining s = []
    · have hh : BSTIterator.hasNext { stack_ := s } = false := by
        cases h : BSTIterator.hasNext { stack_ := s }
        · rfl
        · exact absurd hnil ((bst_hasNext_iff s hw).1 h)
      rw [bst_drain_succ, hh, hnil]
      rfl
    · have hne : s ≠ [] := by
        intro e
        subst e
        exact hnil rfl
      obtain ⟨v, s1, h1, h2, h3⟩ := bst_next_spec s hw hne
      rw [h2] at hf
      rw [bst_drain_succ, (bst_hasNext_iff s hw).2 hnil, h2]
      simp only [if_true, h1, ih s1 h3 (by simpa using hf)]

theorem length_inorder (t : TreePtr) : t.inorder.length = t.size := by
  induction t with
  | null => rfl
  | node l v r ihl ihr => simp [TreePtr.inorder, TreePtr.size, ihl, ihr]; omega

theorem mem_inorder_of_all {p : Int → Prop} {t : TreePtr} (h : t.All p) :
    ∀ x ∈ t.inorder, p x := by
  induction t with
  | null => simp [TreePtr.inorder]
  | node l v r ihl ihr =>
    obtain ⟨hv, hl, hr⟩ := h
    intro x hx
    simp only [TreePtr.inorder, List.mem_append, List.mem_cons] at hx
    rcases hx with hx | rfl | hx
    · exact ihl hl x hx
    · exact hv
    · exact ihr hr x hx

theorem inorder_sorted_of_isBST (t : TreePtr) (h : t.IsBST) :
    t.inorder.Pairwise (fun a b => a < b) := by
  induction t with
  | null => simp [TreePtr.inorder]
  | node l v r ihl ihr =>
    obtain ⟨hl, hr, bl, br⟩ := h
    simp only [TreePtr.inorder]
    rw [List.pairwise_append, List.pairwise_cons]
    refine ⟨ihl bl, ⟨mem_inorder_of_all hr, ihr br⟩, ?_⟩
    intro a ha b hb
    have h1 : a < v := mem_inorder_of_all hl a ha
    rcases List.mem_cons.1 hb with rfl | hb
    · exact h1
    · have h2 : v < b := mem_inorder_of_all hr b hb
      omega

/-- C16: for a non-null `root` the constructor succeeds; `k ≤ size` calls of `next()` return
the first `k` values of the in-order sequence of the tree, and afterwards `hasNext()` is
true exactly when `k` is less than the number of nodes; the loop that calls `next()` while
`hasNext()` holds returns the whole in-order sequence; and for a binary search tree that
sequence is strictly ascending. -/
theorem bst_iterator_yields_inorder (root : TreePtr) (k : Nat) (hroot : root ≠ TreePtr.null)
    (hk : k ≤ root.size) :
    ∃ it0 it, BSTIterator.new root = some it0 ∧
      it0.nexts k = some (root.inorder.take k, it) ∧
      (it.hasNext = true ↔ k < root.size) ∧
      (∀ fuel, root.size ≤ fuel → it0.drain fuel = some root.inorder) ∧
      (root.IsBST → root.inorder.Pairwise (fun a b => a < b)) := by
  obtain ⟨s, h1, h2, h3⟩ := bst_new_spec root hroot
  obtain ⟨s', h4, h5, h6⟩ := bst_nexts_spec k s h3 (by rw [h2, length_inorder]; exact hk)
  refine ⟨_, _, h1, by rw [← h2]; exact h4, ?_, ?_, inorder_sorted_of_isBST root⟩
  · rw [bst_hasNext_iff s' h6, h5, h2, ne_eq, List.drop_eq_nil_iff, length_inorder]
    omega
  · intro fuel hf
    rw [← h2]
    exact bst_drain_spec fuel s h3 (by rw [h2, length_inorder]; exact hf)

/-- The hypotheses of C16 hold for the seven-node tree of the tests after three calls. -/
theorem bst_iterator_yields_inorder_witness :
    sampleTree ≠ TreePtr.null ∧ 3 ≤ sampleTree.size ∧
    ∃ it0 it, BSTIterator.new sampleTree = some it0 ∧
      it0.nexts 3 = some (sampleTree.inorder.take 3, it) ∧
      (it.hasNext = true ↔ 3 < sampleTree.size) ∧
      (∀ fuel, sampleTree.size ≤ fuel → it0.drain fuel = some sampleTree.inorder) ∧
      (sampleTree.IsBST → sampleTree.inorder.Pairwise (fun a b => a < b)) :=
  ⟨by decide, by decide, bst_iterator_yields_inorder sampleTree 3 (by decide) (by decide)⟩

end BSTIter

namespace Peeking

/-! ## The peeking iterator is a cursor -/

theorem peeking_advance {b : Iterator} {o : Option Int} {nums : List Int} {k : Nat}
    (hn : b.nums = nums) (he : b.end_ = nums.length) (hc : b.current_ = min k nums.length) :
    ∃ it, PeekingIterator.advance { base := b, next_ := o } = some it ∧ Cursor it nums k := by
  by_cases hk : k < nums.length
  · have hcur : b.current_ = k := by rw [hc]; omega
    have hh : b.hasNext = true := by
      simp only [Iterator.hasNext, decide_eq_true_eq, hcur, he]
      omega
    have hget : b.nums[b.current_]? = some nums[k] := by
      rw [hn, hcur]
      exact List.getElem?_eq_getElem hk
    refine ⟨{ base := { b with current_ := b.current_ + 1 }, next_ := some nums[k] }, ?_, ?_⟩
    · simp [PeekingIterator.advance, hh, Iterator.next, hget]
    · refine ⟨hn, he, ?_, ?_⟩
      · exact (List.getElem?_eq_getElem hk).symm
      · simp only [hcur]
        omega
  · have hcur : b.current_ = nums.length := by rw [hc]; omega
    have hh : b.hasNext = false := by
      simp [Iterator.hasNext, hcur, he]
    refine ⟨{ base := b, next_ := none }, ?_, ?_⟩
    · simp [PeekingIterator.advance, hh]
    · refine ⟨hn, he, ?_, ?_⟩
      · exact (List.getElem?_eq_none (by omega)).symm
      · simp only [hcur]
        omega

theorem peeking_new (nums : List Int) :
    ∃ it, PeekingIterator.new nums = some it ∧ Cursor it nums 0 := by
  unfold PeekingIterator.new
  exact peeking_advance rfl rfl (by simp [Iterator.new])

theorem peeking_hasNext {it : PeekingIterator} {nums : List Int} {k : Nat}
    (c : Cursor it nums k) : it.hasNext = true ↔ k < nums.length := by
  unfold PeekingIterator.hasNext
  rw [c.next_eq]
  constructor
  · intro h
    by_contra hk
    rw [List.getElem?_eq_none (by omega)] at h
    simp at h
  · intro h
    rw [List.getElem?_eq_getElem h]
    rfl

theorem peeking_peek {it : PeekingIterator} {nums : List Int} {k : Nat}
    (c : Cursor it nums k) (hk : k < nums.length) : it.peek = some (nums[k], it) := by
  unfold PeekingIterator.peek
  rw [c.next_eq, List.getElem?_eq_getElem hk]

theorem peeking_next {it : PeekingIterator} {nums : List Int} {k : Nat}
    (c : Cursor it nums k) (hk : k < nums.length) :
    ∃ it1, it.next = some (nums[k], it1) ∧ Cursor it1 nums (k + 1) := by
  obtain ⟨it1, ha, c1⟩ := @peeking_advance it.base it.next_ nums (k + 1) c.nums_eq c.end_eq
    c.current_eq
  refine ⟨it1, ?_, c1⟩
  have hit : ({ base := it.base, next_ := it.next_ } : PeekingIterator) = it := rfl
  rw [hit] at ha
  unfold PeekingIterator.next
  rw [c.next_eq, List.getElem?_eq_getElem hk]
  simp only [ha]

theorem peeking_nexts {it : PeekingIterator} {nums : List Int} {k : Nat} (j : Nat)
    (c : Cursor it nums k) (hk : k + j ≤ nums.length) :
    ∃ it1, it.nexts j = some ((nums.drop k).take j, it1) ∧ Cursor it1 nums (k + j) := by
  induction j generalizing it k with
  | zero => exact ⟨it, by simp [PeekingIterator.nexts], c⟩
  | succ j ih =>
    obtain ⟨it1, hn, c1⟩ := peeking_next c (by omega)
    obtain ⟨it2, hn2, c2⟩ := ih c1 (by omega)
    refine ⟨it2, ?_, by rw [← Nat.add_assoc, Nat.add_right_comm]; exact c2⟩
    have hd : nums.drop k = nums[k] :: nums.drop (k + 1) := List.drop_eq_getElem_cons (by omega)
    simp only [PeekingIterator.nexts, hn, hn2, hd, List.take_succ_cons]

theorem peeking_drain_zero (it : PeekingIterator) :
    it.drain 0 = if it.hasNext then none else some [] := rfl

theorem peeking_drain_succ (fuel : Nat) (it : PeekingIterator) :
    it.drain (fuel + 1) =
      if it.hasNext then
        match it.next with
        | some (v, it1) =>
          match PeekingIterator.drain fuel it1 with
          | some vs => some (v :: vs)
          | none => none
        | none => none
      else some [] := rfl

theorem peeking_drain {it : PeekingIterator} {nums : List Int} {k : Nat} (fuel : Nat)
    (c : Cursor it nums k) (hf : nums.length ≤ k + fuel) :
    it.drain fuel = some (nums.drop k) := by
  induction fuel generalizing it k with
  | zero =>
    have hh : it.hasNext = false := by
      have := peeking_hasNext c
      cases h : it.hasNext
      · rfl
      · have := this.1 h
        omega
    have : nums.drop k = [] := List.drop_eq_nil_of_le (by omega)
    rw [peeking_drain_zero, hh, this]
    rfl
  | succ fuel ih =>
    by_cases hk : k < nums.length
    · obtain ⟨it1, hn, c1⟩ := peeking_next c hk
      have hd : nums.drop k = nums[k] :: nums.drop (k + 1) := List.drop_eq_getElem_cons hk
      rw [peeking_drain_succ, (peeking_hasNext c).2 hk, hd]
      simp only [if_true, hn, ih c1 (by omega)]
    · have hh : it.hasNext = false := by
        have := peeking_hasNext c
        cases h : it.hasNext
        · rfl
        · exact absurd (this.1 h) hk
      have : nums.drop k = [] := List.drop_eq_nil_of_le (by omega)
      rw [peeking_drain_succ, hh, this]
      rfl

/-- C17: for every vector `nums` and every `k ≤ nums.size()`, construction succeeds and `k`
calls of `next()` return the first `k` elements; in the state then reached `hasNext()` is
true exactly when elements remain; when `x` is the first remaining element `peek()`
returns `x` and leaves the iterator as it is, and `next()` returns `x` and leads to a state
whose remaining elements are those after `x`; draining a state yields its remaining
elements in order, and draining a fresh iterator yields the whole vector. -/
theorem peeking_iterator_is_cursor (nums : List Int) (k : Nat) (hk : k ≤ nums.length) :
    ∃ it0 it, PeekingIterator.new nums = some it0 ∧ it0.nexts k = some (nums.take k, it) ∧
      (it.hasNext = true ↔ nums.drop k ≠ []) ∧
      (∀ x rest, nums.drop k = x :: rest →
        it.peek = some (x, it) ∧
        ∃ it1, it.next = some (x, it1) ∧ (it1.hasNext = true ↔ rest ≠ []) ∧
          ∀ fuel, rest.length ≤ fuel → it1.drain fuel = some rest) ∧
      (∀ fuel, (nums.drop k).length ≤ fuel → it.drain fuel = some (nums.drop k)) ∧
      (∀ fuel, nums.length ≤ fuel → it0.drain fuel = some nums) := by
  obtain ⟨it0, h0, c0⟩ := peeking_new nums
  obtain ⟨it, hn, c⟩ := peeking_nexts k c0 (by omega)
  rw [Nat.zero_add] at c
  rw [List.drop_zero] at hn
  refine ⟨it0, it, h0, hn, ?_, ?_, ?_, ?_⟩
  · rw [peeking_hasNext c, ne_eq, List.drop_eq_nil_iff]
    omega
  · intro x rest hd
    have hlt : k < nums.length := by
      by_contra hge
      rw [List.drop_eq_nil_of_le (by omega)] at hd
      exact absurd hd (by simp)
    have hx : nums[k] = x := by
      rw [List.drop_eq_getElem_cons hlt] at hd
      exact (List.cons.inj hd).1
    have hrest : nums.drop (k + 1) = rest := by
      rw [List.drop_eq_getElem_cons hlt] at hd
      exact (List.cons.inj hd).2
    obtain ⟨it1, hn1, c1⟩ := peeking_next c hlt
    refine ⟨hx ▸ peeking_peek c hlt, it1, hx ▸ hn1, ?_, ?_⟩
    · rw [peeking_hasNext c1, ← hrest, ne_eq, List.drop_eq_nil_iff]
      omega
    intro fuel hf
    rw [← hrest]
    apply peeking_drain fuel c1
    rw [← hrest, List.length_drop] at hf
    omega
  · intro fuel hf
    apply peeking_drain fuel c
    rw [List.length_drop] at hf
    omega
  · intro fuel hf
    have := peeking_drain fuel c0 (by omega)
    simpa using this

/-- The hypothesis of C17 holds for the vector `{1, 2, 3, 4}` after two calls of `next()`. -/
theorem peeking_iterator_is_cursor_witness :
    2 ≤ ([1, 2, 3, 4] : List Int).length ∧
    ∃ it0 it, PeekingIterator.new [1, 2, 3, 4] = some it0 ∧
      it0.nexts 2 = some (([1, 2, 3, 4] : List Int).take 2, it) ∧
      (it.hasNext = true ↔ ([1, 2, 3, 4] : List Int).drop 2 ≠ []) ∧
      (∀ x rest, ([1, 2, 3, 4] : List Int).drop 2 = x :: rest →
        it.peek = some (x, it) ∧
        ∃ it1, it.next = some (x, it1) ∧ (it1.hasNext = true ↔ rest ≠ []) ∧
          ∀ fuel, rest.length ≤ fuel → it1.drain fuel = some rest) ∧
      (∀ fuel, (([1, 2, 3, 4] : List Int).drop 2).length ≤ fuel →
        it.drain fuel = some (([1, 2, 3, 4] : List Int).drop 2)) ∧
      (∀ fuel, ([1, 2, 3, 4] : List Int).length ≤ fuel → it0.drain fuel = some [1, 2, 3, 4]) :=
  ⟨by decide, peeking_iterator_is_cursor [1, 2, 3, 4] 2 (by decide)⟩

end Peeking

namespace RemoveDuplicates

/-! ## `std::unique` keeps the head of every group of equal neighbours -/

/-- One step of `groupHeads`. -/
theorem groupHeads_step (acc : List Int) (x : Int) (l : List Int) :
    (x :: l).foldl (fun acc x => if acc.getLast? = some x then acc else acc ++ [x]) acc =
      l.foldl (fun acc x => if acc.getLast? = some x then acc else acc ++ [x])
        (if acc.getLast? = some x then acc else acc ++ [x]) := rfl

theorem uniqueLoop_succ (fuel : Nat) (vec : List Int) (result first : Nat) :
    uniqueLoop (fuel + 1) vec result first =
      if first + 1 = vec.length then some (vec, result + 1)
      else
        match vec[result]?, vec[first + 1]? with
        | some r, some f =>
          if r ≠ f then
            if result + 1 ≠ first + 1 then
              if result + 1 < vec.length then
                uniqueLoop fuel (vec.set (result + 1) f) (result + 1) (first + 1)
              else none
            else uniqueLoop fuel vec (result + 1) (first + 1)
          else uniqueLoop fuel vec result (first + 1)
        | _, _ => none := rfl

/-- The loop invariant: the vector is the kept elements `W ++ [w]`, then `G` (slots that
were skipped), then the elements `R` still to be read. -/
theorem uniqueLoop_spec (R : List Int) (W : List Int) (w : Int) (G : List Int) (fuel : Nat)
    (vec : List Int) (result first : Nat) (hf : R.length < fuel)
    (hvec : vec = W ++ w :: (G ++ R)) (hres : result = W.length)
    (hfirst : first = W.length + G.length) :
    ∃ G', uniqueLoop fuel vec result first =
        some (R.foldl (fun acc x => if acc.getLast? = some x then acc else acc ++ [x])
            (W ++ [w]) ++ G',
          (R.foldl (fun acc x => if acc.getLast? = some x then acc else acc ++ [x])
            (W ++ [w])).length) ∧
      (R.foldl (fun acc x => if acc.getLast? = some x then acc else acc ++ [x])
            (W ++ [w])).length + G'.length = vec.length := by
  induction R generalizing W w G fuel vec result first with
  | nil =>
    obtain ⟨fuel, rfl⟩ : ∃ f, fuel = f + 1 := ⟨fuel - 1, by simp at hf; omega⟩
    subst hvec hres hfirst
    refine ⟨G, ?_, by simp; omega⟩
    rw [uniqueLoop_succ, if_pos (by simp; omega)]
    simp
  | cons x R ih =>
    obtain ⟨fuel, rfl⟩ : ∃ f, fuel = f + 1 := ⟨fuel - 1, by simp at hf; omega⟩
    simp only [List.length_cons] at hf
    have hlen : vec.length = W.length + 1 + G.length + 1 + R.length := by
      rw [hvec]; simp; omega
    rw [uniqueLoop_succ, if_neg (by omega)]
    have hr : vec[result]? = some w := by
      rw [hvec, hres, List.getElem?_append_right (Nat.le_refl _)]
      simp
    have hx : vec[first + 1]? = some x := by
      have e : W ++ w :: (G ++ x :: R) = (W ++ w :: G) ++ x :: R := by simp
      have e2 : first + 1 = (W ++ w :: G).length := by simp; omega
      rw [hvec, e, e2, List.getElem?_append_right (Nat.le_refl _)]
      simp
    rw [hr, hx]
    simp only
    have hlast : (W ++ [w]).getLast? = some w := by simp
    rw [groupHeads_step, hlast]
    by_cases hwx : w = x
    · subst hwx
      simp only [ne_eq, not_true_eq_false, if_false, if_true]
      exact ih W w (G ++ [w]) fuel vec result (first + 1) (by omega) (by rw [hvec]; simp) hres
        (by simp; omega)
    · have hne : ¬ (some w = some x) := fun e => hwx (Option.some.inj e)
      simp only [ne_eq, hwx, not_false_eq_true, if_true, hne, if_false]
      cases G with
      | nil =>
        have e1 : result + 1 = first + 1 := by simp at hfirst; omega
        simp only [e1, not_true_eq_false, if_false]
        exact ih (W ++ [w]) x [] fuel vec (first + 1) (first + 1) (by omega)
          (by rw [hvec]; simp) (by simp; simp at hfirst; omega) (by simp; simp at hfirst; omega)
      | cons g G =>
        have hne2 : ¬ result + 1 = first + 1 := by simp at hfirst; omega
        rw [if_pos hne2, if_pos (by omega)]
        have hset : vec.set (result + 1) x = (W ++ [w]) ++ x :: (G ++ [x] ++ R) := by
          have e : W ++ w :: (g :: G ++ x :: R) = (W ++ [w]) ++ (g :: (G ++ x :: R)) := by simp
          have e2 : result + 1 = (W ++ [w]).length := by simp; omega
          rw [hvec, e, e2, List.set_append_right _ _ (Nat.le_refl _)]
          simp
        obtain ⟨G', h1, h2⟩ := ih (W ++ [w]) x (G ++ [x]) fuel (vec.set (result + 1) x)
          (result + 1) (first + 1) (by omega) hset (by simp; omega)
          (by simp; simp at hfirst; omega)
        exact ⟨G', h1, by rw [h2]; simp⟩

theorem unique_spec (vec : List Int) :
    ∃ G, unique vec = some (groupHeads vec ++ G, (groupHeads vec).length) ∧
      (groupHeads vec).length + G.length = vec.length := by
  cases vec with
  | nil => exact ⟨[], by simp [unique, groupHeads], by simp [groupHeads]⟩
  | cons w R =>
    obtain ⟨G', h, hl⟩ := uniqueLoop_spec R [] w [] (w :: R).length (w :: R) 0 0 (by simp)
      rfl rfl rfl
    refine ⟨G', ?_, ?_⟩
    · simp only [unique, List.length_cons, Nat.add_one_ne_zero, if_false]
      simpa [groupHeads] using h
    · simpa [groupHeads] using hl

theorem groupHeads_concat (l : List Int) (x : Int) :
    groupHeads (l ++ [x]) =
      if (groupHeads l).getLast? = some x then groupHeads l else groupHeads l ++ [x] := by
  simp [groupHeads, List.foldl_append]

theorem le_getLast_of_sorted {l : List Int} (hs : l.Pairwise (fun a b => a ≤ b)) {y z : Int}
    (hy : y ∈ l) (hz : l.getLast? = some z) : y ≤ z := by
  induction l using List.reverseRecOn with
  | nil => simp at hy
  | append_singleton l w _ =>
    rw [List.getLast?_concat, Option.some.injEq] at hz
    subst hz
    rw [List.pairwise_append] at hs
    rcases List.mem_append.1 hy with h | h
    · exact hs.2.2 y h w (by simp)
    · simp only [List.mem_singleton] at h
      omega

/-- On a vector in non-decreasing order the heads of the groups are strictly increasing,
are the values of the vector, and end with the last element of the vector. -/
theorem groupHeads_sorted (l : List Int) (hs : l.Pairwise (fun a b => a ≤ b)) :
    (groupHeads l).Pairwise (fun a b => a < b) ∧ (∀ y, y ∈ groupHeads l ↔ y ∈ l) ∧
      (groupHeads l).getLast? = l.getLast? := by
  induction l using List.reverseRecOn with
  | nil => simp [groupHeads]
  | append_singleton l x ih =>
    rw [List.pairwise_append] at hs
    obtain ⟨ih1, ih2, ih3⟩ := ih hs.1
    rw [groupHeads_concat]
    by_cases hx : (groupHeads l).getLast? = some x
    · rw [if_pos hx]
      have hxm : x ∈ l := (ih2 x).1 (List.mem_of_getLast?_eq_some hx)
      refine ⟨ih1, ?_, by simp [hx]⟩
      intro y
      rw [ih2 y]
      simp only [List.mem_append, List.mem_singleton]
      constructor
      · exact Or.inl
      · rintro (h | h)
        · exact h
        · exact h ▸ hxm
    · rw [if_neg hx]
      refine ⟨?_, ?_, by simp⟩
      · rw [List.pairwise_append]
        refine ⟨ih1, List.pairwise_singleton _ _, ?_⟩
        intro y hy z hz
        simp only [List.mem_singleton] at hz
        subst hz
        have hyl : y ∈ l := (ih2 y).1 hy
        have hle : y ≤ z := hs.2.2 y hyl z (by simp)
        rcases lt_or_eq_of_le hle with h | h
        · exact h
        · exfalso
          subst h
          cases hl : l.getLast? with
          | none =>
            rw [List.getLast?_eq_none_iff] at hl
            subst hl
            simp at hyl
          | some w =>
            have h1 : y ≤ w := le_getLast_of_sorted hs.1 hyl hl
            have h2 : w ≤ y := hs.2.2 w (List.mem_of_getLast?_eq_some hl) y (by simp)
            have : w = y := by omega
            rw [ih3, hl, this] at hx
            exact hx rfl
      · intro y
        simp only [List.mem_append, List.mem_singleton, ih2 y]

/-- C18: for a vector in non-decreasing order `removeDuplicates` returns the number of
distinct values of the vector, leaves the size of the vector as it is, and the first `k`
elements afterwards are strictly increasing and are exactly the values of the original
vector. -/
theorem removeDuplicates_keeps_distinct_values (nums : List Int)
    (hs : nums.Pairwise (fun a b => a ≤ b)) :
    ∃ k vec, removeDuplicates nums = some (k, vec) ∧ k = nums.toFinset.card ∧
      vec.length = nums.length ∧ (vec.take k).Pairwise (fun a b => a < b) ∧
      ∀ x, x ∈ vec.take k ↔ x ∈ nums := by
  obtain ⟨G, hu, hl⟩ := unique_spec nums
  obtain ⟨h1, h2, -⟩ := groupHeads_sorted nums hs
  have htake : (groupHeads nums ++ G).take (groupHeads nums).length = groupHeads nums := by
    simp
  refine ⟨(groupHeads nums).length, groupHeads nums ++ G, ?_, ?_, ?_, ?_, ?_⟩
  · simp [removeDuplicates, hu]
  · have hnd : (groupHeads nums).Nodup := h1.imp (fun h => ne_of_lt h)
    have hfs : (groupHeads nums).toFinset = nums.toFinset := by
      ext y
      simp [h2 y]
    rw [← hfs, List.toFinset_card_of_nodup hnd]
  · rw [List.length_append, hl]
  · rw [htake]
    exact h1
  · intro x
    rw [htake]
    exact h2 x

/-- The hypothesis of C18 holds for the vector `{0, 0, 1, 1, 1, 1, 2, 3, 3}` of the tests. -/
theorem removeDuplicates_keeps_distinct_values_witness :
    ([0, 0, 1, 1, 1, 1, 2, 3, 3] : List Int).Pairwise (fun a b => a ≤ b) ∧
    ∃ k vec, removeDuplicates [0, 0, 1, 1, 1, 1, 2, 3, 3] = some (k, vec) ∧
      k = ([0, 0, 1, 1, 1, 1, 2, 3, 3] : List Int).toFinset.card ∧
      vec.length = ([0, 0, 1, 1, 1, 1, 2, 3, 3] : List Int).length ∧
      (vec.take k).Pairwise (fun a b => a < b) ∧
      ∀ x, x ∈ vec.take k ↔ x ∈ ([0, 0, 1, 1, 1, 1, 2, 3, 3] : List Int) :=
  ⟨by decide, removeDuplicates_keeps_distinct_values [0, 0, 1, 1, 1, 1, 2, 3, 3] (by decide)⟩

end RemoveDuplicates
